import Mathlib

set_option maxHeartbeats 1000000
set_option linter.unusedVariables false
set_option linter.unreachableTactic false
set_option linter.unusedTactic false

/-!
Verification of the B-Tree library in `btree.go` (package `btree`).

The Go source is embedded shallowly: slices become `List`s, in-place node
mutation becomes value-returning functions, `nil` items become `Option α`,
and panics (out-of-range indexing, nil dereference) become the `crash`
result.  The user-supplied comparison `Item.Less(than, ctx)` is a function
`lt : α → α → Bool`; the opaque `ctx` value is threaded through every
comparison in the source without being inspected, so it is folded into `lt`.

The source file is truncated after line 392 (mid-way through the doc comment
of `iterate`): the `BTree` struct itself, the tree façade (`ReplaceOrInsert`,
`Delete`, `Len`, `BTree.newNode`, `BTree.freeNode`) and `iterate` are not
under `src/`.  Those parts are modelled from the spec and marked
`Modelled from the spec:` in their doc comments.  Everything else is a direct
translation of the source.  The source contains obvious typographical slips
(`strealFrom` for `stealFrom`, `mergerItem`/`mergerChild` for
`mergeItem`/`mergeChild`, `dgree` for `degree`, `(**s)` for `(*s)`,
`children` for `n.children`); the embedding reads them as the evidently
intended identifiers, as the spec's design notes direct.

Recursion over the tree uses an explicit `fuel` parameter: the Go functions
recurse through freshly mutated children (and `growChildAndRemove` re-invokes
`remove` on the same node), which has no structural measure.  `fuel` is
decremented once per recursive invocation and `noFuel` is returned when it
runs out; the theorems show concrete bounds in the height of the tree make
`noFuel` unreachable.
-/

namespace BTreeGo

/-- Mirrors `items.insertAt` / `children.insertAt` from btree.go: insert a
value at `index`, pushing all subsequent values forward.  Every call site in
the source has `index ≤ length` (Go would panic otherwise). -/
def listInsertAt {β : Type} (s : List β) (index : Nat) (a : β) : List β :=
  s.take index ++ a :: s.drop index

/-- Mirrors `items.removeAt` / `children.removeAt` from btree.go: return the
value at `index` and the list with it removed.  `none` models the
out-of-range panic. -/
def listRemoveAt {β : Type} (s : List β) (index : Nat) : Option (β × List β) :=
  match s.get? index with
  | none => none
  | some a => some (a, s.take index ++ s.drop (index + 1))

/-- Mirrors `items.pop` / `children.pop` from btree.go: return the last
element and the list with it removed.  `none` models the panic on an empty
list. -/
def listPop {β : Type} (s : List β) : Option (β × List β) :=
  match s.getLast? with
  | none => none
  | some a => some (a, s.dropLast)

/-- The binary-search loop inside `items.find`:
`for i < j { h := i+(j-i)/2; if !item.Less(s[h]) { i = h+1 } else { j = h } }`.
The first argument after `s` is an iteration bound: each iteration shrinks
`j - i` by at least one, so passing `s.length` (as `items.find` does) always
suffices.  The `none` branch of the index lookup is unreachable when
`j ≤ s.length`. -/
def findLoop {α : Type} (lt : α → α → Bool) (item : α) (s : List α) :
    Nat → Nat → Nat → Nat
  | 0, i, _ => i
  | d+1, i, j =>
    if i < j then
      let h := i + (j - i) / 2
      match s.get? h with
      | some sh => if !(lt item sh) then findLoop lt item s d (h+1) j
                   else findLoop lt item s d i h
      | none => i
    else i

/-- Mirrors `items.find` from btree.go: binary search for the insertion index
of `item`, with `found` reporting an equivalent element at `index`. -/
def items.find {α : Type} (lt : α → α → Bool) (s : List α) (item : α) :
    Nat × Bool :=
  let i := findLoop lt item s s.length 0 s.length
  if 0 < i then
    match s.get? (i - 1) with
    | some prev => if !(lt prev item) then (i - 1, true) else (i, false)
    | none => (i, false)
  else (i, false)

/-- Mirrors the `node` struct: an ordered item sequence and a (possibly
empty) child sequence. -/
inductive node (α : Type) : Type
  | mk (items : List α) (children : List (node α)) : node α

def node.items {α : Type} : node α → List α
  | .mk its _ => its

def node.children {α : Type} : node α → List (node α)
  | .mk _ chs => chs

mutual
/-- In-order item sequence of the subtree rooted at a node
(`c0, i0, c1, i1, …, ck`): the observable content of the subtree. -/
def flatten {α : Type} : node α → List α
  | .mk its chs => flattenAux its chs
termination_by n => sizeOf n
decreasing_by all_goals (simp_wf <;> omega)

/-- Interleaves child subtrees and separator items, child first. -/
def flattenAux {α : Type} : List α → List (node α) → List α
  | its, [] => its
  | its, c :: cs =>
    flatten c ++
      (match its with
       | [] => flattenAux [] cs
       | i :: is2 => i :: flattenAux is2 cs)
termination_by its chs => sizeOf chs
decreasing_by all_goals (simp_wf <;> omega)
end

mutual
/-- Height of a node: 0 for a leaf, one more than the tallest child
otherwise. -/
def height {α : Type} : node α → Nat
  | .mk _ chs => heightAux chs
termination_by n => sizeOf n
decreasing_by all_goals (simp_wf <;> omega)

def heightAux {α : Type} : List (node α) → Nat
  | [] => 0
  | c :: cs => Nat.max (height c + 1) (heightAux cs)
termination_by chs => sizeOf chs
decreasing_by all_goals (simp_wf <;> omega)
end

mutual
/-- The arity invariant stated on the `node` struct: every reachable node has
either `len(children) == 0` or `len(children) == len(items) + 1`. -/
def arity {α : Type} : node α → Bool
  | .mk its chs => (chs.length == 0 || chs.length == its.length + 1) && arityAux chs
termination_by n => sizeOf n
decreasing_by all_goals (simp_wf <;> omega)

def arityAux {α : Type} : List (node α) → Bool
  | [] => true
  | c :: cs => arity c && arityAux cs
termination_by chs => sizeOf chs
decreasing_by all_goals (simp_wf <;> omega)
end

/-- All nodes in the list have the height of the first one. -/
def sameHeight {α : Type} : List (node α) → Bool
  | [] => true
  | c :: cs => cs.all (fun d => height d == height c)

mutual
/-- Height balance: all children of every reachable node have equal
height (hence all leaves are at the same depth). -/
def balanced {α : Type} : node α → Bool
  | .mk _ chs => balancedAux chs && sameHeight chs
termination_by n => sizeOf n
decreasing_by all_goals (simp_wf <;> omega)

def balancedAux {α : Type} : List (node α) → Bool
  | [] => true
  | c :: cs => balanced c && balancedAux cs
termination_by chs => sizeOf chs
decreasing_by all_goals (simp_wf <;> omega)
end

mutual
/-- Occupancy: every node strictly below this one holds at least `m`
items (the non-root minimum-occupancy invariant, `m = minItems`). -/
def occ {α : Type} (m : Nat) : node α → Bool
  | .mk _ chs => occAux m chs
termination_by n => sizeOf n
decreasing_by all_goals (simp_wf <;> omega)

def occAux {α : Type} (m : Nat) : List (node α) → Bool
  | [] => true
  | c :: cs => (decide (m ≤ (node.items c).length)) && occ m c && occAux m cs
termination_by chs => sizeOf chs
decreasing_by all_goals (simp_wf <;> omega)
end

/-- Mirrors `node.split`: the item at index `i` becomes the pivot, a new
sibling receives everything after it, and the original keeps `items[:i]` and
`children[:i+1]`.  Returns `(pivot, shrunk original, new sibling)`; `none`
models the panic when `i` is out of range.  The fresh sibling from
`n.t.newNode()` is blank (see `FreeList`), so it is built directly. -/
def node.split {α : Type} (n : node α) (i : Nat) : Option (α × node α × node α) :=
  match (node.items n).get? i with
  | none => none
  | some item =>
    let next : node α := .mk ((node.items n).drop (i+1))
      (if 0 < (node.children n).length then (node.children n).drop (i+1) else [])
    let left : node α := .mk ((node.items n).take i)
      (if 0 < (node.children n).length then (node.children n).take (i+1) else node.children n)
    some (item, left, next)

/-- Mirrors `node.maybeSplitChild`: split child `i` at `maxItems/2` if it has
at least `maxItems` items, promoting the pivot into this node.  Returns
whether a split occurred together with the updated node. -/
def node.maybeSplitChild {α : Type} (n : node α) (i maxItems : Nat) :
    Option (Bool × node α) :=
  match (node.children n).get? i with
  | none => none
  | some first =>
    if (node.items first).length < maxItems then some (false, n)
    else
      match node.split first (maxItems / 2) with
      | none => none
      | some (item, first', second) =>
        some (true, .mk (listInsertAt (node.items n) i item)
          (listInsertAt ((node.children n).set i first') (i+1) second))

/-- Result of a mutating node operation: the Go return value (`nil` ⇒
`none`) together with the updated node, or `crash` (a Go panic / nil
dereference) or `noFuel` (recursion bound exhausted — never happens for
adequate fuel, see the theorems). -/
inductive OpResult (α : Type) : Type
  | ok (out : Option α) (n : node α) : OpResult α
  | crash : OpResult α
  | noFuel : OpResult α

/-- Mirrors `node.insert`: replace an equivalent item in this node, insert
into a leaf, or pre-emptively split the target child and descend. -/
def node.insert {α : Type} (lt : α → α → Bool) (maxItems : Nat) :
    Nat → node α → α → OpResult α
  | 0, _, _ => .noFuel
  | fuel+1, n, item =>
    match items.find lt (node.items n) item with
    | (i, true) =>
      match (node.items n).get? i with
      | none => .crash
      | some out => .ok (some out) (.mk ((node.items n).set i item) (node.children n))
    | (i, false) =>
      if (node.children n).length == 0 then
        .ok none (.mk (listInsertAt (node.items n) i item) (node.children n))
      else
        match node.maybeSplitChild n i maxItems with
        | none => .crash
        | some (didSplit, n1) =>
          let cont : Nat → OpResult α := fun i2 =>
            match (node.children n1).get? i2 with
            | none => .crash
            | some c =>
              match node.insert lt maxItems fuel c item with
              | .ok r c' => .ok r (.mk (node.items n1) ((node.children n1).set i2 c'))
              | e => e
          if didSplit then
            match (node.items n1).get? i with
            | none => .crash
            | some inTree =>
              if lt item inTree then cont i
              else if lt inTree item then cont (i+1)
              else .ok (some inTree) (.mk ((node.items n1).set i item) (node.children n1))
          else cont i

/-- The `toRemove` enumeration of btree.go. -/
inductive toRemove : Type
  | removeItem
  | removeMin
  | removeMax

/-- The target-index computation of `node.remove`'s `switch` on a non-leaf
node: `removeMax` descends at `len(items)`, `removeMin` at 0, `removeItem`
binary-searches this node's items.  `none` models the nil dereference when
`removeItem` is invoked with a nil item. -/
def selectIndex {α : Type} (lt : α → α → Bool) (its : List α) (item : Option α) :
    toRemove → Option (Nat × Bool)
  | .removeMax => some (its.length, false)
  | .removeMin => some (0, false)
  | .removeItem =>
    match item with
    | none => none
    | some x => some (items.find lt its x)

/-- The steal-from-left-sibling branch of `node.growChildAndRemove`: pop the
left sibling's last item, push the separator `items[i-1]` onto the front of
child `i`, move the stolen item into `items[i-1]`, and (for internal
siblings) transfer the sibling's last child to the front of child `i`. -/
def stealLeftAdj {α : Type} (n : node α) (i : Nat) : Option (node α) :=
  match (node.children n).get? i, (node.children n).get? (i-1),
        (node.items n).get? (i-1) with
  | some child, some stealFrom, some sep =>
    match listPop (node.items stealFrom) with
    | none => none
    | some (stolenItem, sfIts) =>
      match listPop (node.children stealFrom) with
      | some (lastC, sfChs) =>
        let child' : node α := .mk (listInsertAt (node.items child) 0 sep)
          (listInsertAt (node.children child) 0 lastC)
        let sib' : node α := .mk sfIts sfChs
        some (.mk ((node.items n).set (i-1) stolenItem)
          (((node.children n).set (i-1) sib').set i child'))
      | none =>
        let child' : node α := .mk (listInsertAt (node.items child) 0 sep)
          (node.children child)
        let sib' : node α := .mk sfIts (node.children stealFrom)
        some (.mk ((node.items n).set (i-1) stolenItem)
          (((node.children n).set (i-1) sib').set i child'))
  | _, _, _ => none

/-- The steal-from-right-sibling branch of `node.growChildAndRemove`:
remove the right sibling's first item, append the separator `items[i]` to
child `i`, move the stolen item into `items[i]`, and (for internal siblings)
transfer the sibling's first child to the end of child `i`. -/
def stealRightAdj {α : Type} (n : node α) (i : Nat) : Option (node α) :=
  match (node.children n).get? i, (node.children n).get? (i+1),
        (node.items n).get? i with
  | some child, some stealFrom, some sep =>
    match listRemoveAt (node.items stealFrom) 0 with
    | none => none
    | some (stolenItem, sfIts) =>
      match listRemoveAt (node.children stealFrom) 0 with
      | some (firstC, sfChs) =>
        let child' : node α := .mk ((node.items child) ++ [sep])
          ((node.children child) ++ [firstC])
        let sib' : node α := .mk sfIts sfChs
        some (.mk ((node.items n).set i stolenItem)
          (((node.children n).set (i+1) sib').set i child'))
      | none =>
        let child' : node α := .mk ((node.items child) ++ [sep])
          (node.children child)
        let sib' : node α := .mk sfIts (node.children stealFrom)
        some (.mk ((node.items n).set i stolenItem)
          (((node.children n).set (i+1) sib').set i child'))
  | _, _, _ => none

/-- The merge branch of `node.growChildAndRemove`: after decrementing `i`
when there is no right neighbor, remove the separator `items[i]` and the
right neighbor `children[i+1]` and append both (separator, then the
neighbor's items and children) to child `i`.  The freed neighbor goes to the
free-list (modelled separately, see `FreeList`).  The `i = 0` with no items
case models the Go panic on the index `-1`. -/
def mergeAdj {α : Type} (n : node α) (i : Nat) : Option (node α) :=
  match (if (node.items n).length ≤ i then (if i = 0 then none else some (i-1))
         else some i) with
  | none => none
  | some i2 =>
    match (node.children n).get? i2, listRemoveAt (node.items n) i2,
          listRemoveAt (node.children n) (i2+1) with
    | some child, some (mergeItem, its'), some (mergeChild, chs') =>
      let child' : node α := .mk ((node.items child) ++ mergeItem :: (node.items mergeChild))
        ((node.children child) ++ (node.children mergeChild))
      some (.mk its' (chs'.set i2 child'))
    | _, _, _ => none

/-- The adjustment phase of `node.growChildAndRemove` (everything before the
final `n.remove` retry): steal from the left sibling if it can spare an item,
else from the right sibling, else merge with a neighbor. -/
def growAdjust {α : Type} (n : node α) (i minItems : Nat) : Option (node α) :=
  match (node.children n).get? i with
  | none => none
  | some _ =>
    let leftOK :=
      decide (0 < i) &&
        (match (node.children n).get? (i-1) with
         | some sib => decide (minItems < (node.items sib).length)
         | none => false)
    let rightOK :=
      decide (i < (node.items n).length) &&
        (match (node.children n).get? (i+1) with
         | some sib => decide (minItems < (node.items sib).length)
         | none => false)
    if leftOK then stealLeftAdj n i
    else if rightOK then stealRightAdj n i
    else mergeAdj n i

/-- Mirrors `node.remove`: on a leaf, pop / remove-at-0 / remove-found
according to the mode; otherwise select the child index, grow the child
first when it is at `minItems` or fewer items, pull the predecessor when the
item sits in this node, or descend. -/
def node.remove {α : Type} (lt : α → α → Bool) (minItems : Nat) :
    Nat → node α → Option α → toRemove → OpResult α
  | 0, _, _, _ => .noFuel
  | fuel+1, n, item, typ =>
    if (node.children n).length == 0 then
      match typ with
      | .removeMax =>
        match listPop (node.items n) with
        | some (x, its') => .ok (some x) (.mk its' (node.children n))
        | none => .crash
      | .removeMin =>
        match listRemoveAt (node.items n) 0 with
        | some (x, its') => .ok (some x) (.mk its' (node.children n))
        | none => .crash
      | .removeItem =>
        match item with
        | none => .crash
        | some x =>
          match items.find lt (node.items n) x with
          | (i, true) =>
            match listRemoveAt (node.items n) i with
            | some (y, its') => .ok (some y) (.mk its' (node.children n))
            | none => .crash
          | (_, false) => .ok none n
    else
      match selectIndex lt (node.items n) item typ with
      | none => .crash
      | some (i, found) =>
        match (node.children n).get? i with
        | none => .crash
        | some child =>
          if (node.items child).length ≤ minItems then
            match growAdjust n i minItems with
            | none => .crash
            | some n2 => node.remove lt minItems fuel n2 item typ
          else if found then
            match (node.items n).get? i with
            | none => .crash
            | some out =>
              match node.remove lt minItems fuel child none .removeMax with
              | .ok (some p) child' =>
                .ok (some out) (.mk ((node.items n).set i p) ((node.children n).set i child'))
              | .ok none _ => .crash
              | e => e
          else
            match node.remove lt minItems fuel child item typ with
            | .ok r child' => .ok r (.mk (node.items n) ((node.children n).set i child'))
            | e => e

/-- Mirrors `node.growChildAndRemove`: perform the steal/merge adjustment and
re-invoke `remove` on the adjusted node.  `node.remove`'s grow branch is
definitionally this function applied at one fuel less. -/
def growChildAndRemove {α : Type} (lt : α → α → Bool) (minItems : Nat) (fuel : Nat)
    (n : node α) (i : Nat) (item : Option α) (typ : toRemove) : OpResult α :=
  match growAdjust n i minItems with
  | none => .crash
  | some n2 => node.remove lt minItems fuel n2 item typ

/-- The constant `DefaultFreeListSize` of btree.go. -/
def DefaultFreeListSize : Nat := 32

/-- Mirrors the `FreeList` struct: a bounded stack of reusable nodes.  The Go
slice's fixed capacity (`make([]*node, 0, size)`) is carried explicitly as
`cap`. -/
structure FreeList (α : Type) : Type where
  freelist : List (node α)
  cap : Nat

/-- Mirrors `NewFreeList`: an empty list with the given maximum size. -/
def NewFreeList (α : Type) (size : Nat) : FreeList α := ⟨[], size⟩

/-- Mirrors `FreeList.newNode`: pop the top of the stack if nonempty, else
allocate a fresh blank node. -/
def FreeList.newNode {α : Type} (f : FreeList α) : node α × FreeList α :=
  match f.freelist.getLast? with
  | none => (.mk [] [], f)
  | some n => (n, ⟨f.freelist.dropLast, f.cap⟩)

/-- Mirrors `FreeList.freeNode`: push if below capacity, else drop. -/
def FreeList.freeNode {α : Type} (f : FreeList α) (n : node α) : FreeList α :=
  if f.freelist.length < f.cap then ⟨f.freelist ++ [n], f.cap⟩ else f

/-- The `BTree` struct.  `degree`, `freelist` and `ctx` appear in the source
(in `NewWithFreeList`); the struct definition itself is beyond the truncation
point, so `root` and `length` are modelled from the spec (§3 Tree: "the
optional root (absent when empty) … and the item count").  The opaque `ctx`
is folded into the comparison function. -/
structure BTree (α : Type) : Type where
  degree : Int
  freelist : FreeList α
  root : Option (node α)
  length : Nat

/-- Mirrors `NewWithFreeList`: panics (`.error`) on `degree <= 1`, else an
empty tree with the given free list.  (The source writes the parameter as
`dgree` in `New` but passes `degree`; the intended parameter is used.) -/
def NewWithFreeList {α : Type} (degree : Int) (f : FreeList α) : Except Unit (BTree α) :=
  if degree ≤ 1 then .error () else .ok ⟨degree, f, none, 0⟩

/-- Mirrors `New`: a private free list of the default capacity. -/
def New (α : Type) (degree : Int) : Except Unit (BTree α) :=
  NewWithFreeList degree (NewFreeList α DefaultFreeListSize)

/-- Modelled from the spec: `BTree.freeNode` is beyond the truncation point.
Spec §4.4/§3 describe the free-list as holding reusable *blank* node objects,
so the tree-level release clears the node's items and children before handing
it to the bounded stack (pushing the blank value). -/
def BTree.freeNode {α : Type} (t : BTree α) (_n : node α) : BTree α :=
  { t with freelist := t.freelist.freeNode (.mk [] []) }

/-- Modelled from the spec: `BTree.newNode` (beyond the truncation point)
obtains a node from the pool. -/
def BTree.newNode {α : Type} (t : BTree α) : node α × BTree α :=
  let p := t.freelist.newNode
  (p.1, { t with freelist := p.2 })

/-- Modelled from the spec (§3): `maxItems = 2d − 1`. -/
def BTree.maxItems {α : Type} (t : BTree α) : Nat := 2 * t.degree.toNat - 1

/-- Modelled from the spec (§3): `minItems = d − 1`. -/
def BTree.minItems {α : Type} (t : BTree α) : Nat := t.degree.toNat - 1

/-- Observable content of the tree: the in-order item sequence of the
root's subtree. -/
def BTree.toList {α : Type} (t : BTree α) : List α :=
  match t.root with
  | none => []
  | some r => flatten r

/-- Modelled from the spec (§4.5): `deleteInternal` delegates to
`root.remove`; afterwards an item-empty root collapses to its single child
(released to the free-list) or, when also child-empty, to the absent root;
the length decreases when something was removed.  `none` is a crash or
exhausted fuel. -/
def BTree.deleteInternal {α : Type} (lt : α → α → Bool) (fuel : Nat) (t : BTree α)
    (item : Option α) (typ : toRemove) : Option (Option α × BTree α) :=
  match t.root with
  | none => some (none, t)
  | some r =>
    if (node.items r).length == 0 then some (none, t)
    else
      match node.remove lt t.minItems fuel r item typ with
      | .ok out r' =>
        let collapsed : Option (node α) × FreeList α :=
          if (node.items r').length == 0 then
            match node.children r' with
            | [] => (none, t.freelist.freeNode (.mk [] []))
            | c :: _ => (some c, t.freelist.freeNode (.mk [] []))
          else (some r', t.freelist)
        some (out, { t with
          root := collapsed.1
          freelist := collapsed.2
          length := (match out with | some _ => t.length - 1 | none => t.length) })
      | _ => none

/-- Modelled from the spec (§4.5): `delete(x)` is
`deleteInternal(x, removeItem)`. -/
def BTree.Delete {α : Type} (lt : α → α → Bool) (fuel : Nat) (t : BTree α) (x : α) :
    Option (Option α × BTree α) :=
  BTree.deleteInternal lt fuel t (some x) .removeItem

/-- Modelled from the spec (§4.5): `replaceOrInsert` creates a singleton
root when empty, splits a full root (new root: the pivot with the two halves
as children), then delegates to `root.insert`; the length grows when nothing
was replaced. -/
def BTree.ReplaceOrInsert {α : Type} (lt : α → α → Bool) (fuel : Nat) (t : BTree α)
    (x : α) : Option (Option α × BTree α) :=
  match t.root with
  | none => some (none, { t with root := some (.mk [x] []), length := t.length + 1 })
  | some r =>
    let r1step : Option (node α) :=
      if t.maxItems ≤ (node.items r).length then
        match node.split r (t.maxItems / 2) with
        | some (item2, left, second) => some (.mk [item2] [left, second])
        | none => none
      else some r
    match r1step with
    | none => none
    | some r1 =>
      match node.insert lt t.maxItems fuel r1 x with
      | .ok out r2 =>
        some (out, { t with
          root := some r2
          length := (match out with | some _ => t.length | none => t.length + 1) })
      | _ => none

/-! ## Basic predicates used by the claims -/

/-- Equivalence induced by the strict weak ordering: neither side compares
less than the other. -/
def equivI {α : Type} (lt : α → α → Bool) (a b : α) : Prop :=
  lt a b = false ∧ lt b a = false

/-- The free-list pool holds only blank nodes. -/
def blankPool {α : Type} (f : FreeList α) : Prop :=
  ∀ nd ∈ f.freelist, nd = node.mk [] []

/-! ## C8: constructor degree check -/

/-- C8: `New` fails (`panic("bad degree")`, the spec's `invalidArgument`) for
every `degree < 2`, and for `degree ≥ 2` builds an empty tree (absent root,
zero length) whose private free-list is empty with capacity
`DefaultFreeListSize = 32`; `NewWithFreeList` applies the same degree check
with the caller-supplied pool. -/
theorem New_degree_check (α : Type) (degree : Int) (f : FreeList α) :
    (degree < 2 →
      New α degree = .error () ∧
      NewWithFreeList degree f = (.error () : Except Unit (BTree α))) ∧
    (2 ≤ degree →
      New α degree = .ok ⟨degree, ⟨[], 32⟩, none, 0⟩ ∧
      NewWithFreeList degree f = .ok ⟨degree, f, none, 0⟩) := by
  constructor
  · intro h
    have h1 : degree ≤ 1 := by omega
    simp [New, NewWithFreeList, NewFreeList, DefaultFreeListSize, h1]
  · intro h
    have h1 : ¬ (degree ≤ 1) := by omega
    simp [New, NewWithFreeList, NewFreeList, DefaultFreeListSize, h1]

theorem New_degree_check_witness :
    New Nat 1 = .error () ∧
    New Nat 3 = .ok ⟨3, ⟨[], 32⟩, none, 0⟩ :=
  ⟨((New_degree_check Nat 1 (NewFreeList Nat 32)).1 (by decide)).1,
   ((New_degree_check Nat 3 (NewFreeList Nat 32)).2 (by decide)).1⟩

/-! ## C9: the free-list holds blanks and is bounded -/

/-- C9: the pool holds only blank nodes and is bounded: `newNode` always
returns a node with empty items and empty children (whether popped or
fresh) and never grows the list; `FreeList.freeNode` pushes exactly while
below the capacity fixed at creation and silently drops otherwise, so a list
within its capacity stays within it; and the tree-level release
(`BTree.freeNode`) only ever pushes blank nodes, preserving the pool
invariant. -/
theorem freelist_blank_bounded (α : Type) :
    (∀ f : FreeList α, blankPool f →
      node.items f.newNode.1 = [] ∧ node.children f.newNode.1 = [] ∧
      blankPool f.newNode.2 ∧
      f.newNode.2.freelist.length ≤ f.freelist.length ∧
      f.newNode.2.cap = f.cap) ∧
    (∀ (f : FreeList α) (nd : node α),
      (f.freelist.length < f.cap →
        (f.freeNode nd).freelist = f.freelist ++ [nd] ∧ (f.freeNode nd).cap = f.cap) ∧
      (f.cap ≤ f.freelist.length → f.freeNode nd = f) ∧
      (f.freelist.length ≤ f.cap → (f.freeNode nd).freelist.length ≤ f.cap)) ∧
    (∀ (t : BTree α) (nd : node α), blankPool t.freelist →
      blankPool (t.freeNode nd).freelist) := by
  refine ⟨fun f hb => ?_, fun f nd => ?_, fun t nd hb => ?_⟩
  · cases hl : f.freelist.getLast? with
    | none =>
      simp [FreeList.newNode, hl, node.items, node.children, hb]
    | some n =>
      have hopt : n ∈ f.freelist.getLast? := by rw [hl]; rfl
      obtain ⟨hne, hEq⟩ := List.mem_getLast?_eq_getLast hopt
      have hmem : n ∈ f.freelist := by rw [hEq]; exact List.getLast_mem hne
      have hn := hb n hmem
      subst hn
      refine ⟨by simp [FreeList.newNode, hl, node.items],
              by simp [FreeList.newNode, hl, node.children], ?_, ?_, ?_⟩
      · intro nd hnd
        exact hb nd ((List.dropLast_sublist f.freelist).subset
          (by simpa [FreeList.newNode, hl] using hnd))
      · simp [FreeList.newNode, hl, List.length_dropLast]
      · simp [FreeList.newNode, hl]
  · refine ⟨fun h => ?_, fun h => ?_, fun h => ?_⟩
    · simp [FreeList.freeNode, h]
    · have h1 : ¬ (f.freelist.length < f.cap) := by omega
      simp [FreeList.freeNode, h1]
    · by_cases h1 : f.freelist.length < f.cap
      · simp [FreeList.freeNode, h1]
        omega
      · simp [FreeList.freeNode, h1, h]
  · intro nd2 hnd2
    by_cases h1 : t.freelist.freelist.length < t.freelist.cap
    · rcases (by simpa [BTree.freeNode, FreeList.freeNode, h1] using hnd2 :
        nd2 ∈ t.freelist.freelist ∨ nd2 = node.mk [] []) with hmem | hmem
      · exact hb nd2 hmem
      · exact hmem
    · exact hb nd2 (by simpa [BTree.freeNode, FreeList.freeNode, h1] using hnd2)

theorem freelist_blank_bounded_witness :
    node.items ((NewFreeList Nat 4).newNode.1) = [] ∧
    ((NewFreeList Nat 4).freeNode (node.mk [] [])).freelist.length ≤ 4 :=
  ⟨((freelist_blank_bounded Nat).1 (NewFreeList Nat 4) (by intro nd h; simp [NewFreeList] at h)).1,
   (((freelist_blank_bounded Nat).2.1 (NewFreeList Nat 4) (node.mk [] [])).2.2 (by simp [NewFreeList]))⟩

/-! ## C4: split -/

/-- C4: when the node has at least `i+1` items, `split i` returns the pivot
`items[i]` and a new sibling holding exactly the items after index `i` and,
for an internal node, exactly the children after index `i`, while the
original keeps `items[:i]` and `children[:i+1]`; with the split index fixed
at `maxItems/2` on a full node of `maxItems = 2d−1` items, both halves hold
exactly `d−1 = minItems` items. -/
theorem split_spec {α : Type} (n : node α) (i : Nat) :
    (∀ x, (node.items n).get? i = some x →
      ∃ l r, node.split n i = some (x, l, r) ∧
        node.items l = (node.items n).take i ∧
        node.items r = (node.items n).drop (i+1) ∧
        (node.children n = [] → node.children l = [] ∧ node.children r = []) ∧
        (node.children n ≠ [] →
          node.children l = (node.children n).take (i+1) ∧
          node.children r = (node.children n).drop (i+1))) ∧
    (∀ d : Nat, 1 ≤ d → (node.items n).length = 2 * d - 1 → i = (2 * d - 1) / 2 →
      ∃ x2 l2 r2, node.split n i = some (x2, l2, r2) ∧
        (node.items l2).length = d - 1 ∧ (node.items r2).length = d - 1) := by
  rcases n with ⟨its, chs⟩
  constructor
  · intro x hx
    simp only [node.items] at hx
    have hx' : its[i]? = some x := by rw [← List.get?_eq_getElem?]; exact hx
    refine ⟨node.mk (its.take i) (if 0 < chs.length then chs.take (i+1) else chs),
      node.mk (its.drop (i+1)) (if 0 < chs.length then chs.drop (i+1) else []),
      ?_, by simp [node.items], by simp [node.items], ?_, ?_⟩
    · simp [node.split, node.items, node.children, hx']
    · intro h
      simp only [node.children] at h
      subst h
      simp [node.children]
    · intro h
      simp only [node.children] at h ⊢
      have h0 : 0 < chs.length := List.length_pos.mpr h
      simp [h0]
  · intro d hd hlen hi
    simp only [node.items] at hlen
    have hlt : i < its.length := by subst hi; rw [hlen]; omega
    have hx := List.get?_eq_get hlt
    have hx' : its[i]? = some (its.get ⟨i, hlt⟩) := by
      rw [← List.get?_eq_getElem?]; exact hx
    refine ⟨its.get ⟨i, hlt⟩,
      node.mk (its.take i) (if 0 < chs.length then chs.take (i+1) else chs),
      node.mk (its.drop (i+1)) (if 0 < chs.length then chs.drop (i+1) else []),
      ?_, ?_, ?_⟩
    · simp [node.split, node.items, node.children, hx']
    · simp only [node.items, List.length_take]
      subst hi; rw [hlen]
      omega
    · simp only [node.items, List.length_drop]
      subst hi; rw [hlen]
      omega

theorem split_spec_witness :
    ∃ x2 l2 r2, node.split (node.mk [10, 20, 30] ([] : List (node Nat))) 1 = some (x2, l2, r2) ∧
      (node.items l2).length = 1 ∧ (node.items r2).length = 1 :=
  (split_spec (node.mk [10, 20, 30] ([] : List (node Nat))) 1).2 2 (by decide)
    (by decide) (by decide)

/-! ## C10: removeMin / removeMax never touch the item argument -/

/-- C10: with mode `removeMin` or `removeMax`, `node.remove` never reads the
item argument and never invokes the comparison function on it: the result is
independent of both the item argument and the comparison, so the
predecessor-pull's nil item (`child.remove(nil, minItems, removeMax, ctx)`)
is never dereferenced. -/
theorem remove_minmax_ignores_item {α : Type} (lt1 lt2 : α → α → Bool)
    (m fuel : Nat) (n : node α) (it1 it2 : Option α) (typ : toRemove)
    (h : typ = .removeMin ∨ typ = .removeMax) :
    node.remove lt1 m fuel n it1 typ = node.remove lt2 m fuel n it2 typ := by
  induction fuel generalizing n with
  | zero => rfl
  | succ fuel ih =>
    rcases h with h | h <;> subst h <;>
      simp only [node.remove, selectIndex] <;>
      by_cases hleaf : ((node.children n).length == 0) = true <;>
      simp only [hleaf, if_true, if_false, Bool.false_eq_true]
    · cases hg : (node.children n).get? 0 with
      | none => simp [hg]
      | some child =>
        simp only [hg]
        by_cases hm : (node.items child).length ≤ m
        · simp only [hm, if_true]
          cases hga : growAdjust n 0 m with
          | none => simp [hga]
          | some n2 => simp only [hga]; exact ih n2
        · simp only [hm, if_false]
          rw [ih child]
    · cases hg : (node.children n).get? (node.items n).length with
      | none => simp [hg]
      | some child =>
        simp only [hg]
        by_cases hm : (node.items child).length ≤ m
        · simp only [hm, if_true]
          cases hga : growAdjust n (node.items n).length m with
          | none => simp [hga]
          | some n2 => simp only [hga]; exact ih n2
        · simp only [hm, if_false]
          rw [ih child]

theorem remove_minmax_ignores_item_witness :
    node.remove (fun a b : Nat => decide (a < b)) 1 5 (node.mk [1, 2] []) none .removeMax =
    node.remove (fun _ _ : Nat => true) 1 5 (node.mk [1, 2] []) (some 7) .removeMax :=
  remove_minmax_ignores_item _ _ 1 5 _ none (some 7) _ (Or.inr rfl)

/-! ## C5: find -/

/-- Sorted access: in a strictly ascending list, earlier elements are less
than later ones. -/
theorem pairwise_get?_lt {α : Type} {lt : α → α → Bool} {s : List α}
    (hs : List.Pairwise (fun a b => lt a b = true) s) {k l : Nat} {y z : α}
    (hkl : k < l) (hy : s.get? k = some y) (hz : s.get? l = some z) :
    lt y z = true := by
  rw [List.get?_eq_some] at hy hz
  obtain ⟨hk, hy⟩ := hy
  obtain ⟨hl, hz⟩ := hz
  subst hy; subst hz
  exact List.pairwise_iff_get.mp hs ⟨k, hk⟩ ⟨l, hl⟩ hkl

/-- The binary-search loop computes the threshold `T` of any predicate
pattern that is false strictly below `T` and true from `T` on. -/
theorem findLoop_exact {α : Type} (lt : α → α → Bool) (x : α) (s : List α) (T : Nat) :
    ∀ d i j, i ≤ T → T ≤ j → j ≤ s.length → j - i ≤ d →
    (∀ k z, k < T → s.get? k = some z → lt x z = false) →
    (∀ k z, T ≤ k → s.get? k = some z → lt x z = true) →
    findLoop lt x s d i j = T := by
  intro d
  induction d with
  | zero =>
    intro i j hiT hTj hj hd hlo hhi
    have hiT' : i = T := by omega
    simp [findLoop, hiT']
  | succ d ih =>
    intro i j hiT hTj hj hd hlo hhi
    by_cases hij : i < j
    · have hh : i + (j - i) / 2 < j := by omega
      have hhs : i + (j - i) / 2 < s.length := by omega
      have hgh := List.get?_eq_get hhs
      cases hcmp : lt x (s.get ⟨i + (j - i) / 2, hhs⟩) with
      | false =>
        have hprobe : i + (j - i) / 2 < T := by
          by_contra hcon
          have := hhi _ _ (by omega) hgh
          rw [this] at hcmp
          exact Bool.noConfusion hcmp
        simp only [findLoop, if_pos hij, hgh, hcmp, Bool.not_false, if_true]
        exact ih (i + (j - i) / 2 + 1) j (by omega) hTj hj (by omega) hlo hhi
      | true =>
        have hprobe : T ≤ i + (j - i) / 2 := by
          by_contra hcon
          have := hlo _ _ (by omega) hgh
          rw [this] at hcmp
          exact Bool.noConfusion hcmp
        simp only [findLoop, if_pos hij, hgh, hcmp, Bool.not_true, if_false]
        exact ih i (i + (j - i) / 2) hiT hprobe (by omega) (by omega) hlo hhi
    · simp only [findLoop, if_neg hij]
      omega

/-- In a strictly ascending list, the predicate `lt x ·` has a threshold. -/
theorem exists_threshold {α : Type} (lt : α → α → Bool) (x : α)
    (Htrans : ∀ a b c, lt a b = true → lt b c = true → lt a c = true) :
    ∀ s : List α, List.Pairwise (fun a b => lt a b = true) s →
    ∃ T, T ≤ s.length ∧
      (∀ k z, k < T → s.get? k = some z → lt x z = false) ∧
      (∀ k z, T ≤ k → s.get? k = some z → lt x z = true) := by
  intro s hs
  induction s with
  | nil =>
    exact ⟨0, by simp, fun k z hk _ => by omega, fun k z _ hz => by simp at hz⟩
  | cons a s ih =>
    obtain ⟨hhead, htail⟩ := List.pairwise_cons.mp hs
    cases hax : lt x a with
    | true =>
      refine ⟨0, by simp, fun k z hk _ => by omega, ?_⟩
      intro k z _ hz
      cases k with
      | zero =>
        simp only [List.get?] at hz
        cases hz
        exact hax
      | succ k =>
        have hzmem : z ∈ s := by
          rw [List.mem_iff_get?]
          exact ⟨k, hz⟩
        exact Htrans x a z hax (hhead z hzmem)
    | false =>
      obtain ⟨T, hT, hlo, hhi⟩ := ih htail
      refine ⟨T + 1, by simp; omega, ?_, ?_⟩
      · intro k z hk hz
        cases k with
        | zero =>
          simp only [List.get?] at hz
          cases hz
          exact hax
        | succ k => exact hlo k z (by omega) hz
      · intro k z hk hz
        cases k with
        | zero => omega
        | succ k => exact hhi k z (by omega) hz

/-- C5: on a strictly ascending list, `items.find` returns the leftmost index
of an element equivalent to the probe (with `found = true`) or, when no
element is equivalent, the insertion point: everything before the returned
index is less than the probe and everything from it on is greater; on the
empty list it returns `(0, false)`. -/
theorem find_spec {α : Type} (lt : α → α → Bool) (s : List α) (x : α)
    (Htrans : ∀ a b c, lt a b = true → lt b c = true → lt a c = true)
    (HnegTrans : ∀ a b c, lt a b = false → lt b c = false → lt a c = false)
    (Hsorted : List.Pairwise (fun a b => lt a b = true) s) :
    (∀ i, items.find lt s x = (i, true) →
      ∃ y, s.get? i = some y ∧ equivI lt y x ∧
        ∀ k z, k < i → s.get? k = some z → lt z x = true) ∧
    (∀ i, items.find lt s x = (i, false) →
      i ≤ s.length ∧
      (∀ z ∈ s, ¬ equivI lt z x) ∧
      (∀ k z, k < i → s.get? k = some z → lt z x = true) ∧
      (∀ k z, i ≤ k → s.get? k = some z → lt x z = true)) ∧
    (s = [] → items.find lt s x = (0, false)) := by
  obtain ⟨T, hT, hlo, hhi⟩ := exists_threshold lt x Htrans s Hsorted
  have hloop : findLoop lt x s s.length 0 s.length = T :=
    findLoop_exact lt x s T s.length 0 s.length (by omega) hT (le_refl _) (by omega) hlo hhi
  have hfind : items.find lt s x =
      (if 0 < T then
        match s.get? (T - 1) with
        | some prev => if !(lt prev x) then (T - 1, true) else (T, false)
        | none => (T, false)
      else (T, false)) := by
    simp only [items.find, hloop]
  by_cases hT0 : 0 < T
  · have hT1 : T - 1 < s.length := by omega
    have hprev := List.get?_eq_get hT1
    set prev := s.get ⟨T - 1, hT1⟩ with hprevdef
    cases hpx : lt prev x with
    | false =>
      -- found: the element at T-1 is equivalent to x
      have hfind2 : items.find lt s x = (T - 1, true) := by
        rw [hfind, if_pos hT0, hprev]
        simp [hpx]
      refine ⟨?_, ?_, ?_⟩
      · intro i hi
        rw [hfind2] at hi
        cases hi
        refine ⟨prev, hprev, ⟨hpx, hlo (T-1) prev (by omega) hprev⟩, ?_⟩
        intro k z hk hz
        by_contra hcon
        have hzx : lt z x = false := Bool.eq_false_iff.mpr hcon
        have hxprev : lt x prev = false := hlo (T-1) prev (by omega) hprev
        have hzprev : lt z prev = false := HnegTrans z x prev hzx hxprev
        have := pairwise_get?_lt Hsorted (by omega : k < T - 1) hz hprev
        rw [this] at hzprev
        exact Bool.noConfusion hzprev
      · intro i hi
        rw [hfind2] at hi
        cases hi
      · intro hnil
        subst hnil
        simp at hT1
    | true =>
      -- not found: T is the insertion point
      have hfind2 : items.find lt s x = (T, false) := by
        rw [hfind, if_pos hT0, hprev]
        simp [hpx]
      have hbelow : ∀ k z, k < T → s.get? k = some z → lt z x = true := by
        intro k z hk hz
        rcases Nat.lt_or_ge k (T - 1) with hk1 | hk1
        · exact Htrans z prev x (pairwise_get?_lt Hsorted hk1 hz hprev) hpx
        · have hkT : k = T - 1 := by omega
          subst hkT
          rw [hz] at hprev
          cases hprev
          exact hpx
      refine ⟨?_, ?_, ?_⟩
      · intro i hi
        rw [hfind2] at hi
        cases hi
      · intro i hi
        rw [hfind2] at hi
        cases hi
        refine ⟨hT, ?_, hbelow, fun k z hk hz => hhi k z hk hz⟩
        intro z hzmem hequiv
        obtain ⟨k, hk⟩ := List.mem_iff_get?.mp hzmem
        rcases Nat.lt_or_ge k T with hkT | hkT
        · have := hbelow k z hkT hk
          rw [hequiv.1] at this
          exact Bool.noConfusion this
        · have := hhi k z hkT hk
          rw [hequiv.2] at this
          exact Bool.noConfusion this
      · intro hnil
        subst hnil
        simp at hT1
  · have hfind2 : items.find lt s x = (0, false) := by
      rw [hfind, if_neg hT0]
      congr
      omega
    refine ⟨?_, ?_, fun _ => hfind2⟩
    · intro i hi
      rw [hfind2] at hi
      cases hi
    · intro i hi
      rw [hfind2] at hi
      cases hi
      refine ⟨by omega, ?_, fun k z hk hz => by omega, fun k z hk hz => hhi k z (by omega) hz⟩
      intro z hzmem hequiv
      obtain ⟨k, hk⟩ := List.mem_iff_get?.mp hzmem
      have := hhi k z (by omega) hk
      rw [hequiv.2] at this
      exact Bool.noConfusion this

theorem find_spec_witness :
    items.find (fun a b : Nat => decide (a < b)) [1, 3, 5] 3 = (1, true) ∧
    (∃ y, [1, 3, 5].get? 1 = some y ∧ equivI (fun a b : Nat => decide (a < b)) y 3) := by
  have h := (find_spec (fun a b : Nat => decide (a < b)) [1, 3, 5] 3
    (by intro a b c h1 h2; simp at h1 h2 ⊢; omega)
    (by intro a b c h1 h2; simp at h1 h2 ⊢; omega)
    (by decide)).1 1 (by decide)
  obtain ⟨y, hy, hequiv, _⟩ := h
  exact ⟨by decide, y, hy, hequiv⟩

/-! ## Flatten and invariant toolbox -/

theorem flatten_mk {α : Type} (its : List α) (chs : List (node α)) :
    flatten (node.mk its chs) = flattenAux its chs := by
  simp [flatten]

theorem flattenAux_nil {α : Type} (its : List α) :
    flattenAux its ([] : List (node α)) = its := by
  simp [flattenAux]

theorem flattenAux_cons_cons {α : Type} (i : α) (is2 : List α) (c : node α)
    (cs : List (node α)) :
    flattenAux (i :: is2) (c :: cs) = flatten c ++ i :: flattenAux is2 cs := by
  simp [flattenAux]

theorem flattenAux_nil_cons {α : Type} (c : node α) (cs : List (node α)) :
    flattenAux ([] : List α) (c :: cs) = flatten c ++ flattenAux [] cs := by
  simp [flattenAux]

/-- The node's own items appear, in order, in its flattening. -/
theorem items_sublist_flattenAux {α : Type} :
    ∀ (its : List α) (chs : List (node α)), its.Sublist (flattenAux its chs)
  | its, [] => by rw [flattenAux_nil]
  | [], c :: cs => by simp
  | i :: is2, c :: cs => by
    rw [flattenAux_cons_cons]
    exact (List.Sublist.cons₂ i (items_sublist_flattenAux is2 cs)).trans
      (List.sublist_append_right (flatten c) _)

theorem mem_flattenAux_of_mem_items {α : Type} {its : List α} {chs : List (node α)}
    {y : α} (hy : y ∈ its) : y ∈ flattenAux its chs :=
  (items_sublist_flattenAux its chs).subset hy

/-- Every item of a child subtree appears in the flattening. -/
theorem mem_flattenAux_of_mem_child {α : Type} :
    ∀ (its : List α) (chs : List (node α)) (c : node α), c ∈ chs →
      ∀ (y : α), y ∈ flatten c → y ∈ flattenAux its chs
  | its, [], c, hc, y, hy => absurd hc (List.not_mem_nil c)
  | [], c0 :: cs, c, hc, y, hy => by
    rw [flattenAux_nil_cons]
    rcases List.mem_cons.mp hc with h | h
    · subst h; exact List.mem_append_left _ hy
    · exact List.mem_append_right _ (mem_flattenAux_of_mem_child [] cs c h y hy)
  | i :: is2, c0 :: cs, c, hc, y, hy => by
    rw [flattenAux_cons_cons]
    rcases List.mem_cons.mp hc with h | h
    · subst h; exact List.mem_append_left _ hy
    · exact List.mem_append_right _
        (List.mem_cons_of_mem i (mem_flattenAux_of_mem_child is2 cs c h y hy))

/-- Boolean recursors as propositions. -/
theorem arityAux_cons {α : Type} (c : node α) (cs : List (node α)) :
    arityAux (c :: cs) = (arity c && arityAux cs) := by
  simp [arityAux]

theorem arityAux_iff {α : Type} :
    ∀ chs : List (node α), arityAux chs = true ↔ ∀ c ∈ chs, arity c = true
  | [] => by simp [arityAux]
  | c :: cs => by
    rw [arityAux_cons, Bool.and_eq_true, arityAux_iff cs]
    constructor
    · rintro ⟨h1, h2⟩ d hd
      rcases List.mem_cons.mp hd with h | h
      · subst h; exact h1
      · exact h2 d h
    · intro h
      exact ⟨h c (List.mem_cons_self c cs), fun d hd => h d (List.mem_cons_of_mem c hd)⟩

theorem arity_mk_iff {α : Type} (its : List α) (chs : List (node α)) :
    arity (node.mk its chs) = true ↔
      (chs = [] ∨ chs.length = its.length + 1) ∧ ∀ c ∈ chs, arity c = true := by
  have h1 : arity (node.mk its chs) =
      ((chs.length == 0 || chs.length == its.length + 1) && arityAux chs) := by
    simp [arity]
  rw [h1, Bool.and_eq_true, Bool.or_eq_true, arityAux_iff chs]
  simp [List.length_eq_zero]

theorem balancedAux_cons {α : Type} (c : node α) (cs : List (node α)) :
    balancedAux (c :: cs) = (balanced c && balancedAux cs) := by
  simp [balancedAux]

theorem balancedAux_iff {α : Type} :
    ∀ chs : List (node α), balancedAux chs = true ↔ ∀ c ∈ chs, balanced c = true
  | [] => by simp [balancedAux]
  | c :: cs => by
    rw [balancedAux_cons, Bool.and_eq_true, balancedAux_iff cs]
    constructor
    · rintro ⟨h1, h2⟩ d hd
      rcases List.mem_cons.mp hd with h | h
      · subst h; exact h1
      · exact h2 d h
    · intro h
      exact ⟨h c (List.mem_cons_self c cs), fun d hd => h d (List.mem_cons_of_mem c hd)⟩

theorem sameHeight_iff {α : Type} :
    ∀ chs : List (node α), sameHeight chs = true ↔
      ∀ c ∈ chs, ∀ d ∈ chs, height c = height d := by
  intro chs
  cases chs with
  | nil => simp [sameHeight]
  | cons c cs =>
    have h1 : sameHeight (c :: cs) = cs.all (fun d => height d == height c) := by
      simp [sameHeight]
    rw [h1, List.all_eq_true]
    constructor
    · intro h x hx y hy
      have hc : ∀ z ∈ c :: cs, height z = height c := by
        intro z hz
        rcases List.mem_cons.mp hz with h2 | h2
        · subst h2; rfl
        · simpa using h z h2
      rw [hc x hx, hc y hy]
    · intro h x hx
      simpa using h x (List.mem_cons_of_mem c hx) c (List.mem_cons_self c cs)

theorem balanced_mk_iff {α : Type} (its : List α) (chs : List (node α)) :
    balanced (node.mk its chs) = true ↔
      (∀ c ∈ chs, balanced c = true) ∧ ∀ c ∈ chs, ∀ d ∈ chs, height c = height d := by
  have h1 : balanced (node.mk its chs) = (balancedAux chs && sameHeight chs) := by
    simp [balanced]
  rw [h1, Bool.and_eq_true, balancedAux_iff, sameHeight_iff]

theorem occAux_cons {α : Type} (m : Nat) (c : node α) (cs : List (node α)) :
    occAux m (c :: cs) =
      ((decide (m ≤ (node.items c).length)) && occ m c && occAux m cs) := by
  simp [occAux]

theorem occAux_iff {α : Type} (m : Nat) :
    ∀ chs : List (node α), occAux m chs = true ↔
      ∀ c ∈ chs, m ≤ (node.items c).length ∧ occ m c = true
  | [] => by simp [occAux]
  | c :: cs => by
    rw [occAux_cons, Bool.and_eq_true, Bool.and_eq_true, occAux_iff m cs]
    constructor
    · rintro ⟨⟨h1, h2⟩, h3⟩ d hd
      rcases List.mem_cons.mp hd with h | h
      · subst h; exact ⟨by simpa using h1, h2⟩
      · exact h3 d h
    · intro h
      refine ⟨⟨by simpa using (h c (List.mem_cons_self c cs)).1,
        (h c (List.mem_cons_self c cs)).2⟩, fun d hd => h d (List.mem_cons_of_mem c hd)⟩

theorem occ_mk_iff {α : Type} (m : Nat) (its : List α) (chs : List (node α)) :
    occ m (node.mk its chs) = true ↔
      ∀ c ∈ chs, m ≤ (node.items c).length ∧ occ m c = true := by
  have h1 : occ m (node.mk its chs) = occAux m chs := by simp [occ]
  rw [h1, occAux_iff]

theorem height_mk {α : Type} (its : List α) (chs : List (node α)) :
    height (node.mk its chs) = heightAux chs := by
  simp [height]

theorem heightAux_nil {α : Type} : heightAux ([] : List (node α)) = 0 := by
  simp [heightAux]

theorem heightAux_cons {α : Type} (c : node α) (cs : List (node α)) :
    heightAux (c :: cs) = Nat.max (height c + 1) (heightAux cs) := by
  simp [heightAux]

theorem heightAux_ge {α : Type} :
    ∀ (chs : List (node α)) (c : node α), c ∈ chs → height c + 1 ≤ heightAux chs
  | [], c, hc => absurd hc (List.not_mem_nil c)
  | c0 :: cs, c, hc => by
    rw [heightAux_cons]
    rcases List.mem_cons.mp hc with h | h
    · subst h; exact Nat.le_max_left _ _
    · exact le_trans (heightAux_ge cs c h) (Nat.le_max_right _ _)

/-- With all children of one height, the parent's height builds on any of
them. -/
theorem heightAux_sameHeight {α : Type} :
    ∀ (chs : List (node α)) (c : node α), c ∈ chs →
      (∀ x ∈ chs, ∀ y ∈ chs, height x = height y) →
      heightAux chs = height c + 1
  | [], c, hc, _ => absurd hc (List.not_mem_nil c)
  | c0 :: cs, c, hc, hsame => by
    have hc0 : height c0 = height c :=
      hsame c0 (List.mem_cons_self c0 cs) c hc
    rw [heightAux_cons]
    cases cs with
    | nil =>
      rw [heightAux_nil, hc0]
      exact Nat.max_eq_left (by omega)
    | cons c1 cs2 =>
      have hrec : heightAux (c1 :: cs2) = height c1 + 1 :=
        heightAux_sameHeight (c1 :: cs2) c1 (List.mem_cons_self c1 cs2)
          (fun x hx y hy => hsame x (List.mem_cons_of_mem c0 hx) y
            (List.mem_cons_of_mem c0 hy))
      have hc1 : height c1 = height c :=
        hsame c1 (List.mem_cons_of_mem c0 (List.mem_cons_self c1 cs2)) c hc
      rw [hrec, hc0, hc1]
      exact Nat.max_self _

theorem list_set_self {β : Type} :
    ∀ (l : List β) (k : Nat) (c : β), l.get? k = some c → l.set k c = l
  | [], k, c, h => by simp at h
  | b :: bs, 0, c, h => by
    simp only [List.get?] at h
    cases h
    rfl
  | b :: bs, k+1, c, h => by
    simp only [List.get?] at h
    exact congrArg (List.cons b) (list_set_self bs k c h)

/-- The items-first interleaving describing the tail of a flattening after a
given child position. -/
def tailInter {α : Type} (its : List α) (chs : List (node α)) : List α :=
  match its with
  | [] => []
  | i :: is2 => i :: flattenAux is2 chs

/-- Child-window decomposition: under the arity equation, the flattening
splits around the `k`-th child, uniformly in what that child is replaced
with. -/
theorem flattenAux_set_decomp {α : Type} :
    ∀ (k : Nat) (its : List α) (chs : List (node α)), chs.length = its.length + 1 →
      k < chs.length →
      ∀ c', flattenAux its (chs.set k c') =
        flattenAux (its.take k) (chs.take k) ++ flatten c' ++
          tailInter (its.drop k) (chs.drop (k+1)) := by
  intro k
  induction k with
  | zero =>
    intro its chs hlen hk c'
    cases chs with
    | nil => simp at hk
    | cons c0 cs =>
      cases its with
      | nil =>
        have hcs : cs = [] := by simpa using hlen
        subst hcs
        simp [flattenAux_nil_cons, flattenAux_nil, tailInter]
      | cons i is2 =>
        rw [show (c0 :: cs).set 0 c' = c' :: cs from rfl, flattenAux_cons_cons]
        simp [tailInter, flattenAux_nil]
  | succ k ih =>
    intro its chs hlen hk c'
    cases chs with
    | nil => simp at hk
    | cons c0 cs =>
      cases its with
      | nil =>
        have hcs : cs = [] := by simpa using hlen
        subst hcs
        have : k + 1 < 1 := by simpa using hk
        omega
      | cons i is2 =>
        have hlen2 : cs.length = is2.length + 1 := by simpa using hlen
        have hk2 : k < cs.length := by simpa using hk
        rw [show (c0 :: cs).set (k+1) c' = c0 :: cs.set k c' from rfl,
            flattenAux_cons_cons, ih is2 cs hlen2 hk2 c',
            show List.take (k+1) (i :: is2) = i :: List.take k is2 from rfl,
            show List.take (k+1) (c0 :: cs) = c0 :: List.take k cs from rfl,
            show List.drop (k+1) (i :: is2) = List.drop k is2 from rfl,
            show List.drop (k+1+1) (c0 :: cs) = List.drop (k+1) cs from rfl,
            flattenAux_cons_cons]
        simp

/-- The unmodified form of the child-window decomposition. -/
theorem flattenAux_child_decomp {α : Type} (k : Nat) (its : List α)
    (chs : List (node α)) (hlen : chs.length = its.length + 1)
    (c : node α) (hc : chs.get? k = some c) :
    flattenAux its chs =
      flattenAux (its.take k) (chs.take k) ++ flatten c ++
        tailInter (its.drop k) (chs.drop (k+1)) := by
  have hk : k < chs.length := by
    rw [List.get?_eq_some] at hc
    exact hc.1
  have := flattenAux_set_decomp k its chs hlen hk c
  rw [list_set_self chs k c hc] at this
  exact this

/-- Item-window decomposition: under the arity equation, the flattening
splits around the `j`-th separator item, uniformly in what it is replaced
with. -/
theorem flattenAux_item_set_decomp {α : Type} :
    ∀ (j : Nat) (its : List α) (chs : List (node α)), chs.length = its.length + 1 →
      j < its.length →
      ∀ x, flattenAux (its.set j x) chs =
        flattenAux (its.take j) (chs.take (j+1)) ++ x ::
          flattenAux (its.drop (j+1)) (chs.drop (j+1)) := by
  intro j
  induction j with
  | zero =>
    intro its chs hlen hj x
    cases its with
    | nil => simp at hj
    | cons i is2 =>
      cases chs with
      | nil => simp at hlen
      | cons c0 cs =>
        rw [show (i :: is2).set 0 x = x :: is2 from rfl, flattenAux_cons_cons,
            show List.take 0 (i :: is2) = ([] : List α) from rfl,
            show List.take 1 (c0 :: cs) = c0 :: ([] : List (node α)) from rfl,
            show List.drop 1 (i :: is2) = is2 from rfl,
            show List.drop 1 (c0 :: cs) = cs from rfl,
            flattenAux_nil_cons, flattenAux_nil]
        simp
  | succ j ih =>
    intro its chs hlen hj x
    cases its with
    | nil => simp at hj
    | cons i is2 =>
      cases chs with
      | nil => simp at hlen
      | cons c0 cs =>
        have hlen2 : cs.length = is2.length + 1 := by simpa using hlen
        have hj2 : j < is2.length := by simpa using hj
        rw [show (i :: is2).set (j+1) x = i :: is2.set j x from rfl,
            flattenAux_cons_cons, ih is2 cs hlen2 hj2 x,
            show List.take (j+1) (i :: is2) = i :: List.take j is2 from rfl,
            show List.take (j+1+1) (c0 :: cs) = c0 :: List.take (j+1) cs from rfl,
            show List.drop (j+1+1) (i :: is2) = List.drop (j+1) is2 from rfl,
            show List.drop (j+1+1) (c0 :: cs) = List.drop (j+1) cs from rfl,
            flattenAux_cons_cons]
        simp

/-- The unmodified form of the item-window decomposition. -/
theorem flattenAux_item_decomp {α : Type} (j : Nat) (its : List α)
    (chs : List (node α)) (hlen : chs.length = its.length + 1)
    (y : α) (hy : its.get? j = some y) :
    flattenAux its chs =
      flattenAux (its.take j) (chs.take (j+1)) ++ y ::
        flattenAux (its.drop (j+1)) (chs.drop (j+1)) := by
  have hj : j < its.length := by
    rw [List.get?_eq_some] at hy
    exact hy.1
  have := flattenAux_item_set_decomp j its chs hlen hj y
  rw [list_set_self its j y hy] at this
  exact this

/-- The part of `flattenAux its (c :: cs)` after the first child. -/
def flattenRest {α : Type} (its : List α) (cs : List (node α)) : List α :=
  match its with
  | [] => flattenAux [] cs
  | i :: is2 => i :: flattenAux is2 cs

theorem flattenAux_cons_any {α : Type} (its : List α) (c : node α)
    (cs : List (node α)) :
    flattenAux its (c :: cs) = flatten c ++ flattenRest its cs := by
  cases its with
  | nil => rw [flattenAux_nil_cons]; rfl
  | cons i is2 => rw [flattenAux_cons_cons]; rfl

/-- Appending a separator and one more child at the end extends the
flattening at the end. -/
theorem flattenAux_snoc {α : Type} :
    ∀ (its : List α) (chs : List (node α)) (a : α) (c : node α),
      chs.length = its.length + 1 →
      flattenAux (its ++ [a]) (chs ++ [c]) = flattenAux its chs ++ a :: flatten c
  | [], chs, a, c, hlen => by
    obtain ⟨c0, rfl⟩ : ∃ c0, chs = [c0] := by
      cases chs with
      | nil => simp at hlen
      | cons c0 cs =>
        cases cs with
        | nil => exact ⟨c0, rfl⟩
        | cons _ _ => simp at hlen
    simp [flattenAux_cons_cons, flattenAux_nil_cons, flattenAux_nil]
  | i :: is2, chs, a, c, hlen => by
    cases chs with
    | nil => simp at hlen
    | cons c0 cs =>
      have hlen2 : cs.length = is2.length + 1 := by simpa using hlen
      rw [List.cons_append, List.cons_append, flattenAux_cons_cons,
          flattenAux_cons_cons, flattenAux_snoc is2 cs a c hlen2]
      simp

/-- Concatenating two interleavings around a separator. -/
theorem flattenAux_concat {α : Type} :
    ∀ (its1 : List α) (chs1 : List (node α)) (sep : α) (its2 : List α)
      (chs2 : List (node α)), chs1.length = its1.length + 1 →
      flattenAux (its1 ++ sep :: its2) (chs1 ++ chs2) =
        flattenAux its1 chs1 ++ sep :: flattenAux its2 chs2
  | [], chs1, sep, its2, chs2, hlen => by
    obtain ⟨c0, rfl⟩ : ∃ c0, chs1 = [c0] := by
      cases chs1 with
      | nil => simp at hlen
      | cons c0 cs =>
        cases cs with
        | nil => exact ⟨c0, rfl⟩
        | cons _ _ => simp at hlen
    rw [List.nil_append, List.singleton_append, flattenAux_cons_cons,
        flattenAux_nil_cons, flattenAux_nil]
    simp
  | i :: is2, chs1, sep, its2, chs2, hlen => by
    cases chs1 with
    | nil => simp at hlen
    | cons c0 cs =>
      have hlen2 : cs.length = is2.length + 1 := by simpa using hlen
      rw [List.cons_append, List.cons_append, flattenAux_cons_cons,
          flattenAux_cons_cons, flattenAux_concat is2 cs sep its2 chs2 hlen2]
      simp

/-- Replacing an adjacent sibling pair and their separator preserves the
flattening when the local window's flattening is preserved. -/
theorem stealPair {α : Type} :
    ∀ (k : Nat) (its : List α) (chs : List (node α))
      (sib child sibNew childNew : node α) (sepNew sep : α),
      chs.get? k = some sib → chs.get? (k+1) = some child →
      its.get? k = some sep →
      flatten sibNew ++ sepNew :: flatten childNew =
        flatten sib ++ sep :: flatten child →
      flattenAux (its.set k sepNew) ((chs.set k sibNew).set (k+1) childNew) =
        flattenAux its chs
  | 0, its, chs, sib, child, sibNew, childNew, sepNew, sep, hsib, hchild, hsep, hloc => by
    cases chs with
    | nil => simp [List.get?] at hsib
    | cons c0 cs =>
      cases cs with
      | nil => simp [List.get?] at hchild
      | cons c1 cs2 =>
        cases its with
        | nil => simp [List.get?] at hsep
        | cons i is2 =>
          simp only [List.get?] at hsib hchild hsep
          cases hsib; cases hchild; cases hsep
          rw [show ((sib :: child :: cs2).set 0 sibNew).set 1 childNew =
              sibNew :: childNew :: cs2 from rfl,
              show (sep :: is2).set 0 sepNew = sepNew :: is2 from rfl,
              flattenAux_cons_cons, flattenAux_cons_any is2 childNew cs2,
              flattenAux_cons_cons, flattenAux_cons_any is2 child cs2]
          calc flatten sibNew ++ sepNew :: (flatten childNew ++ flattenRest is2 cs2)
              = (flatten sibNew ++ sepNew :: flatten childNew) ++
                  flattenRest is2 cs2 := by simp
            _ = (flatten sib ++ sep :: flatten child) ++ flattenRest is2 cs2 := by
                  rw [hloc]
            _ = flatten sib ++ sep :: (flatten child ++ flattenRest is2 cs2) := by simp
  | k+1, its, chs, sib, child, sibNew, childNew, sepNew, sep, hsib, hchild, hsep, hloc => by
    cases chs with
    | nil => simp [List.get?] at hsib
    | cons c0 cs =>
      cases its with
      | nil => simp [List.get?] at hsep
      | cons i is2 =>
        simp only [List.get?] at hsib hchild hsep
        rw [show ((c0 :: cs).set (k+1) sibNew).set (k+1+1) childNew =
            c0 :: ((cs.set k sibNew).set (k+1) childNew) from rfl,
            show (i :: is2).set (k+1) sepNew = i :: is2.set k sepNew from rfl,
            flattenAux_cons_cons, flattenAux_cons_cons,
            stealPair k is2 cs sib child sibNew childNew sepNew sep hsib hchild hsep hloc]

/-- Merging an adjacent sibling pair (dropping the separator) preserves the
flattening when the merged child flattens to the local window. -/
theorem mergePair {α : Type} :
    ∀ (k : Nat) (its : List α) (chs : List (node α))
      (child mc childNew : node α) (sep : α),
      chs.get? k = some child → chs.get? (k+1) = some mc →
      its.get? k = some sep →
      flatten childNew = flatten child ++ sep :: flatten mc →
      flattenAux (its.take k ++ its.drop (k+1))
        ((chs.take (k+1) ++ chs.drop (k+2)).set k childNew) =
        flattenAux its chs
  | 0, its, chs, child, mc, childNew, sep, hchild, hmc, hsep, hloc => by
    cases chs with
    | nil => simp [List.get?] at hchild
    | cons c0 cs =>
      cases cs with
      | nil => simp [List.get?] at hmc
      | cons c1 cs2 =>
        cases its with
        | nil => simp [List.get?] at hsep
        | cons i is2 =>
          simp only [List.get?] at hchild hmc hsep
          cases hchild; cases hmc; cases hsep
          rw [show (sep :: is2).take 0 ++ (sep :: is2).drop 1 = is2 from rfl,
              show (((child :: mc :: cs2).take 1 ++ (child :: mc :: cs2).drop 2).set 0
                childNew) = childNew :: cs2 from rfl,
              flattenAux_cons_any is2 childNew cs2, hloc,
              flattenAux_cons_cons, flattenAux_cons_any is2 mc cs2]
          simp
  | k+1, its, chs, child, mc, childNew, sep, hchild, hmc, hsep, hloc => by
    cases chs with
    | nil => simp [List.get?] at hchild
    | cons c0 cs =>
      cases its with
      | nil => simp [List.get?] at hsep
      | cons i is2 =>
        simp only [List.get?] at hchild hmc hsep
        rw [show (i :: is2).take (k+1) ++ (i :: is2).drop (k+1+1) =
            i :: (is2.take k ++ is2.drop (k+1)) from by simp,
            show ((c0 :: cs).take (k+1+1) ++ (c0 :: cs).drop (k+1+2)).set (k+1) childNew =
            c0 :: ((cs.take (k+1) ++ cs.drop (k+2)).set k childNew) from by simp,
            flattenAux_cons_cons, flattenAux_cons_cons,
            mergePair k is2 cs child mc childNew sep hchild hmc hsep hloc]

/-- Splitting a child in two around a promoted pivot preserves the
flattening when the halves flatten to the original child's window. -/
theorem splitPair {α : Type} :
    ∀ (k : Nat) (its : List α) (chs : List (node α))
      (child0 first second : node α) (pivot : α),
      chs.length = its.length + 1 →
      chs.get? k = some child0 →
      flatten first ++ pivot :: flatten second = flatten child0 →
      flattenAux (listInsertAt its k pivot)
        (listInsertAt (chs.set k first) (k+1) second) =
        flattenAux its chs
  | 0, its, chs, child0, first, second, pivot, hlen, hchild, hloc => by
    cases chs with
    | nil => simp [List.get?] at hchild
    | cons c0 cs =>
      simp only [List.get?] at hchild
      cases hchild
      rw [show listInsertAt its 0 pivot = pivot :: its from rfl,
          show listInsertAt ((child0 :: cs).set 0 first) 1 second =
            first :: second :: cs from rfl,
          flattenAux_cons_cons, flattenAux_cons_any its second cs,
          flattenAux_cons_any its child0 cs]
      calc flatten first ++ pivot :: (flatten second ++ flattenRest its cs)
          = (flatten first ++ pivot :: flatten second) ++ flattenRest its cs := by simp
        _ = flatten child0 ++ flattenRest its cs := by rw [hloc]
  | k+1, its, chs, child0, first, second, pivot, hlen, hchild, hloc => by
    cases chs with
    | nil => simp [List.get?] at hchild
    | cons c0 cs =>
      cases its with
      | nil =>
        have hcs : cs = [] := by simpa using hlen
        subst hcs
        simp [List.get?] at hchild
      | cons i is2 =>
        have hlen2 : cs.length = is2.length + 1 := by simpa using hlen
        simp only [List.get?] at hchild
        rw [show listInsertAt (i :: is2) (k+1) pivot =
            i :: listInsertAt is2 k pivot from by simp [listInsertAt],
            show listInsertAt ((c0 :: cs).set (k+1) first) (k+1+1) second =
            c0 :: listInsertAt (cs.set k first) (k+1) second from by simp [listInsertAt],
            flattenAux_cons_cons, flattenAux_cons_cons,
            splitPair k is2 cs child0 first second pivot hlen2 hchild hloc]

theorem drop_eq_cons_of_get? {β : Type} :
    ∀ (l : List β) (k : Nat) (a : β), l.get? k = some a →
      l.drop k = a :: l.drop (k+1)
  | [], k, a, h => by simp at h
  | b :: bs, 0, a, h => by
    simp only [List.get?] at h
    cases h
    rfl
  | b :: bs, k+1, a, h => by
    simp only [List.get?] at h
    rw [show (b :: bs).drop (k+1) = bs.drop k from rfl,
        show (b :: bs).drop (k+1+1) = bs.drop (k+1) from rfl]
    exact drop_eq_cons_of_get? bs k a h

/-- Separation: every item of child `k` is less than separator `k`. -/
theorem child_lt_sep {α : Type} {lt : α → α → Bool} {its : List α}
    {chs : List (node α)} (hlen : chs.length = its.length + 1)
    (hpw : List.Pairwise (fun a b => lt a b = true) (flattenAux its chs))
    {k : Nat} {c : node α} {sep : α} (hc : chs.get? k = some c)
    (hsep : its.get? k = some sep) {y : α} (hy : y ∈ flatten c) :
    lt y sep = true := by
  rw [flattenAux_child_decomp k its chs hlen c hc] at hpw
  have hcross := (List.pairwise_append.mp hpw).2.2
  refine hcross y (List.mem_append_right _ hy) sep ?_
  rw [show tailInter (its.drop k) (chs.drop (k+1)) =
      sep :: flattenAux (its.drop (k+1)) (chs.drop (k+1)) from by
    rw [drop_eq_cons_of_get? its k sep hsep]; rfl]
  exact List.mem_cons_self _ _

/-- Separation: separator `k` is less than every item of child `k+1`. -/
theorem sep_lt_child {α : Type} {lt : α → α → Bool} {its : List α}
    {chs : List (node α)} (hlen : chs.length = its.length + 1)
    (hpw : List.Pairwise (fun a b => lt a b = true) (flattenAux its chs))
    {k : Nat} {c : node α} {sep : α} (hsep : its.get? k = some sep)
    (hc : chs.get? (k+1) = some c) {y : α} (hy : y ∈ flatten c) :
    lt sep y = true := by
  rw [flattenAux_child_decomp (k+1) its chs hlen c hc] at hpw
  have hpw1 := (List.pairwise_append.mp hpw).1
  have hcross := (List.pairwise_append.mp hpw1).2.2
  refine hcross sep ?_ y hy
  have hsep2 : (its.take (k+1)).get? k = some sep := by
    rw [List.get?_take (by omega : k < k + 1)]
    exact hsep
  exact mem_flattenAux_of_mem_items (List.get?_mem hsep2)

/-- A node's own items are sorted whenever its flattening is. -/
theorem items_pairwise_of_flatten {α : Type} {lt : α → α → Bool}
    {its : List α} {chs : List (node α)}
    (hpw : List.Pairwise (fun a b => lt a b = true) (flattenAux its chs)) :
    List.Pairwise (fun a b => lt a b = true) its :=
  hpw.sublist (items_sublist_flattenAux its chs)

/-- The invariant bundle used by the functional-correctness claims: arity,
height balance, and a sorted flattening. -/
def good {α : Type} (lt : α → α → Bool) (n : node α) : Prop :=
  arity n = true ∧ balanced n = true ∧
    List.Pairwise (fun a b => lt a b = true) (flatten n)

theorem good_child {α : Type} {lt : α → α → Bool} {its : List α}
    {chs : List (node α)} (hg : good lt (node.mk its chs))
    {k : Nat} {c : node α} (hc : chs.get? k = some c) : good lt c := by
  obtain ⟨ha, hb, hpw⟩ := hg
  have hmem : c ∈ chs := List.get?_mem hc
  have hlen : chs.length = its.length + 1 := by
    rcases (arity_mk_iff its chs).mp ha with ⟨h1 | h1, _⟩
    · subst h1; simp at hc
    · exact h1
  refine ⟨((arity_mk_iff its chs).mp ha).2 c hmem,
    ((balanced_mk_iff its chs).mp hb).1 c hmem, ?_⟩
  rw [flatten_mk] at hpw
  rw [flattenAux_child_decomp k its chs hlen c hc] at hpw
  exact (List.pairwise_append.mp (List.pairwise_append.mp hpw).1).2.1

theorem height_child_lt {α : Type} {its : List α} {chs : List (node α)}
    {c : node α} (hc : c ∈ chs) : height c < height (node.mk its chs) := by
  rw [height_mk]
  exact heightAux_ge chs c hc

/-! ## Small list and height utilities -/

theorem listInsertAt_zero {β : Type} (l : List β) (a : β) :
    listInsertAt l 0 a = a :: l := by
  simp [listInsertAt]

theorem listInsertAt_length {β : Type} {l : List β} {i : Nat} (a : β)
    (h : i ≤ l.length) : (listInsertAt l i a).length = l.length + 1 := by
  simp [listInsertAt]
  omega

theorem mem_listInsertAt {β : Type} {l : List β} {i : Nat} {a y : β}
    (hy : y ∈ listInsertAt l i a) : y = a ∨ y ∈ l := by
  simp only [listInsertAt, List.mem_append, List.mem_cons] at hy
  rcases hy with h | h | h
  · exact Or.inr (List.take_subset i l h)
  · exact Or.inl h
  · exact Or.inr (List.drop_subset i l h)

theorem listPop_eq {β : Type} {l l' : List β} {a : β}
    (h : listPop l = some (a, l')) : l = l' ++ [a] ∧ l' = l.dropLast ∧
      l.length = l'.length + 1 ∧ l.getLast? = some a := by
  cases hl : l.getLast? with
  | none => simp [listPop, hl] at h
  | some b =>
    simp only [listPop, hl, Option.some.injEq, Prod.mk.injEq] at h
    obtain ⟨ha, hl2⟩ := h
    have hab : l.dropLast ++ [b] = l :=
      List.dropLast_append_getLast? b (by rw [hl]; rfl)
    refine ⟨?_, hl2.symm, ?_, ?_⟩
    · rw [← hl2, ← ha]; exact hab.symm
    · rw [← hl2]
      conv_lhs => rw [← hab]
      simp
    · rw [ha]

theorem listRemoveAt_eq {β : Type} {l l' : List β} {k : Nat} {a : β}
    (h : listRemoveAt l k = some (a, l')) :
    l.get? k = some a ∧ l' = l.take k ++ l.drop (k+1) ∧
      l = l.take k ++ a :: l.drop (k+1) ∧ l.length = l'.length + 1 := by
  cases hg : l.get? k with
  | none =>
    have hg2 : l[k]? = none := by rw [← List.get?_eq_getElem?]; exact hg
    simp [listRemoveAt, hg2] at h
  | some b =>
    simp only [listRemoveAt, hg, Option.some.injEq, Prod.mk.injEq] at h
    obtain ⟨ha, hl2⟩ := h
    have hk : k < l.length := by
      rw [List.get?_eq_some] at hg
      exact hg.1
    have hsplit : l = l.take k ++ b :: l.drop (k+1) := by
      conv_lhs => rw [← List.take_append_drop k l]
      rw [drop_eq_cons_of_get? l k b hg]
    refine ⟨?_, hl2.symm, ?_, ?_⟩
    · rw [ha]
    · rw [← ha]; exact hsplit
    · rw [← hl2]
      have hlen2 : l.length = (l.take k ++ b :: l.drop (k+1)).length := by
        rw [← hsplit]
      rw [hlen2]
      simp
      omega

theorem get?_set_self {β : Type} :
    ∀ (l : List β) (i : Nat) (a : β), i < l.length → (l.set i a).get? i = some a
  | [], i, a, h => by simp at h
  | b :: bs, 0, a, h => rfl
  | b :: bs, i+1, a, h => by
    rw [show (b :: bs).set (i+1) a = b :: bs.set i a from rfl,
        show (b :: bs.set i a).get? (i+1) = (bs.set i a).get? i from rfl]
    exact get?_set_self bs i a (by simpa using h)

theorem get?_set_other {β : Type} :
    ∀ (l : List β) (i j : Nat) (a : β), i ≠ j → (l.set i a).get? j = l.get? j
  | [], i, j, a, h => by simp
  | b :: bs, 0, 0, a, h => absurd rfl h
  | b :: bs, 0, j+1, a, h => rfl
  | b :: bs, i+1, 0, a, h => rfl
  | b :: bs, i+1, j+1, a, h => by
    rw [show (b :: bs).set (i+1) a = b :: bs.set i a from rfl,
        show (b :: bs.set i a).get? (j+1) = (bs.set i a).get? j from rfl,
        show (b :: bs).get? (j+1) = bs.get? j from rfl]
    exact get?_set_other bs i j a (by omega)

theorem mem_of_mem_set {β : Type} :
    ∀ (l : List β) (i : Nat) (a y : β), y ∈ l.set i a → y = a ∨ y ∈ l
  | [], i, a, y, h => by simp at h
  | b :: bs, 0, a, y, h => by
    rcases List.mem_cons.mp h with h | h
    · exact Or.inl h
    · exact Or.inr (List.mem_cons_of_mem b h)
  | b :: bs, i+1, a, y, h => by
    rcases List.mem_cons.mp h with h | h
    · exact Or.inr (h ▸ List.mem_cons_self b bs)
    · rcases mem_of_mem_set bs i a y h with h | h
      · exact Or.inl h
      · exact Or.inr (List.mem_cons_of_mem b h)

theorem heightAux_eq_of_heights {α : Type} :
    ∀ (chs : List (node α)) (h : Nat), chs ≠ [] → (∀ c ∈ chs, height c = h) →
      heightAux chs = h + 1
  | [], h, hne, _ => absurd rfl hne
  | c :: cs, h, _, hall => by
    rw [heightAux_cons, hall c (List.mem_cons_self c cs)]
    cases cs with
    | nil => rw [heightAux_nil]; exact Nat.max_eq_left (by omega)
    | cons c1 cs2 =>
      rw [heightAux_eq_of_heights (c1 :: cs2) h (by simp)
        (fun d hd => hall d (List.mem_cons_of_mem c hd))]
      exact Nat.max_self _

theorem children_nil_of_height_zero {α : Type} {n : node α}
    (h : height n = 0) : node.children n = [] := by
  rcases n with ⟨its, chs⟩
  cases chs with
  | nil => rfl
  | cons c cs =>
    rw [height_mk, heightAux_cons] at h
    exfalso
    have h2 := Nat.max_eq_zero_iff.mp h
    omega

theorem get?_listInsertAt_self {β : Type} {l : List β} {i : Nat} (a : β)
    (h : i ≤ l.length) : (listInsertAt l i a).get? i = some a := by
  have hlen : (l.take i).length = i := by simp; omega
  rw [listInsertAt, List.get?_append_right (by omega), hlen]
  simp

theorem get?_listInsertAt_lt {β : Type} {l : List β} {i j : Nat} (a : β)
    (hj : j < i) (hi : i ≤ l.length) : (listInsertAt l i a).get? j = l.get? j := by
  have hlen : (l.take i).length = i := by simp; omega
  rw [listInsertAt, List.get?_append (by omega), List.get?_take hj]

/-! ### Plain-data equations for the node operations -/

theorem split_eq {α : Type} (its : List α) (chs : List (node α)) (j : Nat) :
    node.split (node.mk its chs) j =
      match its.get? j with
      | none => none
      | some item => some (item,
          node.mk (its.take j) (if 0 < chs.length then chs.take (j+1) else chs),
          node.mk (its.drop (j+1)) (if 0 < chs.length then chs.drop (j+1) else [])) :=
  rfl

theorem msc_eq {α : Type} (its : List α) (chs : List (node α)) (i maxI : Nat) :
    node.maybeSplitChild (node.mk its chs) i maxI =
      match chs.get? i with
      | none => none
      | some first =>
        if (node.items first).length < maxI then some (false, node.mk its chs)
        else
          match node.split first (maxI / 2) with
          | none => none
          | some (item, first2, second) =>
            some (true, node.mk (listInsertAt its i item)
              (listInsertAt (chs.set i first2) (i+1) second)) :=
  rfl

/-- Everything `node.split` guarantees about its results, under the arity
and balance invariants. -/
theorem split_props {α : Type} {n l r : node α} {j : Nat} {x : α}
    (ha : arity n = true) (hb : balanced n = true)
    (hs : node.split n j = some (x, l, r)) :
    arity l = true ∧ balanced l = true ∧ arity r = true ∧ balanced r = true ∧
    height l = height n ∧ height r = height n ∧
    flatten l ++ x :: flatten r = flatten n ∧
    (node.items n).get? j = some x ∧
    node.items l = (node.items n).take j ∧
    node.items r = (node.items n).drop (j+1) := by
  rcases n with ⟨its, chs⟩
  rw [split_eq] at hs
  cases hget : its.get? j with
  | none => rw [hget] at hs; cases hs
  | some x0 =>
    rw [hget] at hs
    have hj : j < its.length := by
      rw [List.get?_eq_some] at hget
      exact hget.1
    injection hs with hs2
    injection hs2 with hx hs3
    injection hs3 with hl hr
    subst hx
    have hsplitits : its = its.take j ++ x0 :: its.drop (j+1) := by
      conv_lhs => rw [← List.take_append_drop j its]
      rw [drop_eq_cons_of_get? its j x0 hget]
    by_cases hchs : chs = []
    · subst hchs
      simp only [List.length_nil, Nat.lt_irrefl, if_false] at hl hr
      subst hl; subst hr
      refine ⟨(arity_mk_iff _ _).mpr ⟨Or.inl rfl, by simp⟩,
        (balanced_mk_iff _ _).mpr ⟨by simp, by simp⟩,
        (arity_mk_iff _ _).mpr ⟨Or.inl rfl, by simp⟩,
        (balanced_mk_iff _ _).mpr ⟨by simp, by simp⟩,
        by rw [height_mk, height_mk, heightAux_nil],
        by rw [height_mk, height_mk, heightAux_nil],
        ?_, hget, rfl, rfl⟩
      rw [flatten_mk, flatten_mk, flatten_mk, flattenAux_nil, flattenAux_nil,
        flattenAux_nil]
      exact hsplitits.symm
    · have h0 : 0 < chs.length := List.length_pos.mpr hchs
      simp only [h0, if_true] at hl hr
      subst hl; subst hr
      obtain ⟨hdisj, hachs⟩ := (arity_mk_iff its chs).mp ha
      have hlen : chs.length = its.length + 1 := by
        rcases hdisj with h | h
        · exact absurd h hchs
        · exact h
      obtain ⟨hbchs, hheights⟩ := (balanced_mk_iff its chs).mp hb
      obtain ⟨c0, hc0⟩ := List.exists_mem_of_ne_nil chs hchs
      have hallH : ∀ c ∈ chs, height c = height c0 := fun c hc => hheights c hc c0 hc0
      have hHchs : heightAux chs = height c0 + 1 :=
        heightAux_eq_of_heights chs (height c0) hchs hallH
      have htakelen : (chs.take (j+1)).length = j + 1 := by simp; omega
      have hdroplen : (chs.drop (j+1)).length = its.length - j := by simp [hlen]
      have htakene : chs.take (j+1) ≠ [] := by
        intro hcon
        rw [hcon] at htakelen
        simp at htakelen
      have hdropne : chs.drop (j+1) ≠ [] := by
        intro hcon
        rw [hcon] at hdroplen
        simp at hdroplen
        omega
      refine ⟨?_, ?_, ?_, ?_, ?_, ?_, ?_, hget, rfl, rfl⟩
      · refine (arity_mk_iff _ _).mpr ⟨Or.inr (by simp; omega), ?_⟩
        intro c hc
        exact hachs c (List.take_subset _ _ hc)
      · refine (balanced_mk_iff _ _).mpr ⟨?_, ?_⟩
        · intro c hc
          exact hbchs c (List.take_subset _ _ hc)
        · intro c hc d hd
          exact hheights c (List.take_subset _ _ hc) d (List.take_subset _ _ hd)
      · refine (arity_mk_iff _ _).mpr ⟨Or.inr (by simp [hlen]; omega), ?_⟩
        intro c hc
        exact hachs c (List.drop_subset _ _ hc)
      · refine (balanced_mk_iff _ _).mpr ⟨?_, ?_⟩
        · intro c hc
          exact hbchs c (List.drop_subset _ _ hc)
        · intro c hc d hd
          exact hheights c (List.drop_subset _ _ hc) d (List.drop_subset _ _ hd)
      · rw [height_mk, height_mk, hHchs]
        exact heightAux_eq_of_heights _ (height c0) htakene
          (fun c hc => hallH c (List.take_subset _ _ hc))
      · rw [height_mk, height_mk, hHchs]
        exact heightAux_eq_of_heights _ (height c0) hdropne
          (fun c hc => hallH c (List.drop_subset _ _ hc))
      · rw [flatten_mk, flatten_mk, flatten_mk]
        exact (flattenAux_item_decomp j its chs hlen x0 hget).symm

/-- Everything `node.maybeSplitChild` guarantees about its result, under the
arity and balance invariants. -/
theorem msc_props {α : Type} {n n' : node α} {i maxI : Nat} {b : Bool}
    (ha : arity n = true) (hb : balanced n = true)
    (hmsc : node.maybeSplitChild n i maxI = some (b, n')) :
    arity n' = true ∧ balanced n' = true ∧ height n' = height n ∧
    flatten n' = flatten n ∧
    (b = false → n' = n) ∧
    (b = true → ∃ child first second pivot,
      (node.children n).get? i = some child ∧
      maxI ≤ (node.items child).length ∧
      node.split child (maxI / 2) = some (pivot, first, second) ∧
      node.items n' = listInsertAt (node.items n) i pivot ∧
      node.children n' = listInsertAt ((node.children n).set i first) (i+1) second) := by
  rcases n with ⟨its, chs⟩
  rw [msc_eq] at hmsc
  cases hget : chs.get? i with
  | none => rw [hget] at hmsc; cases hmsc
  | some child =>
    simp only [hget] at hmsc
    have hi : i < chs.length := by
      rw [List.get?_eq_some] at hget
      exact hget.1
    by_cases hfull : (node.items child).length < maxI
    · rw [if_pos hfull] at hmsc
      injection hmsc with hmsc2
      injection hmsc2 with hbb hnn
      subst hbb; subst hnn
      exact ⟨ha, hb, rfl, rfl, fun _ => rfl, fun hcon => Bool.noConfusion hcon⟩
    · rw [if_neg hfull] at hmsc
      cases hsplit : node.split child (maxI / 2) with
      | none => rw [hsplit] at hmsc; cases hmsc
      | some trip =>
        obtain ⟨pivot, first, second⟩ := trip
        rw [hsplit] at hmsc
        injection hmsc with hmsc2
        injection hmsc2 with hbb hnn
        subst hbb; subst hnn
        have hchildg : arity child = true ∧ balanced child = true := by
          obtain ⟨_, hachs⟩ := (arity_mk_iff its chs).mp ha
          obtain ⟨hbchs, _⟩ := (balanced_mk_iff its chs).mp hb
          exact ⟨hachs child (List.get?_mem hget), hbchs child (List.get?_mem hget)⟩
        obtain ⟨haf, hbf, has, hbs, hhf, hhs, hflat, hpg, _, _⟩ :=
          split_props hchildg.1 hchildg.2 hsplit
        have hlen : chs.length = its.length + 1 := by
          obtain ⟨hdisj, _⟩ := (arity_mk_iff its chs).mp ha
          rcases hdisj with h | h
          · subst h; simp at hi
          · exact h
        have hachs := ((arity_mk_iff its chs).mp ha).2
        obtain ⟨hbchs, hheights⟩ := (balanced_mk_iff its chs).mp hb
        have hinsitslen : i ≤ its.length := by omega
        have hinschslen : i + 1 ≤ (chs.set i first).length := by simp; omega
        have hmemchs2 : ∀ c, c ∈ listInsertAt (chs.set i first) (i+1) second →
            c = second ∨ c = first ∨ c ∈ chs := by
          intro c hc
          rcases mem_listInsertAt hc with h | h
          · exact Or.inl h
          · rcases mem_of_mem_set _ _ _ _ h with h | h
            · exact Or.inr (Or.inl h)
            · exact Or.inr (Or.inr h)
        have hheight2 : ∀ c, c ∈ listInsertAt (chs.set i first) (i+1) second →
            height c = height child := by
          intro c hc
          rcases hmemchs2 c hc with h | h | h
          · rw [h, hhs]
          · rw [h, hhf]
          · exact hheights c h child (List.get?_mem hget)
        have hchsne : listInsertAt (chs.set i first) (i+1) second ≠ [] := by
          intro hcon
          have hcl : (listInsertAt (chs.set i first) (i+1) second).length =
              chs.length + 1 := by
            rw [listInsertAt_length second hinschslen]
            simp
          rw [hcon] at hcl
          simp at hcl
        refine ⟨?_, ?_, ?_, ?_, fun hcon => Bool.noConfusion hcon, ?_⟩
        · refine (arity_mk_iff _ _).mpr ⟨Or.inr ?_, ?_⟩
          · rw [listInsertAt_length second hinschslen,
              listInsertAt_length pivot hinsitslen]
            simp
            omega
          · intro c hc
            rcases hmemchs2 c hc with h | h | h
            · rw [h]; exact has
            · rw [h]; exact haf
            · exact hachs c h
        · refine (balanced_mk_iff _ _).mpr ⟨?_, ?_⟩
          · intro c hc
            rcases hmemchs2 c hc with h | h | h
            · rw [h]; exact hbs
            · rw [h]; exact hbf
            · exact hbchs c h
          · intro c hc d hd
            rw [hheight2 c hc, hheight2 d hd]
        · rw [height_mk, height_mk]
          rw [heightAux_eq_of_heights _ (height child) hchsne hheight2]
          rw [heightAux_eq_of_heights chs (height child)
            (by intro hcon; subst hcon; simp at hi)
            (fun c hc => hheights c hc child (List.get?_mem hget))]
        · rw [flatten_mk, flatten_mk]
          exact splitPair i its chs child first second pivot hlen hget hflat
        · intro _
          exact ⟨child, first, second, pivot, hget, by omega, hsplit, rfl, rfl⟩

/-- The shared tail of `node.insert`'s descend paths (the source's
`return n.children[i].insert(item, maxItems, ctx)` with the mutated child
written back). -/
def insertCont {α : Type} (lt : α → α → Bool) (maxItems fuel : Nat) (x : α)
    (n1 : node α) (i2 : Nat) : OpResult α :=
  match (node.children n1).get? i2 with
  | none => .crash
  | some c =>
    match node.insert lt maxItems fuel c x with
    | .ok r c' => .ok r (.mk (node.items n1) ((node.children n1).set i2 c'))
    | e => e

theorem insert_eq {α : Type} (lt : α → α → Bool) (maxI fuel : Nat)
    (its : List α) (chs : List (node α)) (x : α) :
    node.insert lt maxI (fuel+1) (node.mk its chs) x =
      match items.find lt its x with
      | (i, true) =>
        match its.get? i with
        | none => .crash
        | some out => .ok (some out) (.mk (its.set i x) chs)
      | (i, false) =>
        if chs.length == 0 then .ok none (.mk (listInsertAt its i x) chs)
        else
          match node.maybeSplitChild (node.mk its chs) i maxI with
          | none => .crash
          | some (didSplit, n1) =>
            if didSplit then
              match (node.items n1).get? i with
              | none => .crash
              | some inTree =>
                if lt x inTree then insertCont lt maxI fuel x n1 i
                else if lt inTree x then insertCont lt maxI fuel x n1 (i+1)
                else .ok (some inTree)
                  (.mk ((node.items n1).set i x) (node.children n1))
            else insertCont lt maxI fuel x n1 i :=
  rfl

/-- `node.insert` preserves arity, balance, and the height of the node. -/
theorem insert_aOK {α : Type} (lt : α → α → Bool) (maxI : Nat) :
    ∀ (fuel : Nat) (n : node α) (x : α) (res : Option α) (n' : node α),
      arity n = true → balanced n = true →
      node.insert lt maxI fuel n x = .ok res n' →
      arity n' = true ∧ balanced n' = true ∧ height n' = height n := by
  intro fuel
  induction fuel with
  | zero => intro n x res n' _ _ h; cases h
  | succ fuel ih =>
    have hcont : ∀ (n1 : node α) (x : α) (i2 : Nat) (res : Option α) (n2 : node α),
        arity n1 = true → balanced n1 = true →
        insertCont lt maxI fuel x n1 i2 = .ok res n2 →
        arity n2 = true ∧ balanced n2 = true ∧ height n2 = height n1 := by
      intro n1 x i2 res2 n2 ha1 hb1 hcall
      rcases n1 with ⟨its1, chs1⟩
      simp only [insertCont, node.items, node.children] at hcall
      cases hgc : chs1.get? i2 with
      | none => rw [hgc] at hcall; cases hcall
      | some c =>
        simp only [hgc] at hcall
        have hcne : chs1 ≠ [] := by
          intro hcon
          subst hcon
          simp at hgc
        cases hrec : node.insert lt maxI fuel c x with
        | ok r c' =>
          rw [hrec] at hcall
          injection hcall with h1 h2
          subst h1; subst h2
          have hcmem : c ∈ chs1 := List.get?_mem hgc
          have hcg : arity c = true ∧ balanced c = true := by
            exact ⟨((arity_mk_iff its1 chs1).mp ha1).2 c hcmem,
              ((balanced_mk_iff its1 chs1).mp hb1).1 c hcmem⟩
          obtain ⟨hac', hbc', hhc'⟩ := ih c x r c' hcg.1 hcg.2 hrec
          obtain ⟨hdisj, hachs⟩ := (arity_mk_iff its1 chs1).mp ha1
          obtain ⟨hbchs, hheights⟩ := (balanced_mk_iff its1 chs1).mp hb1
          have hmem2 : ∀ d ∈ chs1.set i2 c', d = c' ∨ d ∈ chs1 :=
            fun d hd => mem_of_mem_set _ _ _ _ hd
          have hheights2 : ∀ d ∈ chs1.set i2 c', height d = height c := by
            intro d hd
            rcases hmem2 d hd with h | h
            · rw [h, hhc']
            · exact hheights d h c hcmem
          refine ⟨?_, ?_, ?_⟩
          · refine (arity_mk_iff _ _).mpr ⟨?_, ?_⟩
            · rcases hdisj with h | h
              · exact absurd h hcne
              · exact Or.inr (by simpa using h)
            · intro d hd
              rcases hmem2 d hd with h | h
              · rw [h]; exact hac'
              · exact hachs d h
          · refine (balanced_mk_iff _ _).mpr ⟨?_, ?_⟩
            · intro d hd
              rcases hmem2 d hd with h | h
              · rw [h]; exact hbc'
              · exact hbchs d h
            · intro d hd e he
              rw [hheights2 d hd, hheights2 e he]
          · rw [height_mk, height_mk]
            rw [heightAux_eq_of_heights _ (height c)
              (by intro hcon
                  have h9 := congrArg List.length hcon
                  simp at h9
                  exact hcne h9) hheights2]
            rw [heightAux_eq_of_heights chs1 (height c) hcne
              (fun d hd => hheights d hd c hcmem)]
        | crash => rw [hrec] at hcall; cases hcall
        | noFuel => rw [hrec] at hcall; cases hcall
    intro n x res n' ha hb h
    rcases n with ⟨its, chs⟩
    rw [insert_eq] at h
    cases hfind : items.find lt its x with
    | mk i found =>
      simp only [hfind] at h
      cases found with
      | true =>
        cases hgi : its.get? i with
        | none => simp only [hgi] at h; cases h
        | some out =>
          simp only [hgi] at h
          injection h with h1 h2
          subst h1; subst h2
          obtain ⟨hdisj, hachs⟩ := (arity_mk_iff its chs).mp ha
          refine ⟨(arity_mk_iff _ _).mpr ⟨?_, hachs⟩,
            (balanced_mk_iff _ _).mpr ((balanced_mk_iff its chs).mp hb),
            by rw [height_mk, height_mk]⟩
          rcases hdisj with h | h
          · exact Or.inl h
          · exact Or.inr (by simpa using h)
      | false =>
        cases chs with
        | nil =>
          injection h with h1 h2
          subst h1; subst h2
          exact ⟨(arity_mk_iff _ _).mpr ⟨Or.inl rfl, by simp⟩,
            (balanced_mk_iff _ _).mpr ⟨by simp, by simp⟩,
            by rw [height_mk, height_mk]⟩
        | cons c0 cs =>
          have hcond : (((c0 :: cs).length == 0)) = false := by simp
          simp only [hcond, Bool.false_eq_true, if_false] at h
          cases hmsc : node.maybeSplitChild (node.mk its (c0 :: cs)) i maxI with
          | none => simp only [hmsc] at h; cases h
          | some pair =>
            obtain ⟨didSplit, n1⟩ := pair
            simp only [hmsc] at h
            obtain ⟨han1, hbn1, hh1, _, _, _⟩ := msc_props ha hb hmsc
            cases didSplit with
            | false =>
              simp only [Bool.false_eq_true, if_false] at h
              obtain ⟨h1, h2, h3⟩ := hcont n1 x i res n' han1 hbn1 h
              exact ⟨h1, h2, by rw [h3, hh1]⟩
            | true =>
              simp only [if_true] at h
              cases hgi2 : (node.items n1).get? i with
              | none => simp only [hgi2] at h; cases h
              | some inTree =>
                simp only [hgi2] at h
                cases hx1 : lt x inTree with
                | true =>
                  simp only [hx1] at h
                  simp only [if_true] at h
                  obtain ⟨h1, h2, h3⟩ := hcont n1 x i res n' han1 hbn1 h
                  exact ⟨h1, h2, by rw [h3, hh1]⟩
                | false =>
                  simp only [hx1] at h
                  simp only [Bool.false_eq_true, if_false] at h
                  cases hx2 : lt inTree x with
                  | true =>
                    simp only [hx2] at h
                    simp only [if_true] at h
                    obtain ⟨h1, h2, h3⟩ := hcont n1 x (i+1) res n' han1 hbn1 h
                    exact ⟨h1, h2, by rw [h3, hh1]⟩
                  | false =>
                    simp only [hx2] at h
                    simp only [Bool.false_eq_true, if_false] at h
                    injection h with h1 h2
                    subst h1; subst h2
                    rcases n1 with ⟨its1, chs1⟩
                    obtain ⟨hdisj1, hachs1⟩ := (arity_mk_iff its1 chs1).mp han1
                    refine ⟨?_, ?_, ?_⟩
                    · show arity (node.mk (its1.set i x) chs1) = true
                      refine (arity_mk_iff _ _).mpr ⟨?_, hachs1⟩
                      rcases hdisj1 with h | h
                      · exact Or.inl h
                      · exact Or.inr (by simpa using h)
                    · show balanced (node.mk (its1.set i x) chs1) = true
                      exact (balanced_mk_iff _ _).mpr ((balanced_mk_iff its1 chs1).mp hbn1)
                    · show height (node.mk (its1.set i x) chs1) =
                        height (node.mk its (c0 :: cs))
                      rw [height_mk, ← height_mk its1 chs1]
                      exact hh1

/-- Rebuilding an internal node from children that all carry the invariants
and a common height. -/
theorem node_rebuild {α : Type} {m H : Nat} {its2 : List α} {chs2 : List (node α)}
    (hlen2 : chs2.length = its2.length + 1) (hne : chs2 ≠ [])
    (hall : ∀ c ∈ chs2, arity c = true ∧ balanced c = true ∧ height c = H ∧
      m ≤ (node.items c).length ∧ occ m c = true) :
    arity (node.mk its2 chs2) = true ∧ balanced (node.mk its2 chs2) = true ∧
    occ m (node.mk its2 chs2) = true ∧ height (node.mk its2 chs2) = H + 1 :=
  ⟨(arity_mk_iff _ _).mpr ⟨Or.inr hlen2, fun c hc => (hall c hc).1⟩,
   (balanced_mk_iff _ _).mpr ⟨fun c hc => (hall c hc).2.1,
     fun c hc d hd => by rw [(hall c hc).2.2.1, (hall d hd).2.2.1]⟩,
   (occ_mk_iff _ _ _).mpr (fun c hc => ⟨(hall c hc).2.2.2.1, (hall c hc).2.2.2.2⟩),
   by rw [height_mk]
      exact heightAux_eq_of_heights chs2 H hne (fun c hc => (hall c hc).2.2.1)⟩

/-- Unpacking the invariants of an internal node onto its children. -/
theorem node_unbuild {α : Type} {m : Nat} {its : List α} {chs : List (node α)}
    (ha : arity (node.mk its chs) = true) (hb : balanced (node.mk its chs) = true)
    (hocc : occ m (node.mk its chs) = true) {c0 : node α} (hc0 : c0 ∈ chs) :
    chs.length = its.length + 1 ∧
    (∀ c ∈ chs, arity c = true ∧ balanced c = true ∧ height c = height c0 ∧
      m ≤ (node.items c).length ∧ occ m c = true) ∧
    height (node.mk its chs) = height c0 + 1 := by
  obtain ⟨hdisj, hachs⟩ := (arity_mk_iff its chs).mp ha
  obtain ⟨hbchs, hheights⟩ := (balanced_mk_iff its chs).mp hb
  have hoccs := (occ_mk_iff m its chs).mp hocc
  have hne : chs ≠ [] := by
    intro hcon
    subst hcon
    cases hc0
  have hlen : chs.length = its.length + 1 := by
    rcases hdisj with h | h
    · exact absurd h hne
    · exact h
  refine ⟨hlen, fun c hc => ⟨hachs c hc, hbchs c hc, hheights c hc c0 hc0,
    (hoccs c hc).1, (hoccs c hc).2⟩, ?_⟩
  rw [height_mk]
  exact heightAux_eq_of_heights chs (height c0) hne
    (fun c hc => hheights c hc c0 hc0)

theorem listPop_none {β : Type} {l : List β} (h : listPop l = none) : l = [] := by
  cases hgl : l.getLast? with
  | none => exact List.getLast?_eq_none_iff.mp hgl
  | some a => simp [listPop, hgl] at h

/-- The steal-from-left-sibling adjustment preserves the invariants, the
height, and the flattening of the node. -/
theorem stealLeftAdj_props {α : Type} {m : Nat} {its : List α}
    {chs : List (node α)} {i : Nat} {n2 : node α}
    (ha : arity (node.mk its chs) = true) (hb : balanced (node.mk its chs) = true)
    (hocc : occ m (node.mk its chs) = true) (hi : 0 < i)
    (hsiblen : ∀ sib, chs.get? (i-1) = some sib → m < (node.items sib).length)
    (hadj : stealLeftAdj (node.mk its chs) i = some n2) :
    arity n2 = true ∧ balanced n2 = true ∧ occ m n2 = true ∧
    height n2 = height (node.mk its chs) ∧
    flatten n2 = flatten (node.mk its chs) := by
  simp only [stealLeftAdj, node.children, node.items] at hadj
  cases hgc : chs.get? i with
  | none => rw [hgc] at hadj; cases hadj
  | some child =>
  cases hgs : chs.get? (i-1) with
  | none => rw [hgc, hgs] at hadj; cases hadj
  | some sib =>
  cases hgsep : its.get? (i-1) with
  | none => rw [hgc, hgs, hgsep] at hadj; cases hadj
  | some sep =>
  simp only [hgc, hgs, hgsep] at hadj
  obtain ⟨hlen, hall, hH⟩ := node_unbuild ha hb hocc (List.get?_mem hgc)
  have hchildmem := List.get?_mem hgc
  have hsibmem := List.get?_mem hgs
  obtain ⟨hasib, hbsib, hhsib, hmsib, hosib⟩ := hall sib hsibmem
  obtain ⟨hachild, hbchild, hhchild, hmchild, hochild⟩ := hall child hchildmem
  rcases sib with ⟨sibIts, sibChs⟩
  rcases child with ⟨cIts, cChs⟩
  cases hpopI : listPop sibIts with
  | none => simp only [node.items, hpopI] at hadj; cases hadj
  | some pI =>
  obtain ⟨stolen, sfIts⟩ := pI
  simp only [node.items, node.children, hpopI] at hadj
  obtain ⟨hsibsplit, hsfdrop, hsiblen2, hsiblast⟩ := listPop_eq hpopI
  have hil : i - 1 < its.length := by
    rw [List.get?_eq_some] at hgsep
    exact hgsep.1
  have hic : i < chs.length := by
    rw [List.get?_eq_some] at hgc
    exact hgc.1
  have hii : i - 1 + 1 = i := by omega
  have hsiblen3 : m < sibIts.length := by
    have := hsiblen _ hgs
    simpa [node.items] using this
  cases hpopC : listPop sibChs with
  | none =>
    -- the sibling is a leaf, hence (by balance) so is the child
    simp only [hpopC] at hadj
    injection hadj with hadj2
    have hsibleaf : sibChs = [] := listPop_none hpopC
    have hchildleaf : cChs = [] := by
      have h1 : height (node.mk cIts cChs) = 0 := by
        rw [hhchild, ← hhsib, hsibleaf, height_mk, heightAux_nil]
      have h2 := children_nil_of_height_zero h1
      simpa [node.children] using h2
    subst hsibleaf
    subst hchildleaf
    rw [listInsertAt_zero] at hadj2
    subst hadj2
    have hmem2 : ∀ c ∈ (chs.set (i-1) (node.mk sfIts [])).set i
        (node.mk (sep :: cIts) []),
        c = node.mk (sep :: cIts) [] ∨ c = node.mk sfIts [] ∨ c ∈ chs := by
      intro c hc
      rcases mem_of_mem_set _ _ _ _ hc with h | h
      · exact Or.inl h
      · rcases mem_of_mem_set _ _ _ _ h with h | h
        · exact Or.inr (Or.inl h)
        · exact Or.inr (Or.inr h)
    have hall2 : ∀ c ∈ (chs.set (i-1) (node.mk sfIts [])).set i
        (node.mk (sep :: cIts) []),
        arity c = true ∧ balanced c = true ∧
        height c = height (node.mk cIts ([] : List (node α))) ∧
        m ≤ (node.items c).length ∧ occ m c = true := by
      intro c hc
      rcases hmem2 c hc with h | h | h
      · subst h
        refine ⟨(arity_mk_iff _ _).mpr ⟨Or.inl rfl, by simp⟩,
          (balanced_mk_iff _ _).mpr ⟨by simp, by simp⟩,
          by rw [height_mk, heightAux_nil, height_mk, heightAux_nil], ?_,
          (occ_mk_iff _ _ _).mpr (by simp)⟩
        simp only [node.items] at hmchild ⊢
        simp
        omega
      · subst h
        refine ⟨(arity_mk_iff _ _).mpr ⟨Or.inl rfl, by simp⟩,
          (balanced_mk_iff _ _).mpr ⟨by simp, by simp⟩,
          by rw [height_mk, heightAux_nil, height_mk, heightAux_nil], ?_,
          (occ_mk_iff _ _ _).mpr (by simp)⟩
        simp only [node.items]
        omega
      · obtain ⟨h1, h2, h3, h4, h5⟩ := hall c h
        exact ⟨h1, h2, h3, h4, h5⟩
    have hlen2 : ((chs.set (i-1) (node.mk sfIts [])).set i
        (node.mk (sep :: cIts) [])).length = (its.set (i-1) stolen).length + 1 := by
      rw [List.length_set, List.length_set, List.length_set]
      omega
    have hne2 : (chs.set (i-1) (node.mk sfIts [])).set i
        (node.mk (sep :: cIts) []) ≠ [] := by
      intro hcon
      have h9 := congrArg List.length hcon
      rw [List.length_set, List.length_set] at h9
      simp only [List.length_nil] at h9
      omega
    obtain ⟨ha2, hb2, ho2, hh2⟩ := node_rebuild hlen2 hne2 hall2
    refine ⟨ha2, hb2, ho2, ?_, ?_⟩
    · rw [hh2, hH, hhchild]
    · rw [flatten_mk, flatten_mk]
      have hloc : flatten (node.mk sfIts ([] : List (node α))) ++ stolen ::
          flatten (node.mk (sep :: cIts) ([] : List (node α))) =
          flatten (node.mk sibIts ([] : List (node α))) ++ sep ::
            flatten (node.mk cIts ([] : List (node α))) := by
        rw [flatten_mk, flatten_mk, flatten_mk, flatten_mk, flattenAux_nil,
          flattenAux_nil, flattenAux_nil, flattenAux_nil, hsibsplit]
        simp
      have hsp := stealPair (i-1) its chs (node.mk sibIts []) (node.mk cIts [])
        (node.mk sfIts []) (node.mk (sep :: cIts) []) stolen sep hgs
        (by rw [hii]; exact hgc) hgsep hloc
      rw [hii] at hsp
      exact hsp
  | some pC =>
    obtain ⟨lastC, sfChs⟩ := pC
    simp only [hpopC] at hadj
    rw [listInsertAt_zero, listInsertAt_zero] at hadj
    injection hadj with hadj2
    subst hadj2
    obtain ⟨hsibCsplit, hsfCdrop, hsibClen2, _⟩ := listPop_eq hpopC
    have hsibChs_ne : sibChs ≠ [] := by
      intro hcon
      rw [hcon] at hpopC
      simp [listPop] at hpopC
    have hsib_arity : sibChs.length = sibIts.length + 1 := by
      obtain ⟨hd, _⟩ := (arity_mk_iff sibIts sibChs).mp hasib
      rcases hd with h | h
      · exact absurd h hsibChs_ne
      · exact h
    have hlastCmem : lastC ∈ sibChs := by
      rw [hsibCsplit]
      exact List.mem_append_right _ (List.mem_cons_self _ _)
    obtain ⟨_, hallsib, hHsib⟩ := node_unbuild hasib hbsib hosib hlastCmem
    have hcChs_ne : cChs ≠ [] := by
      intro hcon
      have h1 : height (node.mk cIts cChs) = 0 := by
        rw [hcon, height_mk, heightAux_nil]
      rw [hhchild, ← hhsib, hHsib] at h1
      omega
    have hchild_arity : cChs.length = cIts.length + 1 := by
      obtain ⟨hd, _⟩ := (arity_mk_iff cIts cChs).mp hachild
      rcases hd with h | h
      · exact absurd h hcChs_ne
      · exact h
    obtain ⟨cc0, hcc0⟩ := List.exists_mem_of_ne_nil cChs hcChs_ne
    obtain ⟨_, hallchild, hHchild⟩ := node_unbuild hachild hbchild hochild hcc0
    -- the two grandchild strata have equal height
    have hgrand : height cc0 = height lastC := by
      have h1 : height (node.mk cIts cChs) = height cc0 + 1 := hHchild
      have h2 : height (node.mk sibIts sibChs) = height lastC + 1 := hHsib
      rw [hhchild, ← hhsib, h2] at h1
      omega
    have hsfChs_ne : sfChs ≠ [] := by
      intro hcon
      rw [hcon] at hsibClen2
      simp at hsibClen2
      omega
    -- invariants of the new sibling
    have hsib2 : arity (node.mk sfIts sfChs) = true ∧
        balanced (node.mk sfIts sfChs) = true ∧
        occ m (node.mk sfIts sfChs) = true ∧
        height (node.mk sfIts sfChs) = height (node.mk sibIts sibChs) := by
      have hsubset : ∀ c ∈ sfChs, c ∈ sibChs := by
        intro c hc
        rw [hsibCsplit]
        exact List.mem_append_left _ hc
      have hall3 : ∀ c ∈ sfChs, arity c = true ∧ balanced c = true ∧
          height c = height lastC ∧ m ≤ (node.items c).length ∧ occ m c = true :=
        fun c hc => hallsib c (hsubset c hc)
      have hlen3 : sfChs.length = sfIts.length + 1 := by omega
      obtain ⟨h1, h2, h3, h4⟩ := node_rebuild hlen3 hsfChs_ne hall3
      exact ⟨h1, h2, h3, by rw [h4, hHsib]⟩
    -- invariants of the fattened child
    have hchild2 : arity (node.mk (sep :: cIts) (lastC :: cChs)) = true ∧
        balanced (node.mk (sep :: cIts) (lastC :: cChs)) = true ∧
        occ m (node.mk (sep :: cIts) (lastC :: cChs)) = true ∧
        height (node.mk (sep :: cIts) (lastC :: cChs)) =
          height (node.mk cIts cChs) := by
      have hall3 : ∀ c ∈ lastC :: cChs, arity c = true ∧ balanced c = true ∧
          height c = height cc0 ∧ m ≤ (node.items c).length ∧ occ m c = true := by
        intro c hc
        rcases List.mem_cons.mp hc with h | h
        · obtain ⟨h1, h2, h3, h4, h5⟩ := hallsib lastC hlastCmem
          rw [h]
          exact ⟨h1, h2, by rw [h3, hgrand], h4, h5⟩
        · exact hallchild c h
      have hlen3 : (lastC :: cChs).length = (sep :: cIts).length + 1 := by
        simp
        omega
      have hne3 : lastC :: cChs ≠ ([] : List (node α)) := by simp
      obtain ⟨h1, h2, h3, h4⟩ := node_rebuild hlen3 hne3 hall3
      exact ⟨h1, h2, h3, by rw [h4, hHchild]⟩
    -- rebuild the parent
    have hmem2 : ∀ c ∈ (chs.set (i-1) (node.mk sfIts sfChs)).set i
        (node.mk (sep :: cIts) (lastC :: cChs)),
        c = node.mk (sep :: cIts) (lastC :: cChs) ∨ c = node.mk sfIts sfChs ∨
          c ∈ chs := by
      intro c hc
      rcases mem_of_mem_set _ _ _ _ hc with h | h
      · exact Or.inl h
      · rcases mem_of_mem_set _ _ _ _ h with h | h
        · exact Or.inr (Or.inl h)
        · exact Or.inr (Or.inr h)
    have hall2 : ∀ c ∈ (chs.set (i-1) (node.mk sfIts sfChs)).set i
        (node.mk (sep :: cIts) (lastC :: cChs)),
        arity c = true ∧ balanced c = true ∧
        height c = height (node.mk cIts cChs) ∧
        m ≤ (node.items c).length ∧ occ m c = true := by
      intro c hc
      rcases hmem2 c hc with h | h | h
      · subst h
        refine ⟨hchild2.1, hchild2.2.1, hchild2.2.2.2, ?_, hchild2.2.2.1⟩
        simp only [node.items] at hmchild ⊢
        simp
        omega
      · subst h
        refine ⟨hsib2.1, hsib2.2.1, by rw [hsib2.2.2.2, hhsib, hhchild], ?_,
          hsib2.2.2.1⟩
        simp only [node.items]
        omega
      · exact hall c h
    have hlen2 : ((chs.set (i-1) (node.mk sfIts sfChs)).set i
        (node.mk (sep :: cIts) (lastC :: cChs))).length =
        (its.set (i-1) stolen).length + 1 := by
      rw [List.length_set, List.length_set, List.length_set]
      omega
    have hne2 : (chs.set (i-1) (node.mk sfIts sfChs)).set i
        (node.mk (sep :: cIts) (lastC :: cChs)) ≠ [] := by
      intro hcon
      have h9 := congrArg List.length hcon
      rw [List.length_set, List.length_set] at h9
      simp only [List.length_nil] at h9
      omega
    obtain ⟨ha2, hb2, ho2, hh2⟩ := node_rebuild hlen2 hne2 hall2
    refine ⟨ha2, hb2, ho2, ?_, ?_⟩
    · rw [hh2, hH, hhchild]
    · rw [flatten_mk, flatten_mk]
      have hloc : flatten (node.mk sfIts sfChs) ++ stolen ::
          flatten (node.mk (sep :: cIts) (lastC :: cChs)) =
          flatten (node.mk sibIts sibChs) ++ sep :: flatten (node.mk cIts cChs) := by
        rw [flatten_mk, flatten_mk, flatten_mk, flatten_mk, hsibsplit, hsibCsplit,
          flattenAux_snoc sfIts sfChs stolen lastC (by omega),
          flattenAux_cons_cons]
        simp
      have hsp := stealPair (i-1) its chs (node.mk sibIts sibChs)
        (node.mk cIts cChs) (node.mk sfIts sfChs)
        (node.mk (sep :: cIts) (lastC :: cChs)) stolen sep hgs
        (by rw [hii]; exact hgc) hgsep hloc
      rw [hii] at hsp
      exact hsp

theorem listRemoveAt_zero_eq {β : Type} {l l' : List β} {a : β}
    (h : listRemoveAt l 0 = some (a, l')) : l = a :: l' := by
  obtain ⟨hg, hl', hsplit, _⟩ := listRemoveAt_eq h
  rw [hl']
  simpa using hsplit

theorem listRemoveAt_zero_none {β : Type} {l : List β}
    (h : listRemoveAt l 0 = none) : l = [] := by
  cases l with
  | nil => rfl
  | cons b bs => simp [listRemoveAt, List.get?] at h

/-- The steal-from-right-sibling adjustment preserves the invariants, the
height, and the flattening of the node. -/
theorem stealRightAdj_props {α : Type} {m : Nat} {its : List α}
    {chs : List (node α)} {i : Nat} {n2 : node α}
    (ha : arity (node.mk its chs) = true) (hb : balanced (node.mk its chs) = true)
    (hocc : occ m (node.mk its chs) = true)
    (hsiblen : ∀ sib, chs.get? (i+1) = some sib → m < (node.items sib).length)
    (hadj : stealRightAdj (node.mk its chs) i = some n2) :
    arity n2 = true ∧ balanced n2 = true ∧ occ m n2 = true ∧
    height n2 = height (node.mk its chs) ∧
    flatten n2 = flatten (node.mk its chs) := by
  simp only [stealRightAdj, node.children, node.items] at hadj
  cases hgc : chs.get? i with
  | none => rw [hgc] at hadj; cases hadj
  | some child =>
  cases hgs : chs.get? (i+1) with
  | none => rw [hgc, hgs] at hadj; cases hadj
  | some sib =>
  cases hgsep : its.get? i with
  | none => rw [hgc, hgs, hgsep] at hadj; cases hadj
  | some sep =>
  simp only [hgc, hgs, hgsep] at hadj
  obtain ⟨hlen, hall, hH⟩ := node_unbuild ha hb hocc (List.get?_mem hgc)
  have hchildmem := List.get?_mem hgc
  have hsibmem := List.get?_mem hgs
  obtain ⟨hasib, hbsib, hhsib, hmsib, hosib⟩ := hall sib hsibmem
  obtain ⟨hachild, hbchild, hhchild, hmchild, hochild⟩ := hall child hchildmem
  rcases sib with ⟨sibIts, sibChs⟩
  rcases child with ⟨cIts, cChs⟩
  cases hremI : listRemoveAt sibIts 0 with
  | none => simp only [node.items, hremI] at hadj; cases hadj
  | some pI =>
  obtain ⟨stolen, sfIts⟩ := pI
  simp only [node.items, node.children, hremI] at hadj
  have hsibsplit : sibIts = stolen :: sfIts := listRemoveAt_zero_eq hremI
  have hil : i < its.length := by
    rw [List.get?_eq_some] at hgsep
    exact hgsep.1
  have hic : i < chs.length := by
    rw [List.get?_eq_some] at hgc
    exact hgc.1
  have hsiblen3 : m < sibIts.length := by
    have := hsiblen _ hgs
    simpa [node.items] using this
  have hsetcomm : ∀ (a b : node α),
      (chs.set (i+1) b).set i a = (chs.set i a).set (i+1) b := by
    intro a b
    exact (List.set_comm a b chs (by omega)).symm
  cases hremC : listRemoveAt sibChs 0 with
  | none =>
    -- the sibling is a leaf, hence (by balance) so is the child
    simp only [hremC] at hadj
    injection hadj with hadj2
    have hsibleaf : sibChs = [] := listRemoveAt_zero_none hremC
    have hchildleaf : cChs = [] := by
      have h1 : height (node.mk cIts cChs) = 0 := by
        rw [hhchild, ← hhsib, hsibleaf, height_mk, heightAux_nil]
      have h2 := children_nil_of_height_zero h1
      simpa [node.children] using h2
    subst hsibleaf
    subst hchildleaf
    subst hadj2
    have hmem2 : ∀ c ∈ (chs.set (i+1) (node.mk sfIts [])).set i
        (node.mk (cIts ++ [sep]) []),
        c = node.mk (cIts ++ [sep]) [] ∨ c = node.mk sfIts [] ∨ c ∈ chs := by
      intro c hc
      rcases mem_of_mem_set _ _ _ _ hc with h | h
      · exact Or.inl h
      · rcases mem_of_mem_set _ _ _ _ h with h | h
        · exact Or.inr (Or.inl h)
        · exact Or.inr (Or.inr h)
    have hall2 : ∀ c ∈ (chs.set (i+1) (node.mk sfIts [])).set i
        (node.mk (cIts ++ [sep]) []),
        arity c = true ∧ balanced c = true ∧
        height c = height (node.mk cIts ([] : List (node α))) ∧
        m ≤ (node.items c).length ∧ occ m c = true := by
      intro c hc
      rcases hmem2 c hc with h | h | h
      · rw [h]
        refine ⟨(arity_mk_iff _ _).mpr ⟨Or.inl rfl, by simp⟩,
          (balanced_mk_iff _ _).mpr ⟨by simp, by simp⟩,
          by rw [height_mk, heightAux_nil, height_mk, heightAux_nil], ?_,
          (occ_mk_iff _ _ _).mpr (by simp)⟩
        simp only [node.items] at hmchild ⊢
        simp
        omega
      · rw [h]
        refine ⟨(arity_mk_iff _ _).mpr ⟨Or.inl rfl, by simp⟩,
          (balanced_mk_iff _ _).mpr ⟨by simp, by simp⟩,
          by rw [height_mk, heightAux_nil, height_mk, heightAux_nil], ?_,
          (occ_mk_iff _ _ _).mpr (by simp)⟩
        simp only [node.items]
        rw [hsibsplit] at hsiblen3
        simp at hsiblen3
        omega
      · exact hall c h
    have hlen2 : ((chs.set (i+1) (node.mk sfIts [])).set i
        (node.mk (cIts ++ [sep]) [])).length = (its.set i stolen).length + 1 := by
      rw [List.length_set, List.length_set, List.length_set]
      omega
    have hne2 : (chs.set (i+1) (node.mk sfIts [])).set i
        (node.mk (cIts ++ [sep]) []) ≠ [] := by
      intro hcon
      have h9 := congrArg List.length hcon
      rw [List.length_set, List.length_set] at h9
      simp only [List.length_nil] at h9
      omega
    obtain ⟨ha2, hb2, ho2, hh2⟩ := node_rebuild hlen2 hne2 hall2
    refine ⟨ha2, hb2, ho2, ?_, ?_⟩
    · rw [hh2, hH, hhchild]
    · rw [flatten_mk, flatten_mk]
      have hloc : flatten (node.mk (cIts ++ [sep]) ([] : List (node α))) ++ stolen ::
          flatten (node.mk sfIts ([] : List (node α))) =
          flatten (node.mk cIts ([] : List (node α))) ++ sep ::
            flatten (node.mk sibIts ([] : List (node α))) := by
        rw [flatten_mk, flatten_mk, flatten_mk, flatten_mk, flattenAux_nil,
          flattenAux_nil, flattenAux_nil, flattenAux_nil, hsibsplit]
        simp
      rw [hsetcomm]
      exact stealPair i its chs (node.mk cIts []) (node.mk sibIts [])
        (node.mk (cIts ++ [sep]) []) (node.mk sfIts []) stolen sep hgc hgs
        hgsep hloc
  | some pC =>
    obtain ⟨firstC, sfChs⟩ := pC
    simp only [hremC] at hadj
    injection hadj with hadj2
    subst hadj2
    have hsibCsplit : sibChs = firstC :: sfChs := listRemoveAt_zero_eq hremC
    have hsibChs_ne : sibChs ≠ [] := by
      rw [hsibCsplit]
      simp
    have hsib_arity : sibChs.length = sibIts.length + 1 := by
      obtain ⟨hd, _⟩ := (arity_mk_iff sibIts sibChs).mp hasib
      rcases hd with h | h
      · exact absurd h hsibChs_ne
      · exact h
    have hfirstCmem : firstC ∈ sibChs := by
      rw [hsibCsplit]
      exact List.mem_cons_self _ _
    obtain ⟨_, hallsib, hHsib⟩ := node_unbuild hasib hbsib hosib hfirstCmem
    have hcChs_ne : cChs ≠ [] := by
      intro hcon
      have h1 : height (node.mk cIts cChs) = 0 := by
        rw [hcon, height_mk, heightAux_nil]
      rw [hhchild, ← hhsib, hHsib] at h1
      omega
    have hchild_arity : cChs.length = cIts.length + 1 := by
      obtain ⟨hd, _⟩ := (arity_mk_iff cIts cChs).mp hachild
      rcases hd with h | h
      · exact absurd h hcChs_ne
      · exact h
    obtain ⟨cc0, hcc0⟩ := List.exists_mem_of_ne_nil cChs hcChs_ne
    obtain ⟨_, hallchild, hHchild⟩ := node_unbuild hachild hbchild hochild hcc0
    have hgrand : height cc0 = height firstC := by
      have h1 : height (node.mk cIts cChs) = height cc0 + 1 := hHchild
      have h2 : height (node.mk sibIts sibChs) = height firstC + 1 := hHsib
      rw [hhchild, ← hhsib, h2] at h1
      omega
    have hsfChs_ne : sfChs ≠ [] := by
      intro hcon
      rw [hsibCsplit, hcon] at hsib_arity
      rw [hsibsplit] at hsib_arity
      simp at hsib_arity
    have hsib2 : arity (node.mk sfIts sfChs) = true ∧
        balanced (node.mk sfIts sfChs) = true ∧
        occ m (node.mk sfIts sfChs) = true ∧
        height (node.mk sfIts sfChs) = height (node.mk sibIts sibChs) := by
      have hsubset : ∀ c ∈ sfChs, c ∈ sibChs := by
        intro c hc
        rw [hsibCsplit]
        exact List.mem_cons_of_mem _ hc
      have hall3 : ∀ c ∈ sfChs, arity c = true ∧ balanced c = true ∧
          height c = height firstC ∧ m ≤ (node.items c).length ∧ occ m c = true :=
        fun c hc => hallsib c (hsubset c hc)
      have hlen3 : sfChs.length = sfIts.length + 1 := by
        have h1 := congrArg List.length hsibCsplit
        have h2 := congrArg List.length hsibsplit
        simp at h1 h2
        omega
      obtain ⟨h1, h2, h3, h4⟩ := node_rebuild hlen3 hsfChs_ne hall3
      exact ⟨h1, h2, h3, by rw [h4, hHsib]⟩
    have hchild2 : arity (node.mk (cIts ++ [sep]) (cChs ++ [firstC])) = true ∧
        balanced (node.mk (cIts ++ [sep]) (cChs ++ [firstC])) = true ∧
        occ m (node.mk (cIts ++ [sep]) (cChs ++ [firstC])) = true ∧
        height (node.mk (cIts ++ [sep]) (cChs ++ [firstC])) =
          height (node.mk cIts cChs) := by
      have hall3 : ∀ c ∈ cChs ++ [firstC], arity c = true ∧ balanced c = true ∧
          height c = height cc0 ∧ m ≤ (node.items c).length ∧ occ m c = true := by
        intro c hc
        rcases List.mem_append.mp hc with h | h
        · exact hallchild c h
        · obtain ⟨h1, h2, h3, h4, h5⟩ := hallsib firstC hfirstCmem
          have hcf : c = firstC := by simpa using h
          rw [hcf]
          exact ⟨h1, h2, by rw [h3, hgrand], h4, h5⟩
      have hlen3 : (cChs ++ [firstC]).length = (cIts ++ [sep]).length + 1 := by
        simp
        omega
      have hne3 : cChs ++ [firstC] ≠ ([] : List (node α)) := by simp
      obtain ⟨h1, h2, h3, h4⟩ := node_rebuild hlen3 hne3 hall3
      exact ⟨h1, h2, h3, by rw [h4, hHchild]⟩
    have hmem2 : ∀ c ∈ (chs.set (i+1) (node.mk sfIts sfChs)).set i
        (node.mk (cIts ++ [sep]) (cChs ++ [firstC])),
        c = node.mk (cIts ++ [sep]) (cChs ++ [firstC]) ∨
          c = node.mk sfIts sfChs ∨ c ∈ chs := by
      intro c hc
      rcases mem_of_mem_set _ _ _ _ hc with h | h
      · exact Or.inl h
      · rcases mem_of_mem_set _ _ _ _ h with h | h
        · exact Or.inr (Or.inl h)
        · exact Or.inr (Or.inr h)
    have hall2 : ∀ c ∈ (chs.set (i+1) (node.mk sfIts sfChs)).set i
        (node.mk (cIts ++ [sep]) (cChs ++ [firstC])),
        arity c = true ∧ balanced c = true ∧
        height c = height (node.mk cIts cChs) ∧
        m ≤ (node.items c).length ∧ occ m c = true := by
      intro c hc
      rcases hmem2 c hc with h | h | h
      · rw [h]
        refine ⟨hchild2.1, hchild2.2.1, hchild2.2.2.2, ?_, hchild2.2.2.1⟩
        simp only [node.items] at hmchild ⊢
        simp
        omega
      · rw [h]
        refine ⟨hsib2.1, hsib2.2.1, by rw [hsib2.2.2.2, hhsib, hhchild], ?_,
          hsib2.2.2.1⟩
        simp only [node.items]
        rw [hsibsplit] at hsiblen3
        simp at hsiblen3
        omega
      · exact hall c h
    have hlen2 : ((chs.set (i+1) (node.mk sfIts sfChs)).set i
        (node.mk (cIts ++ [sep]) (cChs ++ [firstC]))).length =
        (its.set i stolen).length + 1 := by
      rw [List.length_set, List.length_set, List.length_set]
      omega
    have hne2 : (chs.set (i+1) (node.mk sfIts sfChs)).set i
        (node.mk (cIts ++ [sep]) (cChs ++ [firstC])) ≠ [] := by
      intro hcon
      have h9 := congrArg List.length hcon
      rw [List.length_set, List.length_set] at h9
      simp only [List.length_nil] at h9
      omega
    obtain ⟨ha2, hb2, ho2, hh2⟩ := node_rebuild hlen2 hne2 hall2
    refine ⟨ha2, hb2, ho2, ?_, ?_⟩
    · rw [hh2, hH, hhchild]
    · rw [flatten_mk, flatten_mk]
      have hchild_arity2 : cChs.length = cIts.length + 1 := hchild_arity
      have hloc : flatten (node.mk (cIts ++ [sep]) (cChs ++ [firstC])) ++ stolen ::
          flatten (node.mk sfIts sfChs) =
          flatten (node.mk cIts cChs) ++ sep :: flatten (node.mk sibIts sibChs) := by
        rw [flatten_mk, flatten_mk, flatten_mk, flatten_mk, hsibsplit, hsibCsplit,
          flattenAux_snoc cIts cChs sep firstC hchild_arity2,
          flattenAux_cons_cons]
        simp
      rw [hsetcomm]
      exact stealPair i its chs (node.mk cIts cChs) (node.mk sibIts sibChs)
        (node.mk (cIts ++ [sep]) (cChs ++ [firstC])) (node.mk sfIts sfChs)
        stolen sep hgc hgs hgsep hloc

/-- The merge adjustment preserves the invariants, the height, and the
flattening of the node. -/
theorem mergeAdj_props {α : Type} {m : Nat} {its : List α}
    {chs : List (node α)} {i : Nat} {n2 : node α}
    (ha : arity (node.mk its chs) = true) (hb : balanced (node.mk its chs) = true)
    (hocc : occ m (node.mk its chs) = true)
    (hadj : mergeAdj (node.mk its chs) i = some n2) :
    arity n2 = true ∧ balanced n2 = true ∧ occ m n2 = true ∧
    height n2 = height (node.mk its chs) ∧
    flatten n2 = flatten (node.mk its chs) := by
  simp only [mergeAdj, node.children, node.items] at hadj
  cases hi2 : (if its.length ≤ i then (if i = 0 then none else some (i-1))
      else some i) with
  | none => rw [hi2] at hadj; cases hadj
  | some i2 =>
  simp only [hi2] at hadj
  cases hgc : chs.get? i2 with
  | none => rw [hgc] at hadj; cases hadj
  | some child =>
  cases hremI : listRemoveAt its i2 with
  | none => rw [hgc, hremI] at hadj; cases hadj
  | some pI =>
  obtain ⟨sep, its'⟩ := pI
  cases hremC : listRemoveAt chs (i2+1) with
  | none => rw [hgc, hremI, hremC] at hadj; cases hadj
  | some pC =>
  obtain ⟨mc, chs'⟩ := pC
  simp only [hgc, hremI, hremC] at hadj
  injection hadj with hadj2
  obtain ⟨hgsep, hits', hitsSplit, hitsLen⟩ := listRemoveAt_eq hremI
  obtain ⟨hgmc, hchs', hchsSplit, hchsLen⟩ := listRemoveAt_eq hremC
  obtain ⟨hlen, hall, hH⟩ := node_unbuild ha hb hocc (List.get?_mem hgc)
  obtain ⟨hac, hbc, _, hmc2, hoc⟩ := hall child (List.get?_mem hgc)
  obtain ⟨hamc, hbmc, hhmc, hmmc, homc⟩ := hall mc (List.get?_mem hgmc)
  rcases child with ⟨cIts, cChs⟩
  rcases mc with ⟨mcIts, mcChs⟩
  simp only [node.items, node.children] at hadj2 hmc2 hmmc
  subst hadj2
  have hkey : (arity (node.mk (cIts ++ sep :: mcIts) (cChs ++ mcChs)) = true ∧
      balanced (node.mk (cIts ++ sep :: mcIts) (cChs ++ mcChs)) = true ∧
      occ m (node.mk (cIts ++ sep :: mcIts) (cChs ++ mcChs)) = true ∧
      height (node.mk (cIts ++ sep :: mcIts) (cChs ++ mcChs)) =
        height (node.mk cIts cChs)) ∧
      flatten (node.mk (cIts ++ sep :: mcIts) (cChs ++ mcChs)) =
        flatten (node.mk cIts cChs) ++ sep :: flatten (node.mk mcIts mcChs) := by
    by_cases hcnil : cChs = []
    · have hch0 : height (node.mk cIts cChs) = 0 := by
        rw [hcnil, height_mk, heightAux_nil]
      have hmch0 : height (node.mk mcIts mcChs) = 0 := by rw [hhmc, hch0]
      have hmcn : mcChs = [] := by
        have := children_nil_of_height_zero hmch0
        simpa [node.children] using this
      subst hcnil
      subst hmcn
      refine ⟨⟨(arity_mk_iff _ _).mpr ⟨Or.inl (by simp), by simp⟩,
        (balanced_mk_iff _ _).mpr ⟨by simp, by simp⟩,
        (occ_mk_iff _ _ _).mpr (by simp), ?_⟩, ?_⟩
      · rw [height_mk, height_mk]
        simp [heightAux_nil]
      · rw [flatten_mk, flatten_mk, flatten_mk]
        simp [flattenAux_nil]
    · have hcChs_ne : cChs ≠ [] := hcnil
      obtain ⟨cc0, hcc0⟩ := List.exists_mem_of_ne_nil cChs hcChs_ne
      obtain ⟨_, hallc2, hHc⟩ := node_unbuild hac hbc hoc hcc0
      have hmcChs_ne : mcChs ≠ [] := by
        intro hcon
        have h0 : height (node.mk mcIts mcChs) = 0 := by
          rw [hcon, height_mk, heightAux_nil]
        rw [hhmc, hHc] at h0
        omega
      obtain ⟨mc0, hmc0⟩ := List.exists_mem_of_ne_nil mcChs hmcChs_ne
      obtain ⟨_, hallmc2, hHmc⟩ := node_unbuild hamc hbmc homc hmc0
      have hgrand : height mc0 = height cc0 := by
        have h1 := hHmc
        rw [hhmc, hHc] at h1
        omega
      have hclen : cChs.length = cIts.length + 1 := by
        obtain ⟨hd, _⟩ := (arity_mk_iff cIts cChs).mp hac
        rcases hd with h | h
        · exact absurd h hcChs_ne
        · exact h
      have hall3 : ∀ c ∈ cChs ++ mcChs, arity c = true ∧ balanced c = true ∧
          height c = height cc0 ∧ m ≤ (node.items c).length ∧ occ m c = true := by
        intro c hc
        rcases List.mem_append.mp hc with h | h
        · exact hallc2 c h
        · obtain ⟨h1, h2, h3, h4, h5⟩ := hallmc2 c h
          exact ⟨h1, h2, by rw [h3, hgrand], h4, h5⟩
      have hmclen : mcChs.length = mcIts.length + 1 := by
        obtain ⟨hd, _⟩ := (arity_mk_iff mcIts mcChs).mp hamc
        rcases hd with h | h
        · exact absurd h hmcChs_ne
        · exact h
      have hlen3 : (cChs ++ mcChs).length = (cIts ++ sep :: mcIts).length + 1 := by
        simp
        omega
      have hne3 : cChs ++ mcChs ≠ ([] : List (node α)) := by
        intro hcon
        rw [List.append_eq_nil] at hcon
        exact hcChs_ne hcon.1
      obtain ⟨h1, h2, h3, h4⟩ := node_rebuild hlen3 hne3 hall3
      refine ⟨⟨h1, h2, h3, by rw [h4, hHc]⟩, ?_⟩
      rw [flatten_mk, flatten_mk, flatten_mk]
      exact flattenAux_concat cIts cChs sep mcIts mcChs hclen
  have hi2lt : i2 < its.length := by
    rw [List.get?_eq_some] at hgsep
    exact hgsep.1
  have hsubset : ∀ c ∈ chs', c ∈ chs := by
    intro c hc
    rw [hchs'] at hc
    rcases List.mem_append.mp hc with h | h
    · exact (List.take_sublist _ _).subset h
    · exact (List.drop_sublist _ _).subset h
  have hall2 : ∀ c ∈ chs'.set i2 (node.mk (cIts ++ sep :: mcIts) (cChs ++ mcChs)),
      arity c = true ∧ balanced c = true ∧
      height c = height (node.mk cIts cChs) ∧
      m ≤ (node.items c).length ∧ occ m c = true := by
    intro c hc
    rcases mem_of_mem_set _ _ _ _ hc with h | h
    · rw [h]
      refine ⟨hkey.1.1, hkey.1.2.1, hkey.1.2.2.2, ?_, hkey.1.2.2.1⟩
      simp only [node.items]
      simp
      omega
    · exact hall c (hsubset c h)
  have hlen2 : (chs'.set i2 (node.mk (cIts ++ sep :: mcIts) (cChs ++ mcChs))).length
      = its'.length + 1 := by
    rw [List.length_set]
    omega
  have hne2 : chs'.set i2 (node.mk (cIts ++ sep :: mcIts) (cChs ++ mcChs)) ≠ [] := by
    intro hcon
    have h9 := congrArg List.length hcon
    rw [List.length_set] at h9
    simp only [List.length_nil] at h9
    omega
  obtain ⟨ha2, hb2, ho2, hh2⟩ := node_rebuild hlen2 hne2 hall2
  refine ⟨ha2, hb2, ho2, ?_, ?_⟩
  · rw [hh2, hH]
  · rw [flatten_mk, flatten_mk, hits', hchs']
    exact mergePair i2 its chs (node.mk cIts cChs) (node.mk mcIts mcChs)
      (node.mk (cIts ++ sep :: mcIts) (cChs ++ mcChs)) sep hgc hgmc hgsep hkey.2

/-- The whole adjustment phase of `growChildAndRemove` preserves the
invariants, the height, and the flattening of the node. -/
theorem growAdjust_props {α : Type} {m : Nat} {its : List α}
    {chs : List (node α)} {i : Nat} {n2 : node α}
    (ha : arity (node.mk its chs) = true) (hb : balanced (node.mk its chs) = true)
    (hocc : occ m (node.mk its chs) = true)
    (hadj : growAdjust (node.mk its chs) i m = some n2) :
    arity n2 = true ∧ balanced n2 = true ∧ occ m n2 = true ∧
    height n2 = height (node.mk its chs) ∧
    flatten n2 = flatten (node.mk its chs) := by
  simp only [growAdjust, node.children, node.items] at hadj
  cases hgc : chs.get? i with
  | none => rw [hgc] at hadj; cases hadj
  | some child =>
  simp only [hgc] at hadj
  split at hadj
  case isTrue hL =>
    rw [Bool.and_eq_true] at hL
    obtain ⟨hL1, hL2⟩ := hL
    have hi : 0 < i := of_decide_eq_true hL1
    have hsib : ∀ sib, chs.get? (i-1) = some sib → m < (node.items sib).length := by
      intro sib hs
      simp only [hs] at hL2
      exact of_decide_eq_true hL2
    exact stealLeftAdj_props ha hb hocc hi hsib hadj
  case isFalse hL =>
  split at hadj
  case isTrue hR =>
    rw [Bool.and_eq_true] at hR
    obtain ⟨hR1, hR2⟩ := hR
    have hsib : ∀ sib, chs.get? (i+1) = some sib → m < (node.items sib).length := by
      intro sib hs
      simp only [hs] at hR2
      exact of_decide_eq_true hR2
    exact stealRightAdj_props ha hb hocc hsib hadj
  case isFalse hR =>
    exact mergeAdj_props ha hb hocc hadj

theorem take_set_self {β : Type} :
    ∀ (l : List β) (i : Nat) (a : β), (l.set i a).take i = l.take i
  | [], _, _ => by simp
  | b :: bs, 0, a => rfl
  | b :: bs, i+1, a => by
    show b :: (bs.set i a).take i = b :: bs.take i
    rw [take_set_self bs i a]

theorem drop_set_cons {β : Type} :
    ∀ (l : List β) (i : Nat) (a b : β), l.get? i = some b →
      (l.set i a).drop i = a :: l.drop (i+1)
  | [], i, _, _, h => by simp at h
  | c :: cs, 0, a, b, h => rfl
  | c :: cs, i+1, a, b, h => by
    simp only [List.get?] at h
    show (cs.set i a).drop i = a :: cs.drop (i+1)
    exact drop_set_cons cs i a b h

theorem tailInter_nil {α : Type} (cs : List (node α)) :
    tailInter ([] : List α) cs = [] := rfl

theorem tailInter_cons {α : Type} (a : α) (is2 : List α) (cs : List (node α)) :
    tailInter (a :: is2) cs = a :: flattenAux is2 cs := rfl

/-- Replacing one child by a node of the same height and intact invariants
keeps the parent's arity, balance and height. -/
theorem set_child_props {α : Type} {m : Nat} {its its2 : List α}
    {chs : List (node α)} {i : Nat} {child child' : node α}
    (ha : arity (node.mk its chs) = true) (hb : balanced (node.mk its chs) = true)
    (hocc : occ m (node.mk its chs) = true)
    (hgc : chs.get? i = some child)
    (hlen2 : its2.length = its.length)
    (hac : arity child' = true) (hbc : balanced child' = true)
    (hhc : height child' = height child) :
    arity (node.mk its2 (chs.set i child')) = true ∧
    balanced (node.mk its2 (chs.set i child')) = true ∧
    height (node.mk its2 (chs.set i child')) = height (node.mk its chs) := by
  obtain ⟨hlen, hall, hH⟩ := node_unbuild ha hb hocc (List.get?_mem hgc)
  have hmem : ∀ c ∈ chs.set i child',
      arity c = true ∧ balanced c = true ∧ height c = height child := by
    intro c hc
    rcases mem_of_mem_set _ _ _ _ hc with h | h
    · rw [h]; exact ⟨hac, hbc, hhc⟩
    · obtain ⟨h1, h2, h3, _, _⟩ := hall c h
      exact ⟨h1, h2, h3⟩
  have hki : i < chs.length := by
    have h := hgc
    rw [List.get?_eq_some] at h
    exact h.1
  have hne : chs.set i child' ≠ [] := by
    intro hcon
    have h9 := congrArg List.length hcon
    rw [List.length_set] at h9
    simp only [List.length_nil] at h9
    omega
  refine ⟨(arity_mk_iff _ _).mpr ⟨Or.inr (by rw [List.length_set]; omega),
      fun c hc => (hmem c hc).1⟩,
    (balanced_mk_iff _ _).mpr ⟨fun c hc => (hmem c hc).2.1,
      fun c hc d hd => by rw [(hmem c hc).2.2, (hmem d hd).2.2]⟩, ?_⟩
  rw [height_mk, heightAux_eq_of_heights _ (height child) hne
    (fun c hc => (hmem c hc).2.2), hH]

/-- `node.remove` preserves arity, balance and height; on the flattening it
removes nothing (`none` result, possible only in `removeItem` mode) or
exactly one element: the last one for `removeMax`, the first one for
`removeMin`, and one equivalent to the probe for `removeItem`. -/
theorem remove_props {α : Type} (lt : α → α → Bool) (m : Nat)
    (Htrans : ∀ a b c, lt a b = true → lt b c = true → lt a c = true)
    (HnegTrans : ∀ a b c, lt a b = false → lt b c = false → lt a c = false) :
    ∀ (fuel : Nat) (n : node α) (item : Option α) (typ : toRemove)
      (out : Option α) (n' : node α),
      arity n = true → balanced n = true → occ m n = true →
      List.Pairwise (fun a b => lt a b = true) (flatten n) →
      node.remove lt m fuel n item typ = .ok out n' →
      arity n' = true ∧ balanced n' = true ∧ height n' = height n ∧
      (out = none → flatten n' = flatten n ∧ typ = .removeItem) ∧
      (∀ y, out = some y →
        (∃ pre suf, flatten n = pre ++ y :: suf ∧ flatten n' = pre ++ suf) ∧
        (typ = .removeMax → flatten n = flatten n' ++ [y]) ∧
        (typ = .removeMin → flatten n = y :: flatten n') ∧
        (∀ x, item = some x → typ = .removeItem → equivI lt y x)) := by
  intro fuel
  induction fuel with
  | zero =>
    intro n item typ out n' _ _ _ _ hrem
    simp only [node.remove] at hrem
    cases hrem
  | succ fuel ih =>
    intro n item typ out n' ha hb hocc hpw hrem
    rcases n with ⟨its, chs⟩
    simp only [node.remove, node.items, node.children] at hrem
    cases chs with
    | nil =>
      have hc : ((List.length ([] : List (node α))) == 0) = true := rfl
      rw [if_pos hc] at hrem
      have hfl : flatten (node.mk its ([] : List (node α))) = its := by
        rw [flatten_mk, flattenAux_nil]
      cases typ with
      | removeMax =>
        cases hpop : listPop its with
        | none => rw [hpop] at hrem; cases hrem
        | some p =>
          obtain ⟨x, its'⟩ := p
          rw [hpop] at hrem
          injection hrem with h1 h2
          subst h1
          subst h2
          obtain ⟨hsplit, _, _, _⟩ := listPop_eq hpop
          have hfl' : flatten (node.mk its' ([] : List (node α))) = its' := by
            rw [flatten_mk, flattenAux_nil]
          refine ⟨(arity_mk_iff _ _).mpr ⟨Or.inl rfl, by simp⟩,
            (balanced_mk_iff _ _).mpr ⟨by simp, by simp⟩,
            by rw [height_mk, height_mk], ?_, ?_⟩
          · intro h; cases h
          · intro y hy
            injection hy with hxy
            subst hxy
            refine ⟨⟨its', [], ?_, ?_⟩, ?_, ?_, ?_⟩
            · rw [hfl, hsplit]
            · rw [hfl']; simp
            · intro _; rw [hfl, hfl', hsplit]
            · intro hcon; cases hcon
            · intro x2 hx2 hcon; cases hcon
      | removeMin =>
        cases hra : listRemoveAt its 0 with
        | none => rw [hra] at hrem; cases hrem
        | some p =>
          obtain ⟨x, its'⟩ := p
          rw [hra] at hrem
          injection hrem with h1 h2
          subst h1
          subst h2
          have hsplit : its = x :: its' := listRemoveAt_zero_eq hra
          have hfl' : flatten (node.mk its' ([] : List (node α))) = its' := by
            rw [flatten_mk, flattenAux_nil]
          refine ⟨(arity_mk_iff _ _).mpr ⟨Or.inl rfl, by simp⟩,
            (balanced_mk_iff _ _).mpr ⟨by simp, by simp⟩,
            by rw [height_mk, height_mk], ?_, ?_⟩
          · intro h; cases h
          · intro y hy
            injection hy with hxy
            subst hxy
            refine ⟨⟨[], its', ?_, ?_⟩, ?_, ?_, ?_⟩
            · rw [hfl, hsplit]; rfl
            · rw [hfl']; rfl
            · intro hcon; cases hcon
            · intro _; rw [hfl, hfl', hsplit]
            · intro x2 hx2 hcon; cases hcon
      | removeItem =>
        cases item with
        | none => cases hrem
        | some x =>
          rcases hfind : items.find lt its x with ⟨i, found⟩
          cases found with
          | false =>
            simp only [hfind] at hrem
            injection hrem with h1 h2
            subst h1
            subst h2
            refine ⟨ha, hb, rfl, ?_, ?_⟩
            · intro _; exact ⟨rfl, rfl⟩
            · intro y hy; cases hy
          | true =>
            simp only [hfind] at hrem
            cases hra : listRemoveAt its i with
            | none => rw [hra] at hrem; cases hrem
            | some p =>
              obtain ⟨y0, its'⟩ := p
              rw [hra] at hrem
              injection hrem with h1 h2
              subst h1
              subst h2
              obtain ⟨hg, hl', hsplit, _⟩ := listRemoveAt_eq hra
              have hpw' : List.Pairwise (fun a b => lt a b = true) its := by
                rw [hfl] at hpw; exact hpw
              obtain ⟨y1, hy1, heq1, _⟩ :=
                (find_spec lt its x Htrans HnegTrans hpw').1 i hfind
              have hy01 : y1 = y0 := by
                rw [hg] at hy1
                injection hy1 with h
                exact h.symm
              have hfl' : flatten (node.mk its' ([] : List (node α))) = its' := by
                rw [flatten_mk, flattenAux_nil]
              refine ⟨(arity_mk_iff _ _).mpr ⟨Or.inl rfl, by simp⟩,
                (balanced_mk_iff _ _).mpr ⟨by simp, by simp⟩,
                by rw [height_mk, height_mk], ?_, ?_⟩
              · intro h; cases h
              · intro y hy
                injection hy with hyy
                subst hyy
                refine ⟨⟨its.take i, its.drop (i+1), ?_, ?_⟩, ?_, ?_, ?_⟩
                · rw [hfl]; exact hsplit
                · rw [hfl']; exact hl'
                · intro hcon; cases hcon
                · intro hcon; cases hcon
                · intro x2 hx2 _
                  injection hx2 with hxx
                  subst hxx
                  rw [← hy01]; exact heq1
    | cons c0 cs =>
      have hcond : ((List.length (c0 :: cs)) == 0) = false := rfl
      rw [if_neg (by rw [hcond]; exact Bool.false_ne_true)] at hrem
      cases hsel : selectIndex lt its item typ with
      | none => rw [hsel] at hrem; cases hrem
      | some p =>
      obtain ⟨i, found⟩ := p
      simp only [hsel] at hrem
      cases hgc : (c0 :: cs).get? i with
      | none => rw [hgc] at hrem; cases hrem
      | some child =>
      simp only [hgc] at hrem
      have hlen : (c0 :: cs).length = its.length + 1 := by
        rcases (arity_mk_iff its (c0 :: cs)).mp ha with ⟨h1 | h1, _⟩
        · exact absurd h1 (by simp)
        · exact h1
      have hki : i < (c0 :: cs).length := by
        have h := hgc
        rw [List.get?_eq_some] at h
        exact h.1
      obtain ⟨_, hall, hH⟩ := node_unbuild ha hb hocc (List.get?_mem hgc)
      obtain ⟨hac, hbc, _, hmc, hoc⟩ := hall child (List.get?_mem hgc)
      have hgoodc : good lt child := good_child ⟨ha, hb, hpw⟩ hgc
      have hpwc : List.Pairwise (fun a b => lt a b = true) (flatten child) :=
        hgoodc.2.2
      have hA := flattenAux_child_decomp i its (c0 :: cs) hlen child hgc
      split at hrem
      case isTrue hfat =>
        cases hga : growAdjust (node.mk its (c0 :: cs)) i m with
        | none => rw [hga] at hrem; cases hrem
        | some n2 =>
          simp only [hga] at hrem
          obtain ⟨ha2, hb2, ho2, hh2, hf2⟩ := growAdjust_props ha hb hocc hga
          have hpw2 : List.Pairwise (fun a b => lt a b = true) (flatten n2) := by
            rw [hf2]; exact hpw
          obtain ⟨k1, k2, k3, k4, k5⟩ := ih n2 item typ out n' ha2 hb2 ho2 hpw2 hrem
          rw [hf2] at k4 k5
          exact ⟨k1, k2, by rw [k3, hh2], k4, k5⟩
      case isFalse hfat =>
        cases found with
        | true =>
          rw [if_pos rfl] at hrem
          cases typ with
          | removeMax =>
            simp only [selectIndex] at hsel
            injection hsel with hp
            have hp2 := (Prod.mk.injEq _ _ _ _).mp hp
            exact Bool.noConfusion hp2.2
          | removeMin =>
            simp only [selectIndex] at hsel
            injection hsel with hp
            have hp2 := (Prod.mk.injEq _ _ _ _).mp hp
            exact Bool.noConfusion hp2.2
          | removeItem =>
            cases item with
            | none => simp only [selectIndex] at hsel; cases hsel
            | some x =>
              simp only [selectIndex] at hsel
              injection hsel with hfind
              cases hgo : its.get? i with
              | none => rw [hgo] at hrem; cases hrem
              | some out0 =>
              simp only [hgo] at hrem
              cases hrm : node.remove lt m fuel child none .removeMax with
              | crash => rw [hrm] at hrem; cases hrem
              | noFuel => rw [hrm] at hrem; cases hrem
              | ok r child' =>
                cases r with
                | none => rw [hrm] at hrem; cases hrem
                | some pp =>
                  simp only [hrm] at hrem
                  injection hrem with h1 h2
                  subst h1
                  subst h2
                  obtain ⟨j1, j2, j3, _, j5⟩ :=
                    ih child none .removeMax (some pp) child' hac hbc hoc hpwc hrm
                  obtain ⟨_, jmax, _, _⟩ := j5 pp rfl
                  have hmax : flatten child = flatten child' ++ [pp] := jmax rfl
                  have hlen2 : (its.set i pp).length = its.length := by simp
                  obtain ⟨q1, q2, q3⟩ :=
                    set_child_props ha hb hocc hgc hlen2 j1 j2 j3
                  have hlen' : (c0 :: cs).length = (its.set i pp).length + 1 := by
                    rw [hlen2]; exact hlen
                  have htl : tailInter ((its.set i pp).drop i) ((c0 :: cs).drop (i+1)) =
                      pp :: flattenAux (its.drop (i+1)) ((c0 :: cs).drop (i+1)) := by
                    rw [drop_set_cons its i pp out0 hgo, tailInter_cons]
                  have hfn' : flatten (node.mk (its.set i pp) ((c0 :: cs).set i child')) =
                      flattenAux (its.take i) ((c0 :: cs).take i) ++ flatten child' ++
                        (pp :: flattenAux (its.drop (i+1)) ((c0 :: cs).drop (i+1))) := by
                    rw [flatten_mk,
                      flattenAux_set_decomp i (its.set i pp) (c0 :: cs) hlen' hki child',
                      take_set_self, htl]
                  have htl2 : tailInter (its.drop i) ((c0 :: cs).drop (i+1)) =
                      out0 :: flattenAux (its.drop (i+1)) ((c0 :: cs).drop (i+1)) := by
                    rw [drop_eq_cons_of_get? its i out0 hgo, tailInter_cons]
                  have hfn : flatten (node.mk its (c0 :: cs)) =
                      flattenAux (its.take i) ((c0 :: cs).take i) ++ flatten child ++
                        (out0 :: flattenAux (its.drop (i+1)) ((c0 :: cs).drop (i+1))) := by
                    rw [flatten_mk, hA, htl2]
                  have hpw0 : List.Pairwise (fun a b => lt a b = true) its := by
                    have h := hpw
                    rw [flatten_mk] at h
                    exact items_pairwise_of_flatten h
                  obtain ⟨y1, hy1, heq1, _⟩ :=
                    (find_spec lt its x Htrans HnegTrans hpw0).1 i hfind
                  have hy01 : y1 = out0 := by
                    rw [hgo] at hy1
                    injection hy1 with h
                    exact h.symm
                  refine ⟨q1, q2, q3, ?_, ?_⟩
                  · intro h; cases h
                  · intro y hy
                    injection hy with hyy
                    subst hyy
                    refine ⟨⟨flattenAux (its.take i) ((c0 :: cs).take i) ++
                        flatten child' ++ [pp],
                        flattenAux (its.drop (i+1)) ((c0 :: cs).drop (i+1)), ?_, ?_⟩,
                      ?_, ?_, ?_⟩
                    · rw [hfn, hmax]; simp [List.append_assoc]
                    · rw [hfn']; simp [List.append_assoc]
                    · intro hcon; cases hcon
                    · intro hcon; cases hcon
                    · intro x2 hx2 _
                      injection hx2 with hxx
                      subst hxx
                      rw [← hy01]; exact heq1
        | false =>
          rw [if_neg Bool.false_ne_true] at hrem
          cases hrm : node.remove lt m fuel child item typ with
          | crash => rw [hrm] at hrem; cases hrem
          | noFuel => rw [hrm] at hrem; cases hrem
          | ok r child' =>
            simp only [hrm] at hrem
            injection hrem with h1 h2
            subst h1
            subst h2
            obtain ⟨j1, j2, j3, j4, j5⟩ :=
              ih child item typ r child' hac hbc hoc hpwc hrm
            obtain ⟨q1, q2, q3⟩ := set_child_props ha hb hocc hgc rfl j1 j2 j3
            have hfn' : flatten (node.mk its ((c0 :: cs).set i child')) =
                flattenAux (its.take i) ((c0 :: cs).take i) ++ flatten child' ++
                  tailInter (its.drop i) ((c0 :: cs).drop (i+1)) := by
              rw [flatten_mk]
              exact flattenAux_set_decomp i its (c0 :: cs) hlen hki child'
            have hfn : flatten (node.mk its (c0 :: cs)) =
                flattenAux (its.take i) ((c0 :: cs).take i) ++ flatten child ++
                  tailInter (its.drop i) ((c0 :: cs).drop (i+1)) := by
              rw [flatten_mk]; exact hA
            refine ⟨q1, q2, q3, ?_, ?_⟩
            · intro h
              obtain ⟨hfc, htyp⟩ := j4 h
              exact ⟨by rw [hfn', hfn, hfc], htyp⟩
            · intro y hy
              obtain ⟨⟨preC, sufC, hc1, hc2⟩, jmax, jmin, jeq⟩ := j5 y hy
              refine ⟨⟨flattenAux (its.take i) ((c0 :: cs).take i) ++ preC,
                  sufC ++ tailInter (its.drop i) ((c0 :: cs).drop (i+1)), ?_, ?_⟩,
                ?_, ?_, ?_⟩
              · rw [hfn, hc1]; simp [List.append_assoc]
              · rw [hfn', hc2]; simp [List.append_assoc]
              · intro htyp
                subst htyp
                simp only [selectIndex] at hsel
                injection hsel with hp
                have hpi := (Prod.mk.injEq _ _ _ _).mp hp
                have hB : tailInter (its.drop i) ((c0 :: cs).drop (i+1)) = [] := by
                  rw [← hpi.1, List.drop_length, tailInter_nil]
                have hm2 := jmax rfl
                rw [hfn, hfn', hB, hm2]
                simp [List.append_assoc]
              · intro htyp
                subst htyp
                simp only [selectIndex] at hsel
                injection hsel with hp
                have hpi := (Prod.mk.injEq _ _ _ _).mp hp
                have hA0 : flattenAux (its.take i) ((c0 :: cs).take i) = ([] : List α) := by
                  rw [← hpi.1]
                  rw [show List.take 0 its = ([] : List α) from rfl,
                    show List.take 0 (c0 :: cs) = ([] : List (node α)) from rfl,
                    flattenAux_nil]
                have hm2 := jmin rfl
                rw [hfn, hfn', hA0, hm2]
                simp
              · intro x2 hx2 htyp
                exact jeq x2 hx2 htyp

/-- C1: the arity invariant — every reachable leaf has no children and every
reachable internal node has `len(children) = len(items) + 1` (the recursive
predicate `arity`) — is preserved by `split`, `maybeSplitChild`, `insert`,
`remove`, and `growChildAndRemove` whenever they return normally. -/
theorem arity_preservation {α : Type} (lt : α → α → Bool) (m maxI fuel : Nat)
    (Htrans : ∀ a b c, lt a b = true → lt b c = true → lt a c = true)
    (HnegTrans : ∀ a b c, lt a b = false → lt b c = false → lt a c = false) :
    (∀ (n l r : node α) (j : Nat) (x : α), arity n = true → balanced n = true →
      node.split n j = some (x, l, r) → arity l = true ∧ arity r = true) ∧
    (∀ (n n' : node α) (i : Nat) (b : Bool), arity n = true → balanced n = true →
      node.maybeSplitChild n i maxI = some (b, n') → arity n' = true) ∧
    (∀ (n n' : node α) (x : α) (res : Option α), arity n = true → balanced n = true →
      node.insert lt maxI fuel n x = .ok res n' → arity n' = true) ∧
    (∀ (n n' : node α) (item : Option α) (typ : toRemove) (out : Option α),
      arity n = true → balanced n = true → occ m n = true →
      List.Pairwise (fun a b => lt a b = true) (flatten n) →
      node.remove lt m fuel n item typ = .ok out n' → arity n' = true) ∧
    (∀ (n n' : node α) (i : Nat) (item : Option α) (typ : toRemove) (out : Option α),
      arity n = true → balanced n = true → occ m n = true →
      List.Pairwise (fun a b => lt a b = true) (flatten n) →
      growChildAndRemove lt m fuel n i item typ = .ok out n' → arity n' = true) := by
  refine ⟨?_, ?_, ?_, ?_, ?_⟩
  · intro n l r j x ha hb hs
    obtain ⟨h1, _, h2, _⟩ := split_props ha hb hs
    exact ⟨h1, h2⟩
  · intro n n' i b ha hb hmsc
    exact (msc_props ha hb hmsc).1
  · intro n n' x res ha hb hins
    exact (insert_aOK lt maxI fuel n x res n' ha hb hins).1
  · intro n n' item typ out ha hb hocc hpw hrem
    exact (remove_props lt m Htrans HnegTrans fuel n item typ out n'
      ha hb hocc hpw hrem).1
  · intro n n' i item typ out ha hb hocc hpw hgcr
    rcases n with ⟨its, chs⟩
    simp only [growChildAndRemove] at hgcr
    cases hga : growAdjust (node.mk its chs) i m with
    | none => rw [hga] at hgcr; cases hgcr
    | some n2 =>
      simp only [hga] at hgcr
      obtain ⟨ha2, hb2, ho2, _, hf2⟩ := growAdjust_props ha hb hocc hga
      have hpw2 : List.Pairwise (fun a b => lt a b = true) (flatten n2) := by
        rw [hf2]; exact hpw
      exact (remove_props lt m Htrans HnegTrans fuel n2 item typ out n'
        ha2 hb2 ho2 hpw2 hgcr).1

theorem arity_preservation_witness :
    arity (node.mk [2] ([] : List (node Nat))) = true :=
  (arity_preservation (fun a b : Nat => decide (a < b)) 1 3 3
      (fun a b c hab hbc => by simp at hab hbc ⊢; omega)
      (fun a b c hab hbc => by simp at hab hbc ⊢; omega)).2.2.2.1
    (node.mk [1, 2] []) (node.mk [2] []) (some 1) .removeItem (some 1)
    ((arity_mk_iff _ _).mpr ⟨Or.inl rfl, by simp⟩)
    ((balanced_mk_iff _ _).mpr ⟨by simp, by simp⟩)
    ((occ_mk_iff _ _ _).mpr (by simp))
    (by rw [flatten_mk, flattenAux_nil]; decide)
    rfl

/-! ## C2: the grow adjustment leaves a fat child at the retried index -/

/-- `find` lands exactly at a known insertion point: everything strictly
before `i` is less than the probe and everything from `i` on is greater. -/
theorem find_at_insertion_point {α : Type} (lt : α → α → Bool) (x : α)
    (s : List α) (i : Nat)
    (Hasym : ∀ a b, lt a b = true → lt b a = false)
    (hi : i ≤ s.length)
    (hlo : ∀ k z, k < i → s.get? k = some z → lt z x = true)
    (hhi : ∀ k z, i ≤ k → s.get? k = some z → lt x z = true) :
    items.find lt s x = (i, false) := by
  have hloop : findLoop lt x s s.length 0 s.length = i :=
    findLoop_exact lt x s i s.length 0 s.length (by omega) hi (le_refl _) (by omega)
      (fun k z hk hz => Hasym z x (hlo k z hk hz)) hhi
  simp only [items.find, hloop]
  by_cases h0 : 0 < i
  · rw [if_pos h0]
    cases hgz : s.get? (i-1) with
    | none => rfl
    | some z =>
      have hzx : lt z x = true := hlo (i-1) z (by omega) hgz
      simp only [hgz, hzx, Bool.not_true, Bool.false_eq_true, if_false]
  · rw [if_neg h0]

/-- `find` lands exactly at a known equivalent element when everything
strictly before it is less than the probe. -/
theorem find_at_equiv {α : Type} (lt : α → α → Bool) (x : α) (s : List α)
    (i : Nat) (y : α)
    (HnegTrans : ∀ a b c, lt a b = false → lt b c = false → lt a c = false)
    (Hasym : ∀ a b, lt a b = true → lt b a = false)
    (hpw : List.Pairwise (fun a b => lt a b = true) s)
    (hy : s.get? i = some y) (hyx : lt y x = false) (hxy : lt x y = false)
    (hlo : ∀ k z, k < i → s.get? k = some z → lt z x = true) :
    items.find lt s x = (i, true) := by
  have hil : i < s.length := by
    rw [List.get?_eq_some] at hy
    exact hy.1
  have hloop : findLoop lt x s s.length 0 s.length = i + 1 := by
    refine findLoop_exact lt x s (i+1) s.length 0 s.length (by omega) (by omega)
      (le_refl _) (by omega) ?_ ?_
    · intro k z hk hz
      by_cases hki : k < i
      · exact Hasym z x (hlo k z hki hz)
      · have hki2 : k = i := by omega
        subst hki2
        rw [hz] at hy
        injection hy with hy2
        rw [← hy2] at hxy
        exact hxy
    · intro k z hk hz
      have hyz : lt y z = true := pairwise_get?_lt hpw (by omega : i < k) hy hz
      cases hxz : lt x z with
      | true => rfl
      | false =>
        have := HnegTrans y x z hyx hxz
        rw [this] at hyz
        exact Bool.noConfusion hyz
  simp only [items.find, hloop, Nat.add_sub_cancel]
  rw [if_pos (by omega : 0 < i + 1)]
  simp only [hy, hyx, Bool.not_false, if_true]

theorem listPop_of_ne_nil {β : Type} {l : List β} (h : l ≠ []) :
    ∃ a l', listPop l = some (a, l') := by
  cases hlp : listPop l with
  | none => exact absurd (listPop_none hlp) h
  | some p =>
    obtain ⟨a, l'⟩ := p
    exact ⟨a, l', rfl⟩

theorem listRemoveAt_of_lt {β : Type} {l : List β} {i : Nat} (h : i < l.length) :
    ∃ a l', listRemoveAt l i = some (a, l') := by
  cases hg : l.get? i with
  | none =>
    rw [List.get?_eq_none] at hg
    omega
  | some a => exact ⟨a, l.take i ++ l.drop (i+1), by simp only [listRemoveAt, hg]⟩

theorem get?_removeAt_lt {β : Type} {l : List β} {i k : Nat}
    (hk : k < i) (hi : i ≤ l.length) :
    (l.take i ++ l.drop (i+1)).get? k = l.get? k := by
  have h1 : k < (l.take i).length := by
    rw [List.length_take]
    omega
  rw [List.get?_append h1, List.get?_take hk]

theorem get?_removeAt_ge {β : Type} {l : List β} {i k : Nat}
    (hik : i ≤ k) (hi : i ≤ l.length) :
    (l.take i ++ l.drop (i+1)).get? k = l.get? (k+1) := by
  have h1 : (l.take i).length = i := by
    rw [List.length_take]
    omega
  have h2 : (l.take i).length ≤ k := by omega
  rw [List.get?_append_right h2, List.get?_drop, h1]
  congr 1
  omega

/-- The retry target: after the adjustment, re-running the index selection on
the adjusted node picks a child with strictly more than `m` items. -/
def retryOK {α : Type} (lt : α → α → Bool) (m : Nat) (item : Option α)
    (typ : toRemove) (n2 : node α) : Prop :=
  ∃ i2 found2 child2,
    selectIndex lt (node.items n2) item typ = some (i2, found2) ∧
    (node.children n2).get? i2 = some child2 ∧
    m < (node.items child2).length

/-- The branch dispatch of `growAdjust`: it runs the left steal under the
left guard, otherwise the right steal under the right guard, otherwise the
merge. -/
theorem growAdjust_trichotomy {α : Type} {n : node α} {i m : Nat}
    {child : node α} (hgc : (node.children n).get? i = some child) :
    (growAdjust n i m = stealLeftAdj n i ∧ 0 < i ∧
      ∃ sib, (node.children n).get? (i-1) = some sib ∧
        m < (node.items sib).length) ∨
    (growAdjust n i m = stealRightAdj n i ∧ i < (node.items n).length ∧
      ∃ sib, (node.children n).get? (i+1) = some sib ∧
        m < (node.items sib).length) ∨
    growAdjust n i m = mergeAdj n i := by
  simp only [growAdjust, hgc]
  split
  case isTrue hL =>
    rw [Bool.and_eq_true] at hL
    obtain ⟨hL1, hL2⟩ := hL
    refine Or.inl ⟨rfl, of_decide_eq_true hL1, ?_⟩
    cases hgl : (node.children n).get? (i-1) with
    | none => rw [hgl] at hL2; cases hL2
    | some sib =>
      rw [hgl] at hL2
      exact ⟨sib, rfl, of_decide_eq_true hL2⟩
  case isFalse hL =>
    split
    case isTrue hR =>
      rw [Bool.and_eq_true] at hR
      obtain ⟨hR1, hR2⟩ := hR
      refine Or.inr (Or.inl ⟨rfl, of_decide_eq_true hR1, ?_⟩)
      cases hgr : (node.children n).get? (i+1) with
      | none => rw [hgr] at hR2; cases hR2
      | some sib =>
        rw [hgr] at hR2
        exact ⟨sib, rfl, of_decide_eq_true hR2⟩
    case isFalse hR => exact Or.inr (Or.inr rfl)

theorem mem_flatten_of_mem_items {α : Type} {n : node α} {y : α}
    (hy : y ∈ node.items n) : y ∈ flatten n := by
  rcases n with ⟨its, chs⟩
  rw [flatten_mk]
  exact mem_flattenAux_of_mem_items (by simpa [node.items] using hy)

/-- After a left steal, the retried index selection picks the enlarged child,
which now has more than `m` items. -/
theorem retry_stealLeft {α : Type} {lt : α → α → Bool} {m : Nat}
    {its : List α} {chs : List (node α)} {item : Option α} {typ : toRemove}
    {i : Nat} {found : Bool} {child sib : node α}
    (Htrans : ∀ a b c, lt a b = true → lt b c = true → lt a c = true)
    (HnegTrans : ∀ a b c, lt a b = false → lt b c = false → lt a c = false)
    (Hasym : ∀ a b, lt a b = true → lt b a = false)
    (ha : arity (node.mk its chs) = true) (hb : balanced (node.mk its chs) = true)
    (hocc : occ m (node.mk its chs) = true)
    (hpw : List.Pairwise (fun a b => lt a b = true) (flatten (node.mk its chs)))
    (hsel : selectIndex lt its item typ = some (i, found))
    (hgc : chs.get? i = some child)
    (hi0 : 0 < i)
    (hgl : chs.get? (i-1) = some sib)
    (hfatL : m < (node.items sib).length) :
    ∃ n2, stealLeftAdj (node.mk its chs) i = some n2 ∧ retryOK lt m item typ n2 := by
  have hlen : chs.length = its.length + 1 := by
    rcases (arity_mk_iff its chs).mp ha with ⟨h1 | h1, _⟩
    · rw [h1] at hgc; simp at hgc
    · exact h1
  have hil : i < chs.length := by
    have h := hgc
    rw [List.get?_eq_some] at h
    exact h.1
  have him1 : i - 1 < its.length := by omega
  obtain ⟨sep, hsep⟩ : ∃ sep, its.get? (i-1) = some sep := by
    cases hg : its.get? (i-1) with
    | none => rw [List.get?_eq_none] at hg; omega
    | some s => exact ⟨s, rfl⟩
  obtain ⟨_, hall, _⟩ := node_unbuild ha hb hocc (List.get?_mem hgc)
  have hchildocc : m ≤ (node.items child).length :=
    (hall child (List.get?_mem hgc)).2.2.2.1
  rcases child with ⟨cIts, cChs⟩
  rcases sib with ⟨sIts, sChs⟩
  simp only [node.items] at hfatL hchildocc
  have hsibne : sIts ≠ [] := by
    intro hcon
    rw [hcon] at hfatL
    simp at hfatL
  obtain ⟨stolen, sfIts, hpop⟩ := listPop_of_ne_nil hsibne
  obtain ⟨hsplitsib, _, _, _⟩ := listPop_eq hpop
  have hstolenmem : stolen ∈ flatten (node.mk sIts sChs) := by
    rw [flatten_mk]
    exact mem_flattenAux_of_mem_items (by rw [hsplitsib]; simp)
  have hpwF : List.Pairwise (fun a b => lt a b = true) (flattenAux its chs) := by
    have h := hpw
    rw [flatten_mk] at h
    exact h
  have hstolen_lt_sep : lt stolen sep = true :=
    child_lt_sep hlen hpwF hgl hsep hstolenmem
  obtain ⟨sib2, child2, hadj, hc2items⟩ :
      ∃ sib2 child2, stealLeftAdj (node.mk its chs) i =
        some (node.mk (its.set (i-1) stolen) ((chs.set (i-1) sib2).set i child2)) ∧
        node.items child2 = sep :: cIts := by
    simp only [stealLeftAdj, node.children, node.items, hgc, hgl, hsep, hpop]
    cases hpc : listPop sChs with
    | some p =>
      obtain ⟨lastC, sfChs⟩ := p
      refine ⟨node.mk sfIts sfChs, _, rfl, ?_⟩
      simp only [node.items]
      rw [listInsertAt_zero]
    | none =>
      refine ⟨node.mk sfIts sChs, _, rfl, ?_⟩
      simp only [node.items]
      rw [listInsertAt_zero]
  refine ⟨_, hadj, ?_⟩
  have hc2len : m < (node.items child2).length := by
    rw [hc2items]
    simp only [List.length_cons]
    omega
  have hgetc2 : ((chs.set (i-1) sib2).set i child2).get? i = some child2 :=
    get?_set_self _ i child2 (by rw [List.length_set]; omega)
  unfold retryOK
  simp only [node.items, node.children]
  cases typ with
  | removeMax =>
    simp only [selectIndex] at hsel
    injection hsel with hp
    injection hp with hpa hpb
    refine ⟨i, false, child2, ?_, hgetc2, hc2len⟩
    simp only [selectIndex, List.length_set]
    rw [hpa]
  | removeMin =>
    simp only [selectIndex] at hsel
    injection hsel with hp
    injection hp with hpa hpb
    omega
  | removeItem =>
    cases item with
    | none => simp only [selectIndex] at hsel; cases hsel
    | some x =>
      simp only [selectIndex] at hsel
      injection hsel with hp
      have hpw_its : List.Pairwise (fun a b => lt a b = true) its :=
        items_pairwise_of_flatten hpwF
      have FS := find_spec lt its x Htrans HnegTrans hpw_its
      cases found with
      | true =>
        obtain ⟨y, hy, heqv, hlows⟩ := FS.1 i hp
        have hsepx : lt sep x = true := hlows (i-1) sep (by omega) hsep
        have hy2 : (its.set (i-1) stolen).get? i = some y := by
          rw [get?_set_other its (i-1) i stolen (by omega)]
          exact hy
        have hprops := stealLeftAdj_props ha hb hocc hi0
          (fun s' hs' => by
            rw [hgl] at hs'
            injection hs' with h
            rw [← h]
            exact hfatL) hadj
        have hpw2 : List.Pairwise (fun a b => lt a b = true)
            (its.set (i-1) stolen) := by
          have h5 := hprops.2.2.2.2
          have h6 : List.Pairwise (fun a b => lt a b = true)
              (flatten (node.mk (its.set (i-1) stolen)
                ((chs.set (i-1) sib2).set i child2))) := by
            rw [h5]
            exact hpw
          rw [flatten_mk] at h6
          exact items_pairwise_of_flatten h6
        have hlo2 : ∀ k z, k < i → (its.set (i-1) stolen).get? k = some z →
            lt z x = true := by
          intro k z hk hz
          by_cases hk1 : k = i - 1
          · subst hk1
            rw [get?_set_self its (i-1) stolen him1] at hz
            injection hz with hz2
            rw [← hz2]
            exact Htrans stolen sep x hstolen_lt_sep hsepx
          · rw [get?_set_other its (i-1) k stolen (by omega)] at hz
            exact hlows k z hk hz
        refine ⟨i, true, child2, ?_, hgetc2, hc2len⟩
        simp only [selectIndex]
        rw [find_at_equiv lt x (its.set (i-1) stolen) i y HnegTrans Hasym hpw2
          hy2 heqv.1 heqv.2 hlo2]
      | false =>
        obtain ⟨hi_le, _, hlows, hhighs⟩ := FS.2.1 i hp
        have hsepx : lt sep x = true := hlows (i-1) sep (by omega) hsep
        have hlo2 : ∀ k z, k < i → (its.set (i-1) stolen).get? k = some z →
            lt z x = true := by
          intro k z hk hz
          by_cases hk1 : k = i - 1
          · subst hk1
            rw [get?_set_self its (i-1) stolen him1] at hz
            injection hz with hz2
            rw [← hz2]
            exact Htrans stolen sep x hstolen_lt_sep hsepx
          · rw [get?_set_other its (i-1) k stolen (by omega)] at hz
            exact hlows k z hk hz
        have hhi2 : ∀ k z, i ≤ k → (its.set (i-1) stolen).get? k = some z →
            lt x z = true := by
          intro k z hk hz
          rw [get?_set_other its (i-1) k stolen (by omega)] at hz
          exact hhighs k z hk hz
        refine ⟨i, false, child2, ?_, hgetc2, hc2len⟩
        simp only [selectIndex]
        rw [find_at_insertion_point lt x (its.set (i-1) stolen) i Hasym
          (by rw [List.length_set]; exact hi_le) hlo2 hhi2]

/-- After a right steal, the retried index selection picks the enlarged child,
which now has more than `m` items. -/
theorem retry_stealRight {α : Type} {lt : α → α → Bool} {m : Nat}
    {its : List α} {chs : List (node α)} {item : Option α} {typ : toRemove}
    {i : Nat} {found : Bool} {child sib : node α}
    (Htrans : ∀ a b c, lt a b = true → lt b c = true → lt a c = true)
    (HnegTrans : ∀ a b c, lt a b = false → lt b c = false → lt a c = false)
    (Hasym : ∀ a b, lt a b = true → lt b a = false)
    (ha : arity (node.mk its chs) = true) (hb : balanced (node.mk its chs) = true)
    (hocc : occ m (node.mk its chs) = true)
    (hpw : List.Pairwise (fun a b => lt a b = true) (flatten (node.mk its chs)))
    (hsel : selectIndex lt its item typ = some (i, found))
    (hgc : chs.get? i = some child)
    (hiI : i < its.length)
    (hgr : chs.get? (i+1) = some sib)
    (hfatR : m < (node.items sib).length) :
    ∃ n2, stealRightAdj (node.mk its chs) i = some n2 ∧ retryOK lt m item typ n2 := by
  have hlen : chs.length = its.length + 1 := by
    rcases (arity_mk_iff its chs).mp ha with ⟨h1 | h1, _⟩
    · rw [h1] at hgc; simp at hgc
    · exact h1
  obtain ⟨sep, hsep⟩ : ∃ sep, its.get? i = some sep := by
    cases hg : its.get? i with
    | none => rw [List.get?_eq_none] at hg; omega
    | some s => exact ⟨s, rfl⟩
  obtain ⟨_, hall, _⟩ := node_unbuild ha hb hocc (List.get?_mem hgc)
  have hchildocc : m ≤ (node.items child).length :=
    (hall child (List.get?_mem hgc)).2.2.2.1
  rcases child with ⟨cIts, cChs⟩
  rcases sib with ⟨sIts, sChs⟩
  simp only [node.items] at hfatR hchildocc
  have hsibne : 0 < sIts.length := by omega
  obtain ⟨stolen, sfIts, hrm0⟩ := listRemoveAt_of_lt hsibne
  have hsplitsib : sIts = stolen :: sfIts := listRemoveAt_zero_eq hrm0
  have hstolenmem : stolen ∈ flatten (node.mk sIts sChs) := by
    rw [flatten_mk]
    exact mem_flattenAux_of_mem_items (by rw [hsplitsib]; simp)
  have hpwF : List.Pairwise (fun a b => lt a b = true) (flattenAux its chs) := by
    have h := hpw
    rw [flatten_mk] at h
    exact h
  have hsep_lt_stolen : lt sep stolen = true :=
    sep_lt_child hlen hpwF hsep hgr hstolenmem
  obtain ⟨sib2, child2, hadj, hc2items⟩ :
      ∃ sib2 child2, stealRightAdj (node.mk its chs) i =
        some (node.mk (its.set i stolen) ((chs.set (i+1) sib2).set i child2)) ∧
        node.items child2 = cIts ++ [sep] := by
    simp only [stealRightAdj, node.children, node.items, hgc, hgr, hsep, hrm0]
    cases hpc : listRemoveAt sChs 0 with
    | some p =>
      obtain ⟨firstC, sfChs⟩ := p
      exact ⟨node.mk sfIts sfChs, _, rfl, rfl⟩
    | none =>
      exact ⟨node.mk sfIts sChs, _, rfl, rfl⟩
  refine ⟨_, hadj, ?_⟩
  have hc2len : m < (node.items child2).length := by
    rw [hc2items]
    simp only [List.length_append, List.length_cons, List.length_nil]
    omega
  have hil : i < chs.length := by omega
  have hgetc2 : ((chs.set (i+1) sib2).set i child2).get? i = some child2 :=
    get?_set_self _ i child2 (by rw [List.length_set]; omega)
  unfold retryOK
  simp only [node.items, node.children]
  cases typ with
  | removeMax =>
    simp only [selectIndex] at hsel
    injection hsel with hp
    injection hp with hpa hpb
    omega
  | removeMin =>
    simp only [selectIndex] at hsel
    injection hsel with hp
    injection hp with hpa hpb
    refine ⟨i, false, child2, ?_, hgetc2, hc2len⟩
    simp only [selectIndex]
    rw [← hpa]
  | removeItem =>
    cases item with
    | none => simp only [selectIndex] at hsel; cases hsel
    | some x =>
      simp only [selectIndex] at hsel
      injection hsel with hp
      have hpw_its : List.Pairwise (fun a b => lt a b = true) its :=
        items_pairwise_of_flatten hpwF
      have FS := find_spec lt its x Htrans HnegTrans hpw_its
      cases found with
      | true =>
        obtain ⟨y, hy, heqv, hlows⟩ := FS.1 i hp
        have hysep : y = sep := by
          rw [hsep] at hy
          injection hy with h
          exact h.symm
        subst hysep
        have hlo2 : ∀ k z, k < i → (its.set i stolen).get? k = some z →
            lt z x = true := by
          intro k z hk hz
          rw [get?_set_other its i k stolen (by omega)] at hz
          exact hlows k z hk hz
        have hhi2 : ∀ k z, i ≤ k → (its.set i stolen).get? k = some z →
            lt x z = true := by
          intro k z hk hz
          by_cases hki : k = i
          · subst hki
            rw [get?_set_self its k stolen hiI] at hz
            injection hz with hz2
            rw [← hz2]
            cases hxz : lt x stolen with
            | true => rfl
            | false =>
              have h7 := HnegTrans y x stolen heqv.1 hxz
              rw [hsep_lt_stolen] at h7
              exact Bool.noConfusion h7
          · rw [get?_set_other its i k stolen (by omega)] at hz
            have hyz : lt y z = true :=
              pairwise_get?_lt hpw_its (by omega : i < k) hsep hz
            cases hxz : lt x z with
            | true => rfl
            | false =>
              have := HnegTrans y x z heqv.1 hxz
              rw [this] at hyz
              exact Bool.noConfusion hyz
        refine ⟨i, false, child2, ?_, hgetc2, hc2len⟩
        simp only [selectIndex]
        rw [find_at_insertion_point lt x (its.set i stolen) i Hasym
          (by rw [List.length_set]; omega) hlo2 hhi2]
      | false =>
        obtain ⟨hi_le, _, hlows, hhighs⟩ := FS.2.1 i hp
        have hxsep : lt x sep = true := hhighs i sep (le_refl i) hsep
        have hlo2 : ∀ k z, k < i → (its.set i stolen).get? k = some z →
            lt z x = true := by
          intro k z hk hz
          rw [get?_set_other its i k stolen (by omega)] at hz
          exact hlows k z hk hz
        have hhi2 : ∀ k z, i ≤ k → (its.set i stolen).get? k = some z →
            lt x z = true := by
          intro k z hk hz
          by_cases hki : k = i
          · subst hki
            rw [get?_set_self its k stolen hiI] at hz
            injection hz with hz2
            rw [← hz2]
            exact Htrans x sep stolen hxsep hsep_lt_stolen
          · rw [get?_set_other its i k stolen (by omega)] at hz
            exact hhighs k z (by omega) hz
        refine ⟨i, false, child2, ?_, hgetc2, hc2len⟩
        simp only [selectIndex]
        rw [find_at_insertion_point lt x (its.set i stolen) i Hasym
          (by rw [List.length_set]; omega) hlo2 hhi2]

/-- After the merge adjustment, the retried index selection picks the merged
child, which has more than `m` items (both merged halves had at least `m`). -/
theorem retry_merge {α : Type} {lt : α → α → Bool} {m : Nat}
    {its : List α} {chs : List (node α)} {item : Option α} {typ : toRemove}
    {i : Nat} {found : Bool} {child : node α}
    (Htrans : ∀ a b c, lt a b = true → lt b c = true → lt a c = true)
    (HnegTrans : ∀ a b c, lt a b = false → lt b c = false → lt a c = false)
    (Hasym : ∀ a b, lt a b = true → lt b a = false)
    (ha : arity (node.mk its chs) = true) (hb : balanced (node.mk its chs) = true)
    (hocc : occ m (node.mk its chs) = true)
    (hpw : List.Pairwise (fun a b => lt a b = true) (flatten (node.mk its chs)))
    (hits : 1 ≤ its.length)
    (hsel : selectIndex lt its item typ = some (i, found))
    (hgc : chs.get? i = some child) :
    ∃ n2, mergeAdj (node.mk its chs) i = some n2 ∧ retryOK lt m item typ n2 := by
  have hlen : chs.length = its.length + 1 := by
    rcases (arity_mk_iff its chs).mp ha with ⟨h1 | h1, _⟩
    · rw [h1] at hgc; simp at hgc
    · exact h1
  have hil : i < chs.length := by
    have h := hgc
    rw [List.get?_eq_some] at h
    exact h.1
  obtain ⟨i2, hi2eq, hi2lt, hi2case⟩ :
      ∃ i2, (if its.length ≤ i then (if i = 0 then none else some (i-1))
          else some i) = some i2 ∧ i2 < its.length ∧
        ((its.length ≤ i ∧ i2 = i - 1 ∧ i = its.length) ∨
          (¬ its.length ≤ i ∧ i2 = i)) := by
    by_cases hle : its.length ≤ i
    · have hi0 : i ≠ 0 := by omega
      have hii : i = its.length := by omega
      exact ⟨i - 1, by rw [if_pos hle, if_neg hi0], by omega,
        Or.inl ⟨hle, rfl, hii⟩⟩
    · exact ⟨i, by rw [if_neg hle], by omega, Or.inr ⟨hle, rfl⟩⟩
  obtain ⟨c2, hgc2⟩ : ∃ c2, chs.get? i2 = some c2 := by
    cases hg : chs.get? i2 with
    | none => rw [List.get?_eq_none] at hg; omega
    | some c => exact ⟨c, rfl⟩
  obtain ⟨sep2, its', hremI⟩ := listRemoveAt_of_lt hi2lt
  obtain ⟨mc, chs', hremC⟩ := listRemoveAt_of_lt (show i2 + 1 < chs.length by omega)
  obtain ⟨_, hits'eq, _, hitsLen⟩ := listRemoveAt_eq hremI
  obtain ⟨hgmc, hchs'eq, _, hchsLen⟩ := listRemoveAt_eq hremC
  obtain ⟨_, hall, _⟩ := node_unbuild ha hb hocc (List.get?_mem hgc)
  have hc2occ : m ≤ (node.items c2).length :=
    (hall c2 (List.get?_mem hgc2)).2.2.2.1
  rcases c2 with ⟨c2Its, c2Chs⟩
  rcases mc with ⟨mcIts, mcChs⟩
  simp only [node.items] at hc2occ
  have hadj : mergeAdj (node.mk its chs) i =
      some (node.mk its' (chs'.set i2
        (node.mk (c2Its ++ sep2 :: mcIts) (c2Chs ++ mcChs)))) := by
    simp only [mergeAdj, node.children, node.items, hi2eq, hgc2, hremI, hremC]
  refine ⟨_, hadj, ?_⟩
  have hc2len : m < ((c2Its ++ sep2 :: mcIts)).length := by
    simp only [List.length_append, List.length_cons]
    omega
  have hlen' : its'.length = its.length - 1 := by omega
  have hgetc2 : (chs'.set i2 (node.mk (c2Its ++ sep2 :: mcIts)
      (c2Chs ++ mcChs))).get? i2 =
      some (node.mk (c2Its ++ sep2 :: mcIts) (c2Chs ++ mcChs)) :=
    get?_set_self _ i2 _ (by omega)
  unfold retryOK
  simp only [node.items, node.children]
  cases typ with
  | removeMax =>
    simp only [selectIndex] at hsel
    injection hsel with hp
    injection hp with hpa hpb
    rcases hi2case with ⟨hle, hi2e, hii⟩ | ⟨hle, hi2e⟩
    · refine ⟨i2, false, _, ?_, hgetc2, hc2len⟩
      simp only [selectIndex]
      rw [show its'.length = i2 from by omega]
    · omega
  | removeMin =>
    simp only [selectIndex] at hsel
    injection hsel with hp
    injection hp with hpa hpb
    rcases hi2case with ⟨hle, hi2e, hii⟩ | ⟨hle, hi2e⟩
    · omega
    · have hi2z : i2 = 0 := by omega
      subst hi2z
      exact ⟨0, false, _, rfl, hgetc2, hc2len⟩
  | removeItem =>
    cases item with
    | none => simp only [selectIndex] at hsel; cases hsel
    | some x =>
      simp only [selectIndex] at hsel
      injection hsel with hp
      have hpw_its : List.Pairwise (fun a b => lt a b = true) its := by
        have h := hpw
        rw [flatten_mk] at h
        exact items_pairwise_of_flatten h
      have FS := find_spec lt its x Htrans HnegTrans hpw_its
      cases found with
      | true =>
        obtain ⟨y, hy, heqv, hlows⟩ := FS.1 i hp
        have hiI : i < its.length := by
          have h := hy
          rw [List.get?_eq_some] at h
          exact h.1
        rcases hi2case with ⟨hle, _, _⟩ | ⟨hle, hi2e⟩
        · omega
        · subst hi2e
          have hlo2 : ∀ k z, k < i2 → its'.get? k = some z → lt z x = true := by
            intro k z hk hz
            rw [hits'eq, get?_removeAt_lt hk (by omega)] at hz
            exact hlows k z hk hz
          have hhi2 : ∀ k z, i2 ≤ k → its'.get? k = some z → lt x z = true := by
            intro k z hk hz
            rw [hits'eq, get?_removeAt_ge hk (by omega)] at hz
            have hyz : lt y z = true :=
              pairwise_get?_lt hpw_its (by omega : i2 < k + 1) hy hz
            cases hxz : lt x z with
            | true => rfl
            | false =>
              have h7 := HnegTrans y x z heqv.1 hxz
              rw [h7] at hyz
              exact Bool.noConfusion hyz
          refine ⟨i2, false, _, ?_, hgetc2, hc2len⟩
          simp only [selectIndex]
          rw [find_at_insertion_point lt x its' i2 Hasym (by omega) hlo2 hhi2]
      | false =>
        obtain ⟨hi_le, _, hlows, hhighs⟩ := FS.2.1 i hp
        rcases hi2case with ⟨hle, hi2e, hii⟩ | ⟨hle, hi2e⟩
        · have hlo2 : ∀ k z, k < i2 → its'.get? k = some z → lt z x = true := by
            intro k z hk hz
            rw [hits'eq, get?_removeAt_lt hk (by omega)] at hz
            exact hlows k z (by omega) hz
          have hhi2 : ∀ k z, i2 ≤ k → its'.get? k = some z → lt x z = true := by
            intro k z hk hz
            have h8 : k < its'.length := by
              have h := hz
              rw [List.get?_eq_some] at h
              exact h.1
            omega
          refine ⟨i2, false, _, ?_, hgetc2, hc2len⟩
          simp only [selectIndex]
          rw [find_at_insertion_point lt x its' i2 Hasym (by omega) hlo2 hhi2]
        · subst hi2e
          have hlo2 : ∀ k z, k < i2 → its'.get? k = some z → lt z x = true := by
            intro k z hk hz
            rw [hits'eq, get?_removeAt_lt hk (by omega)] at hz
            exact hlows k z hk hz
          have hhi2 : ∀ k z, i2 ≤ k → its'.get? k = some z → lt x z = true := by
            intro k z hk hz
            rw [hits'eq, get?_removeAt_ge hk (by omega)] at hz
            exact hhighs (k+1) z (by omega) hz
          refine ⟨i2, false, _, ?_, hgetc2, hc2len⟩
          simp only [selectIndex]
          rw [find_at_insertion_point lt x its' i2 Hasym (by omega) hlo2 hhi2]

/-- C2: when `remove` selects child index `i` and that child has at most
`minItems` items, the steal/merge adjustment of `growChildAndRemove`
succeeds, and re-running the index selection of `remove` on the adjusted
node picks a child with strictly more than `minItems` items — so the single
retry of `remove` takes the found-predecessor or descend path and never
enters the grow branch again. -/
theorem grow_retry_never_regrows {α : Type} (lt : α → α → Bool) (m : Nat)
    (Htrans : ∀ a b c, lt a b = true → lt b c = true → lt a c = true)
    (HnegTrans : ∀ a b c, lt a b = false → lt b c = false → lt a c = false)
    (Hirr : ∀ a, lt a a = false)
    {its : List α} {chs : List (node α)} {item : Option α} {typ : toRemove}
    {i : Nat} {found : Bool} {child : node α}
    (ha : arity (node.mk its chs) = true) (hb : balanced (node.mk its chs) = true)
    (hocc : occ m (node.mk its chs) = true)
    (hpw : List.Pairwise (fun a b => lt a b = true) (flatten (node.mk its chs)))
    (hits : 1 ≤ its.length)
    (hsel : selectIndex lt its item typ = some (i, found))
    (hgc : chs.get? i = some child)
    (hthin : (node.items child).length ≤ m) :
    ∃ n2, growAdjust (node.mk its chs) i m = some n2 ∧ retryOK lt m item typ n2 := by
  have Hasym : ∀ a b, lt a b = true → lt b a = false := by
    intro a b hab
    cases h : lt b a with
    | false => rfl
    | true =>
      have h2 := Htrans a b a hab h
      rw [Hirr a] at h2
      exact Bool.noConfusion h2
  rcases growAdjust_trichotomy
      (show (node.children (node.mk its chs)).get? i = some child from hgc)
      with ⟨heq, hi0, sib, hgl, hfatL⟩ | ⟨heq, hiI, sib, hgr, hfatR⟩ | heq
  · rw [heq]
    exact retry_stealLeft Htrans HnegTrans Hasym ha hb hocc hpw hsel hgc hi0
      hgl hfatL
  · rw [heq]
    exact retry_stealRight Htrans HnegTrans Hasym ha hb hocc hpw hsel hgc hiI
      hgr hfatR
  · rw [heq]
    exact retry_merge Htrans HnegTrans Hasym ha hb hocc hpw hits hsel hgc

theorem grow_retry_never_regrows_witness :
    ∃ n2, growAdjust (node.mk [2]
        [node.mk [1] ([] : List (node Nat)), node.mk [3] []]) 0 1 = some n2 ∧
      retryOK (fun a b : Nat => decide (a < b)) 1 (some 1)
        toRemove.removeItem n2 := by
  have hall : ∀ c ∈ [node.mk [1] ([] : List (node Nat)), node.mk [3] []],
      arity c = true ∧ balanced c = true ∧ height c = 0 ∧
      1 ≤ (node.items c).length ∧ occ 1 c = true := by
    intro c hc
    rcases List.mem_cons.mp hc with h | h
    · rw [h]
      exact ⟨(arity_mk_iff _ _).mpr ⟨Or.inl rfl, by simp⟩,
        (balanced_mk_iff _ _).mpr ⟨by simp, by simp⟩,
        by rw [height_mk, heightAux_nil],
        by simp [node.items],
        (occ_mk_iff _ _ _).mpr (by simp)⟩
    · have h2 : c = node.mk [3] [] := by simpa using h
      rw [h2]
      exact ⟨(arity_mk_iff _ _).mpr ⟨Or.inl rfl, by simp⟩,
        (balanced_mk_iff _ _).mpr ⟨by simp, by simp⟩,
        by rw [height_mk, heightAux_nil],
        by simp [node.items],
        (occ_mk_iff _ _ _).mpr (by simp)⟩
  obtain ⟨ha, hb, hocc, _⟩ := @node_rebuild Nat 1 0 [2]
    [node.mk [1] [], node.mk [3] []] (by simp) (by simp) hall
  have hflat : flatten (node.mk [2]
      [node.mk [1] ([] : List (node Nat)), node.mk [3] []]) = [1, 2, 3] := by
    rw [flatten_mk, flattenAux_cons_cons, flattenAux_nil_cons, flattenAux_nil,
      flatten_mk, flattenAux_nil, flatten_mk, flattenAux_nil]
    rfl
  exact grow_retry_never_regrows (fun a b : Nat => decide (a < b)) 1
    (fun a b c hab hbc => by simp at hab hbc ⊢; omega)
    (fun a b c hab hbc => by simp at hab hbc ⊢; omega)
    (fun a => by simp)
    ha hb hocc (by rw [hflat]; decide) (by decide)
    rfl rfl (by decide)

/-! ## C3: the found path pulls the predecessor -/

/-- `removeMax` is total on invariant-satisfying nodes with at least one item
when given fuel `2·height + 1`: it always returns an item. -/
theorem removeMax_total {α : Type} (lt : α → α → Bool) (m : Nat)
    (Htrans : ∀ a b c, lt a b = true → lt b c = true → lt a c = true)
    (HnegTrans : ∀ a b c, lt a b = false → lt b c = false → lt a c = false)
    (Hirr : ∀ a, lt a a = false) (hm : 1 ≤ m) :
    ∀ fuel n, arity n = true → balanced n = true → occ m n = true →
      List.Pairwise (fun a b => lt a b = true) (flatten n) →
      1 ≤ (node.items n).length →
      2 * height n + 1 ≤ fuel →
      ∃ p n', node.remove lt m fuel n none .removeMax = .ok (some p) n' := by
  intro fuel
  induction fuel using Nat.strong_induction_on with
  | _ fuel ih =>
  intro n ha hb hocc hpw hne hfuel
  cases fuel with
  | zero => omega
  | succ f =>
  rcases n with ⟨its, chs⟩
  simp only [node.items] at hne
  cases chs with
  | nil =>
    simp only [node.remove, node.items, node.children]
    have hc : ((List.length ([] : List (node α))) == 0) = true := rfl
    rw [if_pos hc]
    obtain ⟨p, its', hpop⟩ := listPop_of_ne_nil
      (show its ≠ [] by intro hcon; rw [hcon] at hne; simp at hne)
    rw [hpop]
    exact ⟨p, _, rfl⟩
  | cons c0 cs =>
    have hlen : (c0 :: cs).length = its.length + 1 := by
      rcases (arity_mk_iff its (c0 :: cs)).mp ha with ⟨h1 | h1, _⟩
      · exact absurd h1 (by simp)
      · exact h1
    obtain ⟨child, hgc⟩ : ∃ c, (c0 :: cs).get? its.length = some c := by
      cases hg : (c0 :: cs).get? its.length with
      | none => rw [List.get?_eq_none] at hg; omega
      | some c => exact ⟨c, rfl⟩
    obtain ⟨_, hall, hH⟩ := node_unbuild ha hb hocc (List.get?_mem hgc)
    obtain ⟨hac, hbc, _, hmc, hoc⟩ := hall child (List.get?_mem hgc)
    have hpwc : List.Pairwise (fun a b => lt a b = true) (flatten child) :=
      (good_child ⟨ha, hb, hpw⟩ hgc).2.2
    have hsel : selectIndex lt its (none : Option α) .removeMax =
        some (its.length, false) := rfl
    have hH2 : 1 ≤ height (node.mk its (c0 :: cs)) := by
      rw [hH]
      omega
    rcases child with ⟨cIts, cChs⟩
    simp only [node.items] at hmc
    by_cases hthin : cIts.length ≤ m
    · -- grow, then the retry descends into the fat adjusted child
      obtain ⟨n2, hga, hretry⟩ := grow_retry_never_regrows lt m Htrans HnegTrans
        Hirr ha hb hocc hpw (by omega) hsel hgc (by simp [node.items]; omega)
      obtain ⟨ha2, hb2, ho2, hh2, hf2⟩ := growAdjust_props ha hb hocc hga
      have hpw2 : List.Pairwise (fun a b => lt a b = true) (flatten n2) := by
        rw [hf2]; exact hpw
      obtain ⟨i2, found2, child2, hsel2, hgc2, hfat2⟩ := hretry
      rcases n2 with ⟨its2, chs2⟩
      simp only [node.items, node.children] at hsel2 hgc2
      have hi2 : i2 = its2.length ∧ found2 = false := by
        have h := hsel2
        simp only [selectIndex] at h
        injection h with h2
        injection h2 with h3 h4
        exact ⟨h3.symm, h4.symm⟩
      obtain ⟨hi2e, hf2e⟩ := hi2
      subst hi2e
      subst hf2e
      obtain ⟨_, hall2, hH3⟩ := node_unbuild ha2 hb2 ho2 (List.get?_mem hgc2)
      obtain ⟨hac2, hbc2, _, hmc2, hoc2⟩ := hall2 child2 (List.get?_mem hgc2)
      have hpwc2 : List.Pairwise (fun a b => lt a b = true) (flatten child2) :=
        (good_child ⟨ha2, hb2, hpw2⟩ hgc2).2.2
      cases f with
      | zero =>
        rw [height_mk] at hH2
        omega
      | succ f2 =>
      obtain ⟨p, child2', hrec⟩ := ih f2 (by omega) child2 hac2 hbc2 hoc2 hpwc2
        (by simp only [node.items] at hfat2 ⊢; omega)
        (by
          have hhc2 : height child2 + 1 = height (node.mk its2 chs2) := hH3.symm
          rw [hh2] at hhc2
          omega)
      refine ⟨p, node.mk its2 (chs2.set its2.length child2'), ?_⟩
      have hstep1 : node.remove lt m (f2+1+1) (node.mk its (c0 :: cs)) none
          .removeMax = node.remove lt m (f2+1) (node.mk its2 chs2) none
          .removeMax := by
        simp only [node.remove, node.items, node.children]
        have hc : ((List.length (c0 :: cs)) == 0) = false := rfl
        rw [if_neg (by rw [hc]; exact Bool.false_ne_true)]
        simp only [selectIndex, hgc, node.items]
        rw [if_pos hthin]
        simp only [hga]
      have hstep2 : node.remove lt m (f2+1) (node.mk its2 chs2) none
          .removeMax = .ok (some p) (node.mk its2 (chs2.set its2.length child2')) := by
        simp only [node.remove, node.items, node.children]
        have hchs2ne : chs2 ≠ [] := by
          intro hcon
          rw [hcon] at hgc2
          simp at hgc2
        cases hchs2 : chs2 with
        | nil => exact absurd hchs2 hchs2ne
        | cons d0 ds =>
          rw [← hchs2]
          have hc : ((chs2.length) == 0) = false := by
            rw [hchs2]
            rfl
          rw [if_neg (by rw [hc]; exact Bool.false_ne_true)]
          simp only [selectIndex, hgc2]
          rcases child2 with ⟨c2Its, c2Chs⟩
          simp only [node.items] at hfat2
          rw [if_neg (by simp only [node.items]; omega)]
          rw [if_neg Bool.false_ne_true]
          simp only [hrec]
      rw [hstep1, hstep2]
    · -- the child can spare an item: descend
      obtain ⟨p, child', hrec⟩ := ih f (by omega) (node.mk cIts cChs) hac hbc hoc
        hpwc (by simp only [node.items]; omega)
        (by
          have hhc : height (node.mk cIts cChs) + 1 =
              height (node.mk its (c0 :: cs)) := hH.symm
          omega)
      refine ⟨p, node.mk its ((c0 :: cs).set its.length child'), ?_⟩
      simp only [node.remove, node.items, node.children]
      have hc : ((List.length (c0 :: cs)) == 0) = false := rfl
      rw [if_neg (by rw [hc]; exact Bool.false_ne_true)]
      simp only [selectIndex, hgc, node.items]
      rw [if_neg hthin]
      rw [if_neg Bool.false_ne_true]
      simp only [hrec]

/-- C3: when `remove(x, minItems, removeItem)` finds `x` at index `i` of an
internal node's own items and child `i` has more than `minItems` items, it
pulls the predecessor with `children[i].remove(nil, minItems, removeMax)` —
which succeeds and returns the maximum (last in-order element) of that
child's subtree — stores it at `items[i]`, and returns the item originally
stored at `items[i]`. -/
theorem remove_found_pulls_predecessor {α : Type} (lt : α → α → Bool)
    (m fuel : Nat)
    (Htrans : ∀ a b c, lt a b = true → lt b c = true → lt a c = true)
    (HnegTrans : ∀ a b c, lt a b = false → lt b c = false → lt a c = false)
    (Hirr : ∀ a, lt a a = false) (hm : 1 ≤ m)
    {its : List α} {chs : List (node α)} {x : α} {i : Nat}
    {child : node α} {out0 : α}
    (ha : arity (node.mk its chs) = true) (hb : balanced (node.mk its chs) = true)
    (hocc : occ m (node.mk its chs) = true)
    (hpw : List.Pairwise (fun a b => lt a b = true) (flatten (node.mk its chs)))
    (hfind : items.find lt its x = (i, true))
    (hgc : chs.get? i = some child)
    (hfat : m < (node.items child).length)
    (hout : its.get? i = some out0)
    (hfuel : 2 * height child + 1 ≤ fuel) :
    ∃ p child',
      node.remove lt m fuel child none .removeMax = .ok (some p) child' ∧
      flatten child = flatten child' ++ [p] ∧
      node.remove lt m (fuel+1) (node.mk its chs) (some x) .removeItem =
        .ok (some out0) (node.mk (its.set i p) (chs.set i child')) := by
  obtain ⟨_, hall, _⟩ := node_unbuild ha hb hocc (List.get?_mem hgc)
  obtain ⟨hac, hbc, _, hmc, hoc⟩ := hall child (List.get?_mem hgc)
  have hpwc : List.Pairwise (fun a b => lt a b = true) (flatten child) :=
    (good_child ⟨ha, hb, hpw⟩ hgc).2.2
  obtain ⟨p, child', hrm⟩ := removeMax_total lt m Htrans HnegTrans Hirr hm fuel
    child hac hbc hoc hpwc (by omega) hfuel
  have hprops := remove_props lt m Htrans HnegTrans fuel child none .removeMax
    (some p) child' hac hbc hoc hpwc hrm
  have hmax : flatten child = flatten child' ++ [p] :=
    (hprops.2.2.2.2 p rfl).2.1 rfl
  refine ⟨p, child', hrm, hmax, ?_⟩
  cases chs with
  | nil => simp at hgc
  | cons c0 cs =>
    rcases child with ⟨cIts, cChs⟩
    simp only [node.items] at hfat
    simp only [node.remove, node.items, node.children]
    have hc : ((List.length (c0 :: cs)) == 0) = false := rfl
    rw [if_neg (by rw [hc]; exact Bool.false_ne_true)]
    simp only [selectIndex, hfind, hgc, node.items]
    rw [if_neg (by omega : ¬ (cIts.length ≤ m))]
    rw [if_pos trivial]
    simp only [hout, hrm]

theorem remove_found_pulls_predecessor_witness :
    ∃ p child',
      node.remove (fun a b : Nat => decide (a < b)) 1 1
        (node.mk [0, 1] []) none .removeMax = .ok (some p) child' ∧
      flatten (node.mk [0, 1] ([] : List (node Nat))) = flatten child' ++ [p] ∧
      node.remove (fun a b : Nat => decide (a < b)) 1 2
        (node.mk [2] [node.mk [0, 1] [], node.mk [3, 4] []]) (some 2)
        .removeItem =
        .ok (some 2) (node.mk ([2].set 0 p)
          ([node.mk [0, 1] [], node.mk [3, 4] []].set 0 child')) := by
  have hall : ∀ c ∈ [node.mk [0, 1] ([] : List (node Nat)), node.mk [3, 4] []],
      arity c = true ∧ balanced c = true ∧ height c = 0 ∧
      1 ≤ (node.items c).length ∧ occ 1 c = true := by
    intro c hc
    rcases List.mem_cons.mp hc with h | h
    · rw [h]
      exact ⟨(arity_mk_iff _ _).mpr ⟨Or.inl rfl, by simp⟩,
        (balanced_mk_iff _ _).mpr ⟨by simp, by simp⟩,
        by rw [height_mk, heightAux_nil],
        by simp [node.items],
        (occ_mk_iff _ _ _).mpr (by simp)⟩
    · have h2 : c = node.mk [3, 4] [] := by simpa using h
      rw [h2]
      exact ⟨(arity_mk_iff _ _).mpr ⟨Or.inl rfl, by simp⟩,
        (balanced_mk_iff _ _).mpr ⟨by simp, by simp⟩,
        by rw [height_mk, heightAux_nil],
        by simp [node.items],
        (occ_mk_iff _ _ _).mpr (by simp)⟩
  obtain ⟨ha, hb, hocc, _⟩ := @node_rebuild Nat 1 0 [2]
    [node.mk [0, 1] [], node.mk [3, 4] []] (by simp) (by simp) hall
  have hflat : flatten (node.mk [2]
      [node.mk [0, 1] ([] : List (node Nat)), node.mk [3, 4] []]) =
      [0, 1, 2, 3, 4] := by
    rw [flatten_mk, flattenAux_cons_cons, flattenAux_nil_cons, flattenAux_nil,
      flatten_mk, flattenAux_nil, flatten_mk, flattenAux_nil]
    rfl
  exact remove_found_pulls_predecessor (fun a b : Nat => decide (a < b)) 1 1
    (fun a b c hab hbc => by simp at hab hbc ⊢; omega)
    (fun a b c hab hbc => by simp at hab hbc ⊢; omega)
    (fun a => by simp) (le_refl 1)
    ha hb hocc (by rw [hflat]; decide)
    rfl rfl (by simp [node.items]) rfl
    (by rw [height_mk, heightAux_nil])

/-! ## C7: deleting an absent item is a no-op -/

/-- When no element of the subtree is equivalent to `x`, `remove` with
`removeItem` is total (fuel `2·height + 1`) and returns `none` without
crashing. -/
theorem remove_absent_total {α : Type} (lt : α → α → Bool) (m : Nat)
    (Htrans : ∀ a b c, lt a b = true → lt b c = true → lt a c = true)
    (HnegTrans : ∀ a b c, lt a b = false → lt b c = false → lt a c = false)
    (Hirr : ∀ a, lt a a = false) (hm : 1 ≤ m) (x : α) :
    ∀ fuel n, arity n = true → balanced n = true → occ m n = true →
      List.Pairwise (fun a b => lt a b = true) (flatten n) →
      (∀ y ∈ flatten n, ¬ equivI lt y x) →
      1 ≤ (node.items n).length →
      2 * height n + 1 ≤ fuel →
      ∃ n', node.remove lt m fuel n (some x) .removeItem = .ok none n' := by
  intro fuel
  induction fuel using Nat.strong_induction_on with
  | _ fuel ih =>
  intro n ha hb hocc hpw habs hne hfuel
  cases fuel with
  | zero => omega
  | succ f =>
  rcases n with ⟨its, chs⟩
  simp only [node.items] at hne
  have hpw_its : List.Pairwise (fun a b => lt a b = true) its := by
    have h := hpw
    rw [flatten_mk] at h
    exact items_pairwise_of_flatten h
  have FS := find_spec lt its x Htrans HnegTrans hpw_its
  rcases hfind : items.find lt its x with ⟨i, found⟩
  have hfound : found = false := by
    cases found with
    | false => rfl
    | true =>
      obtain ⟨y, hy, heqv, _⟩ := FS.1 i hfind
      have hmem : y ∈ flatten (node.mk its chs) := by
        rw [flatten_mk]
        exact mem_flattenAux_of_mem_items (List.get?_mem hy)
      exact absurd heqv (habs y hmem)
  subst hfound
  obtain ⟨hi_le, _, _, _⟩ := FS.2.1 i hfind
  cases chs with
  | nil =>
    simp only [node.remove, node.items, node.children]
    have hc : ((List.length ([] : List (node α))) == 0) = true := rfl
    rw [if_pos hc]
    simp only [hfind]
    exact ⟨_, rfl⟩
  | cons c0 cs =>
    have hlen : (c0 :: cs).length = its.length + 1 := by
      rcases (arity_mk_iff its (c0 :: cs)).mp ha with ⟨h1 | h1, _⟩
      · exact absurd h1 (by simp)
      · exact h1
    obtain ⟨child, hgc⟩ : ∃ c, (c0 :: cs).get? i = some c := by
      cases hg : (c0 :: cs).get? i with
      | none => rw [List.get?_eq_none] at hg; omega
      | some c => exact ⟨c, rfl⟩
    obtain ⟨_, hall, hH⟩ := node_unbuild ha hb hocc (List.get?_mem hgc)
    obtain ⟨hac, hbc, _, hmc, hoc⟩ := hall child (List.get?_mem hgc)
    have hgoodc : good lt child := good_child ⟨ha, hb, hpw⟩ hgc
    have habsc : ∀ y ∈ flatten child, ¬ equivI lt y x := by
      intro y hy
      refine habs y ?_
      rw [flatten_mk]
      exact mem_flattenAux_of_mem_child its (c0 :: cs) child
        (List.get?_mem hgc) y hy
    have hsel : selectIndex lt its (some x) .removeItem = some (i, false) := by
      simp only [selectIndex, hfind]
    have hH2 : 1 ≤ height (node.mk its (c0 :: cs)) := by
      rw [hH]
      omega
    rcases child with ⟨cIts, cChs⟩
    simp only [node.items] at hmc
    by_cases hthin : cIts.length ≤ m
    · -- grow, retry descends into the fat adjusted child
      obtain ⟨n2, hga, hretry⟩ := grow_retry_never_regrows lt m Htrans HnegTrans
        Hirr ha hb hocc hpw (by omega) hsel hgc (by simp [node.items]; omega)
      obtain ⟨ha2, hb2, ho2, hh2, hf2⟩ := growAdjust_props ha hb hocc hga
      have hpw2 : List.Pairwise (fun a b => lt a b = true) (flatten n2) := by
        rw [hf2]; exact hpw
      have habs2 : ∀ y ∈ flatten n2, ¬ equivI lt y x := by
        intro y hy
        rw [hf2] at hy
        exact habs y hy
      obtain ⟨i2, found2, child2, hsel2, hgc2, hfat2⟩ := hretry
      rcases n2 with ⟨its2, chs2⟩
      simp only [node.items, node.children] at hsel2 hgc2
      have hpw_its2 : List.Pairwise (fun a b => lt a b = true) its2 := by
        have h := hpw2
        rw [flatten_mk] at h
        exact items_pairwise_of_flatten h
      have FS2 := find_spec lt its2 x Htrans HnegTrans hpw_its2
      have hfind2 : items.find lt its2 x = (i2, found2) := by
        have h := hsel2
        simp only [selectIndex, Option.some.injEq] at h
        exact h
      have hfound2 : found2 = false := by
        cases found2 with
        | false => rfl
        | true =>
          obtain ⟨y, hy, heqv, _⟩ := FS2.1 i2 hfind2
          have hmem : y ∈ flatten (node.mk its2 chs2) := by
            rw [flatten_mk]
            exact mem_flattenAux_of_mem_items (List.get?_mem hy)
          exact absurd heqv (habs2 y hmem)
      subst hfound2
      obtain ⟨_, hall2, hH3⟩ := node_unbuild ha2 hb2 ho2 (List.get?_mem hgc2)
      obtain ⟨hac2, hbc2, _, _, hoc2⟩ := hall2 child2 (List.get?_mem hgc2)
      have hpwc2 : List.Pairwise (fun a b => lt a b = true) (flatten child2) :=
        (good_child ⟨ha2, hb2, hpw2⟩ hgc2).2.2
      have habsc2 : ∀ y ∈ flatten child2, ¬ equivI lt y x := by
        intro y hy
        refine habs2 y ?_
        rw [flatten_mk]
        exact mem_flattenAux_of_mem_child its2 chs2 child2
          (List.get?_mem hgc2) y hy
      cases f with
      | zero =>
        rw [height_mk] at hH2
        omega
      | succ f2 =>
      obtain ⟨child2', hrec⟩ := ih f2 (by omega) child2 hac2 hbc2 hoc2 hpwc2
        habsc2 (by simp only [node.items] at hfat2 ⊢; omega)
        (by
          have hhc2 : height child2 + 1 = height (node.mk its2 chs2) := hH3.symm
          rw [hh2] at hhc2
          omega)
      refine ⟨node.mk its2 (chs2.set i2 child2'), ?_⟩
      have hstep1 : node.remove lt m (f2+1+1) (node.mk its (c0 :: cs)) (some x)
          .removeItem = node.remove lt m (f2+1) (node.mk its2 chs2) (some x)
          .removeItem := by
        simp only [node.remove, node.items, node.children]
        have hc : ((List.length (c0 :: cs)) == 0) = false := rfl
        rw [if_neg (by rw [hc]; exact Bool.false_ne_true)]
        simp only [selectIndex, hfind, hgc, node.items]
        rw [if_pos hthin]
        simp only [hga]
      have hstep2 : node.remove lt m (f2+1) (node.mk its2 chs2) (some x)
          .removeItem = .ok none (node.mk its2 (chs2.set i2 child2')) := by
        simp only [node.remove, node.items, node.children]
        have hchs2ne : chs2 ≠ [] := by
          intro hcon
          rw [hcon] at hgc2
          simp at hgc2
        cases hchs2 : chs2 with
        | nil => exact absurd hchs2 hchs2ne
        | cons d0 ds =>
          rw [← hchs2]
          have hc : ((chs2.length) == 0) = false := by
            rw [hchs2]
            rfl
          rw [if_neg (by rw [hc]; exact Bool.false_ne_true)]
          simp only [selectIndex, hfind2, hgc2]
          rcases child2 with ⟨c2Its, c2Chs⟩
          simp only [node.items] at hfat2
          rw [if_neg (by simp only [node.items]; omega)]
          rw [if_neg Bool.false_ne_true]
          simp only [hrec]
      rw [hstep1, hstep2]
    · -- the child can spare an item: descend
      obtain ⟨child', hrec⟩ := ih f (by omega) (node.mk cIts cChs) hac hbc hoc
        hgoodc.2.2 habsc (by simp only [node.items]; omega)
        (by
          have hhc : height (node.mk cIts cChs) + 1 =
              height (node.mk its (c0 :: cs)) := hH.symm
          omega)
      refine ⟨node.mk its ((c0 :: cs).set i child'), ?_⟩
      simp only [node.remove, node.items, node.children]
      have hc : ((List.length (c0 :: cs)) == 0) = false := rfl
      rw [if_neg (by rw [hc]; exact Bool.false_ne_true)]
      simp only [selectIndex, hfind, hgc, node.items]
      rw [if_neg hthin]
      rw [if_neg Bool.false_ne_true]
      simp only [hrec]

/-- C7: deleting an item with no equivalent element stored in the tree
returns absent (`none`) and leaves the observable tree unchanged: the
ascending item sequence and the length after the call equal those before. -/
theorem delete_absent_noop {α : Type} (lt : α → α → Bool) (fuel : Nat)
    (Htrans : ∀ a b c, lt a b = true → lt b c = true → lt a c = true)
    (HnegTrans : ∀ a b c, lt a b = false → lt b c = false → lt a c = false)
    (Hirr : ∀ a, lt a a = false)
    {t : BTree α} {x : α}
    (hm : 1 ≤ t.minItems)
    (hroot : ∀ r, t.root = some r → arity r = true ∧ balanced r = true ∧
      occ t.minItems r = true ∧ 2 * height r + 1 ≤ fuel)
    (hpw : List.Pairwise (fun a b => lt a b = true) (BTree.toList t))
    (habs : ∀ y ∈ BTree.toList t, ¬ equivI lt y x) :
    ∃ t', BTree.Delete lt fuel t x = some (none, t') ∧
      BTree.toList t' = BTree.toList t ∧ t'.length = t.length := by
  cases hr : t.root with
  | none =>
    simp only [BTree.Delete, BTree.deleteInternal, hr]
    exact ⟨t, rfl, rfl, rfl⟩
  | some r =>
    simp only [BTree.Delete, BTree.deleteInternal, hr]
    obtain ⟨ha, hb, hocc, hfuel⟩ := hroot r hr
    have htl : BTree.toList t = flatten r := by
      simp only [BTree.toList, hr]
    rw [htl] at hpw habs
    by_cases hempty : (node.items r).length = 0
    · rw [if_pos (by rw [beq_iff_eq]; exact hempty)]
      exact ⟨t, rfl, rfl, rfl⟩
    · rw [if_neg (by rw [beq_iff_eq]; exact hempty)]
      obtain ⟨r', hrem⟩ := remove_absent_total lt t.minItems Htrans HnegTrans
        Hirr hm x fuel r ha hb hocc hpw habs (by omega) hfuel
      have props := remove_props lt t.minItems Htrans HnegTrans fuel r (some x)
        .removeItem none r' ha hb hocc hpw hrem
      have hflat' : flatten r' = flatten r := (props.2.2.2.1 rfl).1
      have har' : arity r' = true := props.1
      simp only [hrem]
      refine ⟨_, rfl, ?_, rfl⟩
      rw [htl, ← hflat']
      by_cases hempty' : (node.items r').length = 0
      · rw [if_pos (by rw [beq_iff_eq]; exact hempty')]
        rcases r' with ⟨its', chs'⟩
        simp only [node.items] at hempty'
        have hits' : its' = [] := List.length_eq_zero.mp hempty'
        subst hits'
        cases hchs' : chs' with
        | nil =>
          subst hchs'
          simp only [BTree.toList, node.children, flatten_mk, flattenAux_nil]
        | cons c cs0 =>
          have hcs0 : cs0 = [] := by
            rcases (arity_mk_iff ([] : List α) chs').mp har' with ⟨h1 | h1, _⟩
            · rw [hchs'] at h1; cases h1
            · rw [hchs'] at h1
              simp at h1
              exact h1
          subst hchs'
          subst hcs0
          simp only [BTree.toList, node.children, flatten_mk, flattenAux_nil_cons,
            flattenAux_nil]
          simp
      · rw [if_neg (by rw [beq_iff_eq]; exact hempty')]
        simp only [BTree.toList]

theorem delete_absent_noop_witness :
    ∃ t', BTree.Delete (fun a b : Nat => decide (a < b)) 1
        ⟨2, ⟨[], 4⟩, some (node.mk [2, 4] []), 2⟩ 3 = some (none, t') ∧
      BTree.toList t' =
        BTree.toList (⟨2, ⟨[], 4⟩, some (node.mk [2, 4] []), 2⟩ : BTree Nat) ∧
      t'.length =
        (⟨2, ⟨[], 4⟩, some (node.mk [2, 4] []), 2⟩ : BTree Nat).length := by
  have htl : BTree.toList
      (⟨2, ⟨[], 4⟩, some (node.mk [2, 4] []), 2⟩ : BTree Nat) = [2, 4] := by
    simp only [BTree.toList]
    rw [flatten_mk, flattenAux_nil]
  refine delete_absent_noop (fun a b : Nat => decide (a < b)) 1
    (fun a b c hab hbc => by simp at hab hbc ⊢; omega)
    (fun a b c hab hbc => by simp at hab hbc ⊢; omega)
    (fun a => by simp)
    (by simp [BTree.minItems]) ?_ (by rw [htl]; decide) ?_
  · intro r hr
    have hr2 : node.mk [2, 4] ([] : List (node Nat)) = r := by
      injection hr with h
    rw [← hr2]
    refine ⟨(arity_mk_iff _ _).mpr ⟨Or.inl rfl, by simp⟩,
      (balanced_mk_iff _ _).mpr ⟨by simp, by simp⟩,
      (occ_mk_iff _ _ _).mpr (by simp), ?_⟩
    rw [height_mk, heightAux_nil]
  · intro y hy
    rw [htl] at hy
    have h2 : y = 2 ∨ y = 4 := by simpa using hy
    rcases h2 with h | h <;> subst h <;> simp [equivI]

/-! ## C6: insert of an equivalent item replaces in place -/

/-- Every element of the flattening is an item of the node or lies in some
child subtree. -/
theorem mem_flattenAux_cases {α : Type} :
    ∀ (its : List α) (chs : List (node α)) (y : α), y ∈ flattenAux its chs →
      y ∈ its ∨ ∃ j c, chs.get? j = some c ∧ y ∈ flatten c
  | its, [], y, hy => by
    rw [flattenAux_nil] at hy
    exact Or.inl hy
  | [], c0 :: cs, y, hy => by
    rw [flattenAux_nil_cons] at hy
    rcases List.mem_append.mp hy with h | h
    · exact Or.inr ⟨0, c0, rfl, h⟩
    · rcases mem_flattenAux_cases [] cs y h with h2 | ⟨j, c, hc, hyc⟩
      · exact absurd h2 (List.not_mem_nil y)
      · exact Or.inr ⟨j+1, c, hc, hyc⟩
  | i :: is2, c0 :: cs, y, hy => by
    rw [flattenAux_cons_cons] at hy
    rcases List.mem_append.mp hy with h | h
    · exact Or.inr ⟨0, c0, rfl, h⟩
    · rcases List.mem_cons.mp h with h2 | h2
      · exact Or.inl (h2 ▸ List.mem_cons_self i is2)
      · rcases mem_flattenAux_cases is2 cs y h2 with h3 | ⟨j, c, hc, hyc⟩
        · exact Or.inl (List.mem_cons_of_mem i h3)
        · exact Or.inr ⟨j+1, c, hc, hyc⟩

/-- In a strictly ascending list there is at most one element equivalent to a
given probe. -/
theorem equiv_unique {α : Type} {lt : α → α → Bool}
    (HnegTrans : ∀ a b c, lt a b = false → lt b c = false → lt a c = false)
    {l : List α} (hpw : List.Pairwise (fun a b => lt a b = true) l)
    {y1 y2 x : α} (h1 : y1 ∈ l) (h2 : y2 ∈ l)
    (e1 : equivI lt y1 x) (e2 : equivI lt y2 x) : y1 = y2 := by
  obtain ⟨⟨k1, hk1⟩, hg1⟩ := List.mem_iff_get.mp h1
  obtain ⟨⟨k2, hk2⟩, hg2⟩ := List.mem_iff_get.mp h2
  have hcmp : ∀ a b : α, a ∈ l → b ∈ l → lt a b = true → a ≠ b →
      True := fun _ _ _ _ _ _ => trivial
  rcases Nat.lt_trichotomy k1 k2 with h | h | h
  · have hlt : lt y1 y2 = true := by
      refine pairwise_get?_lt hpw h ?_ ?_
      · rw [List.get?_eq_get hk1, hg1]
      · rw [List.get?_eq_get hk2, hg2]
    have := HnegTrans y1 x y2 e1.1 e2.2
    rw [this] at hlt
    exact Bool.noConfusion hlt
  · subst h
    rw [← hg1, ← hg2]
  · have hlt : lt y2 y1 = true := by
      refine pairwise_get?_lt hpw h ?_ ?_
      · rw [List.get?_eq_get hk2, hg2]
      · rw [List.get?_eq_get hk1, hg1]
    have := HnegTrans y2 x y1 e2.1 e1.2
    rw [this] at hlt
    exact Bool.noConfusion hlt

/-- An equivalent element that is in the subtree but not among this node's
items lies in the child at the probe's insertion point. -/
theorem equiv_mem_child {α : Type} {lt : α → α → Bool}
    (Htrans : ∀ a b c, lt a b = true → lt b c = true → lt a c = true)
    {its : List α} {chs : List (node α)} (hlen : chs.length = its.length + 1)
    (hpw : List.Pairwise (fun a b => lt a b = true) (flattenAux its chs))
    {x y : α} (heq : equivI lt y x) (hy : y ∈ flattenAux its chs) {i : Nat}
    (hiI : i ≤ its.length)
    (hlo : ∀ k z, k < i → its.get? k = some z → lt z x = true)
    (hhi : ∀ k z, i ≤ k → its.get? k = some z → lt x z = true) :
    ∃ c, chs.get? i = some c ∧ y ∈ flatten c := by
  rcases mem_flattenAux_cases its chs y hy with h | ⟨j, c, hc, hyc⟩
  · obtain ⟨⟨k, hk⟩, hgk⟩ := List.mem_iff_get.mp h
    have hgk2 : its.get? k = some y := by rw [List.get?_eq_get hk, hgk]
    by_cases hki : k < i
    · have := hlo k y hki hgk2
      rw [heq.1] at this
      exact Bool.noConfusion this
    · have := hhi k y (by omega) hgk2
      rw [heq.2] at this
      exact Bool.noConfusion this
  · have hjc : j < chs.length := by
      have h := hc
      rw [List.get?_eq_some] at h
      exact h.1
    rcases Nat.lt_trichotomy j i with h | h | h
    · obtain ⟨sep, hsep⟩ : ∃ sep, its.get? j = some sep := by
        cases hg : its.get? j with
        | none => rw [List.get?_eq_none] at hg; omega
        | some s => exact ⟨s, rfl⟩
      have h1 : lt y sep = true := child_lt_sep hlen hpw hc hsep hyc
      have h2 : lt sep x = true := hlo j sep h hsep
      have h3 := Htrans y sep x h1 h2
      rw [heq.1] at h3
      exact Bool.noConfusion h3
    · subst h
      exact ⟨c, hc, hyc⟩
    · obtain ⟨sep, hsep⟩ : ∃ sep, its.get? (j-1) = some sep := by
        cases hg : its.get? (j-1) with
        | none => rw [List.get?_eq_none] at hg; omega
        | some s => exact ⟨s, rfl⟩
      have hj1 : j - 1 + 1 = j := by omega
      have h1 : lt sep y = true := by
        refine sep_lt_child hlen hpw hsep ?_ hyc
        rw [hj1]
        exact hc
      have h2 : lt x sep = true := hhi (j-1) sep (by omega) hsep
      have h3 := Htrans x sep y h2 h1
      rw [heq.2] at h3
      exact Bool.noConfusion h3

/-- Replacing an element of a strictly ascending list by an equivalent one
keeps it strictly ascending. -/
theorem pairwise_replace {α : Type} {lt : α → α → Bool}
    (HnegTrans : ∀ a b c, lt a b = false → lt b c = false → lt a c = false)
    {pre suf : List α} {x y : α} (heq : equivI lt y x)
    (hpw : List.Pairwise (fun a b => lt a b = true) (pre ++ y :: suf)) :
    List.Pairwise (fun a b => lt a b = true) (pre ++ x :: suf) := by
  rw [List.pairwise_append] at hpw ⊢
  obtain ⟨hp, hys, hcross⟩ := hpw
  rw [List.pairwise_cons] at hys ⊢
  obtain ⟨hyall, hsuf⟩ := hys
  refine ⟨hp, ⟨?_, hsuf⟩, ?_⟩
  · intro s hs
    have h1 := hyall s hs
    cases h2 : lt x s with
    | true => rfl
    | false =>
      have := HnegTrans y x s heq.1 h2
      rw [this] at h1
      exact Bool.noConfusion h1
  · intro p hp2 b hb
    rcases List.mem_cons.mp hb with h | h
    · subst h
      have h1 : lt p y = true := hcross p hp2 y (List.mem_cons_self y suf)
      cases h2 : lt p b with
      | true => rfl
      | false =>
        have := HnegTrans p b y h2 heq.2
        rw [this] at h1
        exact Bool.noConfusion h1
    · exact hcross p hp2 b (List.mem_cons_of_mem y h)

theorem get?_listInsertAt_gt {β : Type} {l : List β} {i j : Nat} (a : β)
    (hj : i < j) (hi : i ≤ l.length) :
    (listInsertAt l i a).get? j = l.get? (j-1) := by
  have hlen : (l.take i).length = i := by simp; omega
  rw [listInsertAt, List.get?_append_right (by omega), hlen]
  have hji : j - i = (j - i - 1) + 1 := by omega
  rw [hji]
  show (l.drop i).get? (j - i - 1) = l.get? (j-1)
  rw [List.get?_drop]
  congr 1
  omega

theorem list_set_eq_take_drop {β : Type} :
    ∀ (l : List β) (i : Nat) (a : β), i < l.length →
      l.set i a = l.take i ++ a :: l.drop (i+1)
  | [], i, a, h => by simp at h
  | b :: bs, 0, a, h => rfl
  | b :: bs, i+1, a, h => by
    show b :: bs.set i a = b :: (bs.take i ++ a :: bs.drop (i+1))
    rw [list_set_eq_take_drop bs i a (by simpa using h)]

/-- `maybeSplitChild` never fails when the index is in range and `maxItems`
is positive. -/
theorem msc_total {α : Type} {its : List α} {chs : List (node α)} {i maxI : Nat}
    (hmaxI : 1 ≤ maxI) (hic : i < chs.length) :
    ∃ b n1, node.maybeSplitChild (node.mk its chs) i maxI = some (b, n1) := by
  obtain ⟨child, hgc⟩ : ∃ c, chs.get? i = some c := by
    cases hg : chs.get? i with
    | none => rw [List.get?_eq_none] at hg; omega
    | some c => exact ⟨c, rfl⟩
  rcases child with ⟨cIts, cChs⟩
  simp only [node.maybeSplitChild, node.children, node.items, hgc]
  by_cases hfull : cIts.length < maxI
  · rw [if_pos hfull]
    exact ⟨false, _, rfl⟩
  · rw [if_neg hfull]
    obtain ⟨piv, hpiv⟩ : ∃ p, cIts.get? (maxI / 2) = some p := by
      cases hg : cIts.get? (maxI / 2) with
      | none =>
        rw [List.get?_eq_none] at hg
        have : maxI / 2 < maxI := by omega
        omega
      | some p => exact ⟨p, rfl⟩
    simp only [node.split, node.items, node.children, hpiv]
    exact ⟨true, _, rfl⟩

/-- When an equivalent element is stored in the subtree, `insert` replaces it
in place: it returns the stored element, and the flattening changes only at
that element's position, which now holds the new item. -/
theorem insert_replace {α : Type} (lt : α → α → Bool) (maxI : Nat)
    (Htrans : ∀ a b c, lt a b = true → lt b c = true → lt a c = true)
    (HnegTrans : ∀ a b c, lt a b = false → lt b c = false → lt a c = false)
    (hmaxI : 1 ≤ maxI) :
    ∀ (fuel : Nat) (n : node α) (x y : α),
      arity n = true → balanced n = true →
      List.Pairwise (fun a b => lt a b = true) (flatten n) →
      height n + 1 ≤ fuel →
      y ∈ flatten n → equivI lt y x →
      ∃ n' pre suf, node.insert lt maxI fuel n x = .ok (some y) n' ∧
        flatten n = pre ++ y :: suf ∧ flatten n' = pre ++ x :: suf := by
  intro fuel
  induction fuel with
  | zero =>
    intro n x y _ _ _ hfuel _ _
    omega
  | succ fuel ih =>
  intro n x y ha hb hpw hfuel hy heq
  rcases n with ⟨its, chs⟩
  have hpwF : List.Pairwise (fun a b => lt a b = true) (flattenAux its chs) := by
    have h := hpw
    rw [flatten_mk] at h
    exact h
  have hyF : y ∈ flattenAux its chs := by
    have h := hy
    rw [flatten_mk] at h
    exact h
  have hpw_its : List.Pairwise (fun a b => lt a b = true) its :=
    items_pairwise_of_flatten hpwF
  have FS := find_spec lt its x Htrans HnegTrans hpw_its
  rw [insert_eq]
  rcases hfind : items.find lt its x with ⟨i, found⟩
  cases found with
  | true =>
    obtain ⟨y0, hy0, heq0, _⟩ := FS.1 i hfind
    have hyy0 : y0 = y :=
      equiv_unique HnegTrans hpwF
        (mem_flattenAux_of_mem_items (List.get?_mem hy0)) hyF heq0 heq
    subst hyy0
    have hiI : i < its.length := by
      have h := hy0
      rw [List.get?_eq_some] at h
      exact h.1
    simp only [hfind, hy0]
    by_cases hchs : chs = []
    · subst hchs
      refine ⟨_, its.take i, its.drop (i+1), rfl, ?_, ?_⟩
      · rw [flatten_mk, flattenAux_nil]
        conv_lhs => rw [← List.take_append_drop i its]
        rw [drop_eq_cons_of_get? its i y0 hy0]
      · rw [flatten_mk, flattenAux_nil]
        exact list_set_eq_take_drop its i x hiI
    · have hlen : chs.length = its.length + 1 := by
        rcases (arity_mk_iff its chs).mp ha with ⟨h1 | h1, _⟩
        · exact absurd h1 hchs
        · exact h1
      refine ⟨_, flattenAux (its.take i) (chs.take (i+1)),
        flattenAux (its.drop (i+1)) (chs.drop (i+1)), rfl, ?_, ?_⟩
      · rw [flatten_mk]
        exact flattenAux_item_decomp i its chs hlen y0 hy0
      · rw [flatten_mk]
        exact flattenAux_item_set_decomp i its chs hlen hiI x
  | false =>
    obtain ⟨hi_le, hnone, hlows, hhighs⟩ := FS.2.1 i hfind
    simp only [hfind]
    by_cases hchs : chs = []
    · exfalso
      subst hchs
      rw [flattenAux_nil] at hyF
      exact hnone y hyF heq
    · have hlen : chs.length = its.length + 1 := by
        rcases (arity_mk_iff its chs).mp ha with ⟨h1 | h1, _⟩
        · exact absurd h1 hchs
        · exact h1
      rw [if_neg (show ¬ ((chs.length == 0) = true) from by
        rw [beq_iff_eq]; omega)]
      obtain ⟨b, n1, hmsc⟩ := @msc_total α its chs i maxI hmaxI (by omega)
      simp only [hmsc]
      obtain ⟨ha1, hb1, hh1, hf1, hfalse, htrue⟩ := msc_props ha hb hmsc
      cases b with
      | false =>
        have hn1 : n1 = node.mk its chs := hfalse rfl
        subst hn1
        rw [if_neg Bool.false_ne_true]
        obtain ⟨c, hc, hyc⟩ :=
          equiv_mem_child Htrans hlen hpwF heq hyF hi_le hlows hhighs
        have hicc : i < chs.length := by
          have h := hc
          rw [List.get?_eq_some] at h
          exact h.1
        have hac : arity c = true :=
          ((arity_mk_iff its chs).mp ha).2 c (List.get?_mem hc)
        have hbc : balanced c = true :=
          ((balanced_mk_iff its chs).mp hb).1 c (List.get?_mem hc)
        have hpwc : List.Pairwise (fun a b => lt a b = true) (flatten c) :=
          (good_child ⟨ha, hb, hpw⟩ hc).2.2
        have hhc : height c < height (node.mk its chs) :=
          height_child_lt (List.get?_mem hc)
        obtain ⟨c', preC, sufC, hrec, hcflat, hc'flat⟩ :=
          ih c x y hac hbc hpwc (by omega) hyc heq
        simp only [insertCont, node.children, node.items, hc, hrec]
        refine ⟨_, flattenAux (its.take i) (chs.take i) ++ preC,
          sufC ++ tailInter (its.drop i) (chs.drop (i+1)), rfl, ?_, ?_⟩
        · rw [flatten_mk, flattenAux_child_decomp i its chs hlen c hc, hcflat]
          simp [List.append_assoc]
        · rw [flatten_mk, flattenAux_set_decomp i its chs hlen hicc c', hc'flat]
          simp [List.append_assoc]
      | true =>
        obtain ⟨child, first, second, pivot, hchild, hfull, hsplit, hits1, hchs1⟩ :=
          htrue rfl
        rcases n1 with ⟨its1, chs1⟩
        simp only [node.items, node.children] at hits1 hchs1
        have hg1 : its1.get? i = some pivot := by
          rw [hits1]
          exact get?_listInsertAt_self pivot hi_le
        have h2 : flattenAux its1 chs1 = flattenAux its chs := by
          have h := hf1
          rw [flatten_mk, flatten_mk] at h
          exact h
        have hpwF1 : List.Pairwise (fun a b => lt a b = true)
            (flattenAux its1 chs1) := by
          rw [h2]
          exact hpwF
        have hyF1 : y ∈ flattenAux its1 chs1 := by
          rw [h2]
          exact hyF
        have hits1len : its1.length = its.length + 1 := by
          rw [hits1]
          exact listInsertAt_length pivot hi_le
        have hchs1len : chs1.length = chs.length + 1 := by
          rw [hchs1, listInsertAt_length second
            (by rw [List.length_set]; omega), List.length_set]
        have hlen1b : chs1.length = its1.length + 1 := by
          rcases (arity_mk_iff its1 chs1).mp ha1 with ⟨h1 | h1, _⟩
          · rw [h1] at hchs1len
            simp at hchs1len
          · exact h1
        have hheight1 : height (node.mk its1 chs1) = height (node.mk its chs) := hh1
        have hlo1 : ∀ k z, k < i → its1.get? k = some z → lt z x = true := by
          intro k z hk hz
          rw [hits1, get?_listInsertAt_lt pivot (by omega) hi_le] at hz
          exact hlows k z hk hz
        first
        | rw [if_pos trivial]
        | rw [if_pos (show true = true from rfl)]
        simp only [node.items, node.children, hg1]
        by_cases hxp : lt x pivot = true
        · rw [if_pos hxp]
          have hhi1 : ∀ k z, i ≤ k → its1.get? k = some z → lt x z = true := by
            intro k z hk hz
            by_cases hki : k = i
            · subst hki
              rw [hg1] at hz
              injection hz with h3
              rw [← h3]
              exact hxp
            · rw [hits1, get?_listInsertAt_gt pivot (by omega) hi_le] at hz
              exact hhighs (k-1) z (by omega) hz
          obtain ⟨c, hc, hyc⟩ :=
            equiv_mem_child Htrans hlen1b hpwF1 heq hyF1 (by omega) hlo1 hhi1
          have hicc : i < chs1.length := by
            have h := hc
            rw [List.get?_eq_some] at h
            exact h.1
          have hac : arity c = true :=
            ((arity_mk_iff its1 chs1).mp ha1).2 c (List.get?_mem hc)
          have hbc : balanced c = true :=
            ((balanced_mk_iff its1 chs1).mp hb1).1 c (List.get?_mem hc)
          have hpw1 : List.Pairwise (fun a b => lt a b = true)
              (flatten (node.mk its1 chs1)) := by
            rw [flatten_mk]
            exact hpwF1
          have hpwc : List.Pairwise (fun a b => lt a b = true) (flatten c) :=
            (good_child ⟨ha1, hb1, hpw1⟩ hc).2.2
          have hhc : height c < height (node.mk its1 chs1) :=
            height_child_lt (List.get?_mem hc)
          obtain ⟨c', preC, sufC, hrec, hcflat, hc'flat⟩ :=
            ih c x y hac hbc hpwc (by rw [hheight1] at hhc; omega) hyc heq
          simp only [insertCont, node.children, node.items, hc, hrec]
          refine ⟨_, flattenAux (its1.take i) (chs1.take i) ++ preC,
            sufC ++ tailInter (its1.drop i) (chs1.drop (i+1)), rfl, ?_, ?_⟩
          · rw [flatten_mk, ← h2,
              flattenAux_child_decomp i its1 chs1 hlen1b c hc, hcflat]
            simp [List.append_assoc]
          · rw [flatten_mk,
              flattenAux_set_decomp i its1 chs1 hlen1b hicc c', hc'flat]
            simp [List.append_assoc]
        · have hxp' : lt x pivot = false := by
            cases h : lt x pivot
            · rfl
            · exact absurd h hxp
          rw [if_neg hxp]
          by_cases hpx : lt pivot x = true
          · rw [if_pos hpx]
            have hlo1b : ∀ k z, k < i+1 → its1.get? k = some z → lt z x = true := by
              intro k z hk hz
              by_cases hki : k = i
              · subst hki
                rw [hg1] at hz
                injection hz with h3
                rw [← h3]
                exact hpx
              · rw [hits1, get?_listInsertAt_lt pivot (by omega) hi_le] at hz
                exact hlows k z (by omega) hz
            have hhi1b : ∀ k z, i+1 ≤ k → its1.get? k = some z → lt x z = true := by
              intro k z hk hz
              rw [hits1, get?_listInsertAt_gt pivot (by omega) hi_le] at hz
              exact hhighs (k-1) z (by omega) hz
            obtain ⟨c, hc, hyc⟩ :=
              equiv_mem_child Htrans hlen1b hpwF1 heq hyF1
                (by omega) hlo1b hhi1b
            have hicc : i+1 < chs1.length := by
              have h := hc
              rw [List.get?_eq_some] at h
              exact h.1
            have hac : arity c = true :=
              ((arity_mk_iff its1 chs1).mp ha1).2 c (List.get?_mem hc)
            have hbc : balanced c = true :=
              ((balanced_mk_iff its1 chs1).mp hb1).1 c (List.get?_mem hc)
            have hpw1 : List.Pairwise (fun a b => lt a b = true)
                (flatten (node.mk its1 chs1)) := by
              rw [flatten_mk]
              exact hpwF1
            have hpwc : List.Pairwise (fun a b => lt a b = true) (flatten c) :=
              (good_child ⟨ha1, hb1, hpw1⟩ hc).2.2
            have hhc : height c < height (node.mk its1 chs1) :=
              height_child_lt (List.get?_mem hc)
            obtain ⟨c', preC, sufC, hrec, hcflat, hc'flat⟩ :=
              ih c x y hac hbc hpwc (by rw [hheight1] at hhc; omega) hyc heq
            simp only [insertCont, node.children, node.items, hc, hrec]
            refine ⟨_, flattenAux (its1.take (i+1)) (chs1.take (i+1)) ++ preC,
              sufC ++ tailInter (its1.drop (i+1)) (chs1.drop (i+2)), rfl, ?_, ?_⟩
            · rw [flatten_mk, ← h2,
                flattenAux_child_decomp (i+1) its1 chs1 hlen1b c hc, hcflat]
              simp [List.append_assoc]
            · rw [flatten_mk,
                flattenAux_set_decomp (i+1) its1 chs1 hlen1b hicc c', hc'flat]
              simp [List.append_assoc]
          · have hpx' : lt pivot x = false := by
              cases h : lt pivot x
              · rfl
              · exact absurd h hpx
            rw [if_neg hpx]
            have heqp : equivI lt pivot x := ⟨hpx', hxp'⟩
            have hpy : pivot = y :=
              equiv_unique HnegTrans hpwF1
                (mem_flattenAux_of_mem_items (List.get?_mem hg1)) hyF1 heqp heq
            subst hpy
            have hiI1 : i < its1.length := by omega
            refine ⟨_, flattenAux (its1.take i) (chs1.take (i+1)),
              flattenAux (its1.drop (i+1)) (chs1.drop (i+1)), rfl, ?_, ?_⟩
            · rw [flatten_mk, ← h2]
              exact flattenAux_item_decomp i its1 chs1 hlen1b pivot hg1
            · rw [flatten_mk]
              exact flattenAux_item_set_decomp i its1 chs1 hlen1b hiI1 x

/-- Tree-level replacement: inserting an item equivalent to a stored one
returns the stored representative, rewrites the ordered sequence only at its
position, and keeps the length. -/
theorem ReplaceOrInsert_replace {α : Type} (lt : α → α → Bool) (fuel : Nat)
    (Htrans : ∀ a b c, lt a b = true → lt b c = true → lt a c = true)
    (HnegTrans : ∀ a b c, lt a b = false → lt b c = false → lt a c = false)
    {t : BTree α} {x y : α}
    (hmax : 1 ≤ t.maxItems)
    (hroot : ∀ r, t.root = some r → arity r = true ∧ balanced r = true ∧
      height r + 2 ≤ fuel)
    (hpw : List.Pairwise (fun a b => lt a b = true) (BTree.toList t))
    (hy : y ∈ BTree.toList t) (heq : equivI lt y x) :
    ∃ t' pre suf, BTree.ReplaceOrInsert lt fuel t x = some (some y, t') ∧
      BTree.toList t = pre ++ y :: suf ∧ BTree.toList t' = pre ++ x :: suf ∧
      t'.length = t.length ∧ t'.degree = t.degree ∧
      ∃ r2, t'.root = some r2 ∧ arity r2 = true ∧ balanced r2 = true ∧
        ∀ r, t.root = some r → height r2 ≤ height r + 1 := by
  cases hr : t.root with
  | none =>
    exfalso
    simp only [BTree.toList, hr] at hy
    cases hy
  | some r =>
    obtain ⟨ha, hb, hfuel⟩ := hroot r hr
    have htl : BTree.toList t = flatten r := by
      simp only [BTree.toList, hr]
    rw [htl] at hpw hy
    simp only [BTree.ReplaceOrInsert, hr]
    by_cases hfull : t.maxItems ≤ (node.items r).length
    · rw [if_pos hfull]
      obtain ⟨pivot, left, second, hsplit⟩ :
          ∃ p l s, node.split r (t.maxItems / 2) = some (p, l, s) := by
        rcases r with ⟨rIts, rChs⟩
        simp only [node.items] at hfull
        obtain ⟨p, hp⟩ : ∃ p, rIts.get? (t.maxItems / 2) = some p := by
          cases hg : rIts.get? (t.maxItems / 2) with
          | none =>
            rw [List.get?_eq_none] at hg
            have : t.maxItems / 2 < t.maxItems := by omega
            omega
          | some p => exact ⟨p, rfl⟩
        simp only [node.split, node.items, node.children, hp]
        exact ⟨p, _, _, rfl⟩
      simp only [hsplit]
      obtain ⟨hal, hbl, har2, hbr2, hhl, hhr2, hflat, _, _, _⟩ :=
        split_props ha hb hsplit
      have hallc : ∀ c ∈ [left, second], arity c = true ∧ balanced c = true ∧
          height c = height r := by
        intro c hc
        rcases List.mem_cons.mp hc with h | h
        · rw [h]; exact ⟨hal, hbl, hhl⟩
        · have h2 : c = second := by simpa using h
          rw [h2]; exact ⟨har2, hbr2, hhr2⟩
      have har1 : arity (node.mk [pivot] [left, second]) = true :=
        (arity_mk_iff _ _).mpr ⟨Or.inr (by simp),
          fun c hc => (hallc c hc).1⟩
      have hbr1 : balanced (node.mk [pivot] [left, second]) = true :=
        (balanced_mk_iff _ _).mpr ⟨fun c hc => (hallc c hc).2.1,
          fun c hc d hd => by rw [(hallc c hc).2.2, (hallc d hd).2.2]⟩
      have hfr1 : flatten (node.mk [pivot] [left, second]) = flatten r := by
        rw [flatten_mk, flattenAux_cons_cons, flattenAux_nil_cons, flattenAux_nil]
        rw [← hflat]
        simp
      have hhr1 : height (node.mk [pivot] [left, second]) = height r + 1 := by
        rw [height_mk]
        exact heightAux_eq_of_heights _ (height r) (by simp)
          (fun c hc => (hallc c hc).2.2)
      obtain ⟨r2, pre, suf, hins, hpre, hpost⟩ :=
        insert_replace lt t.maxItems Htrans HnegTrans hmax fuel
          (node.mk [pivot] [left, second]) x y har1 hbr1 (by rw [hfr1]; exact hpw)
          (by rw [hhr1]; omega) (by rw [hfr1]; exact hy) heq
      simp only [hins]
      obtain ⟨ha2, hb2, hh2⟩ := insert_aOK lt t.maxItems fuel _ x _ r2 har1 hbr1 hins
      refine ⟨_, pre, suf, rfl, ?_, ?_, rfl, rfl, r2, rfl, ha2, hb2, ?_⟩
      · rw [htl, ← hfr1]
        exact hpre
      · simp only [BTree.toList]
        exact hpost
      · intro r0 hr0
        injection hr0 with h3
        rw [← h3, hh2, hhr1]
    · rw [if_neg hfull]
      obtain ⟨r2, pre, suf, hins, hpre, hpost⟩ :=
        insert_replace lt t.maxItems Htrans HnegTrans hmax fuel r x y ha hb hpw
          (by omega) hy heq
      simp only [hins]
      obtain ⟨ha2, hb2, hh2⟩ := insert_aOK lt t.maxItems fuel _ x _ r2 ha hb hins
      refine ⟨_, pre, suf, rfl, ?_, ?_, rfl, rfl, r2, rfl, ha2, hb2, ?_⟩
      · rw [htl]
        exact hpre
      · simp only [BTree.toList]
        exact hpost
      · intro r0 hr0
        injection hr0 with h3
        rw [← h3, hh2]
        omega

/-- C6: inserting `x` when an equivalent item `y` is stored replaces the
stored representative in place (the ordered sequence changes only at `y`'s
position, which now holds `x`) and returns `y`; the length is unchanged.
Hence a second insert of the same item returns it again and leaves the
ordered item sequence — so in particular membership — and the length
unchanged: inserting twice is idempotent. -/
theorem insert_equiv_replaces_and_idempotent {α : Type} (lt : α → α → Bool)
    (fuel : Nat)
    (Htrans : ∀ a b c, lt a b = true → lt b c = true → lt a c = true)
    (HnegTrans : ∀ a b c, lt a b = false → lt b c = false → lt a c = false)
    (Hirr : ∀ a, lt a a = false)
    {t : BTree α} {x y : α}
    (hmax : 1 ≤ t.maxItems)
    (hroot : ∀ r, t.root = some r → arity r = true ∧ balanced r = true ∧
      height r + 3 ≤ fuel)
    (hpw : List.Pairwise (fun a b => lt a b = true) (BTree.toList t))
    (hy : y ∈ BTree.toList t) (heq : equivI lt y x) :
    ∃ t' pre suf,
      BTree.ReplaceOrInsert lt fuel t x = some (some y, t') ∧
      BTree.toList t = pre ++ y :: suf ∧
      BTree.toList t' = pre ++ x :: suf ∧
      t'.length = t.length ∧
      ∃ t'', BTree.ReplaceOrInsert lt fuel t' x = some (some x, t'') ∧
        BTree.toList t'' = BTree.toList t' ∧ t''.length = t'.length := by
  obtain ⟨r, hr⟩ : ∃ r, t.root = some r := by
    cases hr : t.root with
    | none =>
      exfalso
      simp only [BTree.toList, hr] at hy
      cases hy
    | some r => exact ⟨r, rfl⟩
  have hroot2 : ∀ r0, t.root = some r0 → arity r0 = true ∧ balanced r0 = true ∧
      height r0 + 2 ≤ fuel := by
    intro r0 hr0
    obtain ⟨h1, h2, h3⟩ := hroot r0 hr0
    exact ⟨h1, h2, by omega⟩
  obtain ⟨t', pre, suf, hins, hpre, hpost, hlen, hdeg, r2, hr2, ha2, hb2, hh2⟩ :=
    ReplaceOrInsert_replace lt fuel Htrans HnegTrans hmax hroot2 hpw hy heq
  have hmax' : 1 ≤ t'.maxItems := by
    have h := hmax
    simp only [BTree.maxItems] at h ⊢
    rw [hdeg]
    exact h
  have hroot' : ∀ r0, t'.root = some r0 → arity r0 = true ∧ balanced r0 = true ∧
      height r0 + 2 ≤ fuel := by
    intro r0 hr0
    rw [hr2] at hr0
    injection hr0 with h3
    obtain ⟨_, _, hf⟩ := hroot r hr
    have h4 := hh2 r hr
    exact ⟨h3 ▸ ha2, h3 ▸ hb2, by rw [← h3]; omega⟩
  have hpw' : List.Pairwise (fun a b => lt a b = true) (BTree.toList t') := by
    rw [hpost]
    rw [hpre] at hpw
    exact pairwise_replace HnegTrans heq hpw
  have hy' : x ∈ BTree.toList t' := by
    rw [hpost]
    exact List.mem_append.mpr (Or.inr (List.mem_cons_self x suf))
  obtain ⟨t'', pre2, suf2, hins2, hpre2, hpost2, hlen2, _, _⟩ :=
    ReplaceOrInsert_replace lt fuel Htrans HnegTrans hmax' hroot' hpw' hy'
      ⟨Hirr x, Hirr x⟩
  exact ⟨t', pre, suf, hins, hpre, hpost, hlen, t'', hins2,
    by rw [hpost2, ← hpre2], hlen2⟩

theorem insert_equiv_replaces_and_idempotent_witness :
    ∃ t' pre suf,
      BTree.ReplaceOrInsert (fun a b : Nat => decide (a < b)) 3
        ⟨2, ⟨[], 4⟩, some (node.mk [1, 2, 3] []), 3⟩ 2 = some (some 2, t') ∧
      BTree.toList (⟨2, ⟨[], 4⟩, some (node.mk [1, 2, 3] []), 3⟩ : BTree Nat) =
        pre ++ 2 :: suf ∧
      BTree.toList t' = pre ++ 2 :: suf ∧
      t'.length =
        (⟨2, ⟨[], 4⟩, some (node.mk [1, 2, 3] []), 3⟩ : BTree Nat).length ∧
      ∃ t'', BTree.ReplaceOrInsert (fun a b : Nat => decide (a < b)) 3 t' 2 =
          some (some 2, t'') ∧
        BTree.toList t'' = BTree.toList t' ∧ t''.length = t'.length := by
  have htl : BTree.toList
      (⟨2, ⟨[], 4⟩, some (node.mk [1, 2, 3] []), 3⟩ : BTree Nat) = [1, 2, 3] := by
    simp only [BTree.toList]
    rw [flatten_mk, flattenAux_nil]
  refine insert_equiv_replaces_and_idempotent (fun a b : Nat => decide (a < b)) 3
    (fun a b c hab hbc => by simp at hab hbc ⊢; omega)
    (fun a b c hab hbc => by simp at hab hbc ⊢; omega)
    (fun a => by simp)
    (by simp [BTree.maxItems]) ?_ (by rw [htl]; decide) (by rw [htl]; decide)
    (by constructor <;> simp)
  intro r hr
  have hr2 : node.mk [1, 2, 3] ([] : List (node Nat)) = r := by
    injection hr with h
  rw [← hr2]
  refine ⟨(arity_mk_iff _ _).mpr ⟨Or.inl rfl, by simp⟩,
    (balanced_mk_iff _ _).mpr ⟨by simp, by simp⟩, ?_⟩
  rw [height_mk, heightAux_nil]

end BTreeGo
